import Mathlib

/-!
# fss: a backtracking Sudoku solver with Minimum-Remaining-Values ordering

A shallow embedding of `src/fss.cpp` (`struct slot`, `struct sudoku`,
`sudoku::init`, `sudoku::update_slots`, `solve`, `verify`) and proofs about it.

Modelling conventions.

* C arrays are total maps from the index: `field[9][9]` is `Nat → Nat → Nat`,
  `bool valid_values[10]` is `Nat → Bool`, `slots` is `Nat → slot` and
  `empty_slots` is `Nat → Nat`. Only the indices the C array really has carry
  meaning.
* A `slot*` into the `slots` array is the index of the slot; the null pointer
  is `none`.
* `unsigned int` values are `Nat`. The only decrement that can wrap in the
  source is `s--` at `s = 0` in `update_slots`, which the `s++` of the loop
  header undoes at once; the model continues the loop at the same `s`.
* `solve` is recursive; the model takes the remaining recursion depth as
  fuel and returns `none` when it is exceeded.
-/

namespace Fss

/-! ## Data model -/

/-- The 9x9 board, `unsigned int field[9][9]`; 0 is an empty cell. -/
abbrev Grid := Nat → Nat → Nat

/-- Transcription of `struct slot`. -/
structure slot where
  x : Nat
  y : Nat
  valid_values_count : Int
  valid_values : Nat → Bool

/-- Transcription of `struct sudoku`. -/
structure sudoku where
  field : Grid
  slots : Nat → slot
  empty_slots : Nat → Nat
  minimum_empty_slot : Option Nat
  minimum_empty_slot_index : Nat
  empty_slots_count : Nat

/-- Array write `a[i] = v` on a map. -/
def setv {α : Type} (a : Nat → α) (i : Nat) (v : α) : Nat → α :=
  fun n => if n = i then v else a n

/-- Grid write `field[x][y] = v`. -/
def setCell (g : Grid) (x y v : Nat) : Grid :=
  fun a b => if a = x ∧ b = y then v else g a b

/-- The slot constructor `slot() : x(0), y(0), valid_values_count(0)`; the
markers are not initialised by the source and are never read before
`update_slots` resets them. -/
def slot.fresh : slot :=
  { x := 0, y := 0, valid_values_count := 0, valid_values := fun _ => false }

/-- The state the reader builds for a board: the constructor's zeros, the
board, and `empty_slots_count` counted up once per empty cell. -/
def sudoku.ofGrid (g : Grid) (n : Nat) : sudoku :=
  { field := g, slots := fun _ => slot.fresh, empty_slots := fun _ => 0,
    minimum_empty_slot := none, minimum_empty_slot_index := 0,
    empty_slots_count := n }

/-! ## `sudoku::init` -/

/-- The cells of the board in the order of the two nested loops of `init`. -/
def cells : List (Nat × Nat) :=
  (List.range 9).flatMap fun i => (List.range 9).map fun j => (i, j)

/-- One step of the scan of `init`: record the cell in `slots[counter]` when
it is empty. -/
def init_step (g : Grid) (acc : (Nat → slot) × Nat) (c : Nat × Nat) :
    (Nat → slot) × Nat :=
  if g c.1 c.2 = 0 then
    (setv acc.1 acc.2 { acc.1 acc.2 with x := c.1, y := c.2 }, acc.2 + 1)
  else acc

/-- Transcription of `sudoku::init`. -/
def init (s : sudoku) : sudoku :=
  { s with
    slots := (cells.foldl (init_step s.field) (fun _ => slot.fresh, 0)).1
    empty_slots := fun i => i
    minimum_empty_slot := none }

/-! ## `sudoku::update_slots` -/

/-- The loops that clear markers: `vv[vals[k]] = false` for each value. -/
def clearAll (vals : List Nat) (vv : Nat → Bool) : Nat → Bool :=
  vals.foldl (fun a v => setv a v false) vv

/-- The values read by the loop commented "handle row": `field[i][y]`. -/
def rowVals (g : Grid) (y : Nat) : List Nat := (List.range 9).map fun i => g i y

/-- The values read by the loop commented "handle column": `field[x][i]`. -/
def colVals (g : Grid) (x : Nat) : List Nat := (List.range 9).map fun i => g x i

/-- The values read by the block loops, from `xi = (x/3)*3`, `yi = (y/3)*3`. -/
def blockVals (g : Grid) (x y : Nat) : List Nat :=
  (List.range' (x / 3 * 3) 3).flatMap fun i => (List.range' (y / 3 * 3) 3).map fun j => g i j

/-- The markers of a slot at `(x, y)` after reset, row, column and block. -/
def markers (g : Grid) (x y : Nat) : Nat → Bool :=
  clearAll (blockVals g x y) (clearAll (colVals g x) (clearAll (rowVals g y) (fun _ => true)))

/-- The loop "count valid values": the number of set markers among 1..9. -/
def countValid (vv : Nat → Bool) : Int :=
  (List.range' 1 9).foldl (fun c i => if vv i then c + 1 else c) 0

/-- The dead-end test on all ten markers. -/
def allCleared (vv : Nat → Bool) : Bool :=
  !vv 0 && !vv 1 && !vv 2 && !vv 3 && !vv 4 && !vv 5 && !vv 6 && !vv 7 && !vv 8 && !vv 9

/-- The recomputation of one slot: markers, count, and the sentinel -1. -/
def refresh (g : Grid) (t : slot) : slot :=
  let vv := markers g t.x t.y
  { t with valid_values := vv,
           valid_values_count := if allCleared vv then -1 else countValid vv }

/-- The `for` loop of `update_slots` from position `s` on, with `n` bounding
the iterations left (each one raises `s` or lowers `empty_slots_count`). -/
def update_loop : Nat → Nat → Nat → sudoku → Nat × sudoku
  | 0, _, current_zeros, st => (current_zeros, st)
  | n + 1, s, current_zeros, st =>
    if s < st.empty_slots_count then
      let k := st.empty_slots s
      let tmp := refresh st.field (st.slots k)
      let st1 := { st with slots := setv st.slots k tmp }
      if tmp.valid_values_count = 0 then
        let cnt := st1.empty_slots_count - 1
        let tmpindex := st1.empty_slots cnt
        let es1 := setv st1.empty_slots cnt (st1.empty_slots s)
        let es2 := setv es1 s tmpindex
        update_loop n s (current_zeros + 1)
          { st1 with empty_slots_count := cnt, empty_slots := es2 }
      else
        let st2 :=
          match st1.minimum_empty_slot with
          | some m =>
            if (st1.slots m).valid_values_count > tmp.valid_values_count then
              { st1 with minimum_empty_slot := some k, minimum_empty_slot_index := s }
            else st1
          | none =>
            { st1 with minimum_empty_slot := some k, minimum_empty_slot_index := s }
        update_loop n (s + 1) current_zeros st2
    else (current_zeros, st)

/-- The first part of `update_slots`: forget the old selection and scan the
pool. -/
def update_scan (st : sudoku) : Nat × sudoku :=
  update_loop st.empty_slots_count 0 0
    { st with minimum_empty_slot := none, minimum_empty_slot_index := 0 }

/-- The last part of `update_slots`, "move minimum slot to end of array". -/
def move_minimum (st : sudoku) : sudoku :=
  match st.minimum_empty_slot with
  | some _ =>
    let last := st.empty_slots_count - 1
    let tmpindex := st.empty_slots last
    let es1 := setv st.empty_slots last (st.empty_slots st.minimum_empty_slot_index)
    let es2 := setv es1 st.minimum_empty_slot_index tmpindex
    { st with empty_slots := es2 }
  | none => st

/-- Transcription of `sudoku::update_slots`; returns `current_zeros` and the
new state. -/
def update_slots (st : sudoku) : Nat × sudoku :=
  let r := update_scan st
  (r.1, move_minimum r.2)

/-! ## `solve` -/

/-- The value loop of `solve` over the digits still to try; `call` is the
recursive call, `m` is `mysloth`. Returns `(true, _)` as soon as a call
succeeds and `(false, _)` when the digits are used up. -/
def solve_values (call : sudoku → Option (Bool × sudoku)) (m current_zeros : Nat) :
    List Nat → sudoku → Option (Bool × sudoku)
  | [], st => some (false, st)
  | i :: rest, st =>
    if (st.slots m).valid_values i then
      let st1 := { st with field := setCell st.field (st.slots m).x (st.slots m).y i }
      match call st1 with
      | none => none
      | some (true, st2) =>
        some (true, { st2 with
          empty_slots_count := st2.empty_slots_count + current_zeros + 1 })
      | some (false, st2) => solve_values call m current_zeros rest st2
    else solve_values call m current_zeros rest st

/-- The failure exit of `solve`: clear the cell of `mysloth`, give the slots
back. -/
def solve_cleanup (m current_zeros : Nat) (st : sudoku) : sudoku :=
  { st with
    field := setCell st.field (st.slots m).x (st.slots m).y 0
    empty_slots_count := st.empty_slots_count + current_zeros + 1 }

/-- The body of `solve`, with the recursive call `solve(sudoku_instance, r+1)`
as the parameter `call`. The decrement `empty_slots_count--` is reached only
with a slot selected, hence with a count of at least 1. -/
def solve_body (call : sudoku → Option (Bool × sudoku)) (st : sudoku) :
    Option (Bool × sudoku) :=
  let r := update_slots st
  let current_zeros := r.1
  let st1 := r.2
  match st1.minimum_empty_slot with
  | none =>
    some (true, { st1 with empty_slots_count := st1.empty_slots_count + current_zeros })
  | some m =>
    let st2 := { st1 with empty_slots_count := st1.empty_slots_count - 1 }
    if (st2.slots m).valid_values_count ≠ -1 then
      match solve_values call m current_zeros (List.range' 1 9) st2 with
      | none => none
      | some (true, st3) => some (true, st3)
      | some (false, st3) => some (false, solve_cleanup m current_zeros st3)
    else some (false, solve_cleanup m current_zeros st2)

/-- Transcription of `solve`. The first argument is the recursion depth still
allowed; `none` means it was exceeded. The source's second parameter `r`
counts the depth upwards and is never read; it is left out. -/
def solve : Nat → sudoku → Option (Bool × sudoku)
  | 0, _ => none
  | fuel + 1, st => solve_body (solve fuel) st

/-- The function `solve` with a check at every recursive call: the call is
made only when the callee is entered with a smaller `empty_slots_count` than
its caller was; otherwise the run is abandoned (`none`). -/
def solve_checked : Nat → sudoku → Option (Bool × sudoku)
  | 0, _ => none
  | fuel + 1, st =>
    solve_body
      (fun s => if s.empty_slots_count < st.empty_slots_count then solve_checked fuel s else none)
      st

/-! ## `verify` -/

/-- The marking loop of `verify`: `occured[v] = true` for each value read,
starting from the all-false array. -/
def occured (vals : List Nat) : Nat → Bool :=
  vals.foldl (fun a v => setv a v true) (fun _ => false)

/-- The test after each marking loop: 0 did not occur, 1..9 all did. -/
def occuredOk (occ : Nat → Bool) : Bool :=
  !occ 0 && (List.range' 1 9).all fun ii => occ ii

/-- The values marked in one round of the third pass of `verify`: `occured`
is reset once per `i` and then marked over `j = 0, 3, 6`, rows `i..i+2`. -/
def bandVals (g : Grid) (i : Nat) : List Nat :=
  [0, 3, 6].flatMap fun j =>
    (List.range' i 3).flatMap fun m => (List.range' j 3).map fun n => g m n

/-- Transcription of `verify`: the three passes over rows, columns and
"blocks"; a `return false` inside a pass makes the conjunction false. -/
def verify (st : sudoku) : Bool :=
  ((List.range 9).all fun i => occuredOk (occured ((List.range 9).map fun j => st.field i j)))
  && ((List.range 9).all fun i => occuredOk (occured ((List.range 9).map fun j => st.field j i)))
  && ([0, 3, 6].all fun i => occuredOk (occured (bandVals st.field i)))

/-! ## Running the solver on a board -/

/-- A board given by its rows. -/
def gridOf (rows : List (List Nat)) : Grid :=
  fun i j => (rows.getD i []).getD j 0

/-- The number of empty cells of the board. -/
def zeros (g : Grid) : Nat := (cells.filter fun c => g c.1 c.2 = 0).length

/-- The model `main` hands to `solve`: the board with `empty_slots_count`
its number of empty cells, after `init`. -/
def start (g : Grid) : sudoku := init (sudoku.ofGrid g (zeros g))

/-- The top-level `solve` on the initialised model; the recursion depth
allowed is one level per empty cell and one for the last call. -/
def run (g : Grid) : Option (Bool × sudoku) := solve (zeros g + 1) (start g)

/-! ## Specification vocabulary -/

/-- The digits a cell may hold. -/
def digits : List Nat := List.range' 1 9

/-- The cells of row `i`. -/
def rowCells (i : Nat) : List (Nat × Nat) := (List.range 9).map fun j => (i, j)

/-- The cells of column `j`. -/
def colCells (j : Nat) : List (Nat × Nat) := (List.range 9).map fun i => (i, j)

/-- The cells of the 3x3 block number `b` (blocks numbered row-major, 0..8). -/
def blockCells (b : Nat) : List (Nat × Nat) :=
  (List.range' (b / 3 * 3) 3).flatMap fun i => (List.range' (b % 3 * 3) 3).map fun j => (i, j)

/-- The number of cells of the unit `u` that hold `d`. -/
def occurrences (g : Grid) (u : List (Nat × Nat)) (d : Nat) : Nat :=
  (u.map fun c => g c.1 c.2).count d

/-- Every entry of the 9x9 board is in 0..9. -/
def InRange (g : Grid) : Prop := ∀ i < 9, ∀ j < 9, g i j ≤ 9

/-- The unit `u` contains each digit 1..9 exactly once. -/
def ExactlyOnce (g : Grid) (u : List (Nat × Nat)) : Prop :=
  ∀ d ∈ digits, occurrences g u d = 1

/-- The unit `u` contains no digit 1..9 twice. -/
def NoRepeat (g : Grid) (u : List (Nat × Nat)) : Prop :=
  ∀ d ∈ digits, occurrences g u d ≤ 1

/-- Every row contains each digit 1..9 exactly once. -/
def RowsComplete (g : Grid) : Prop := ∀ i < 9, ExactlyOnce g (rowCells i)

/-- Every column contains each digit 1..9 exactly once. -/
def ColsComplete (g : Grid) : Prop := ∀ j < 9, ExactlyOnce g (colCells j)

/-- Every 3x3 block contains each digit 1..9 exactly once. -/
def BlocksComplete (g : Grid) : Prop := ∀ b < 9, ExactlyOnce g (blockCells b)

/-- A valid completed Sudoku grid. -/
def Solved (g : Grid) : Prop := RowsComplete g ∧ ColsComplete g ∧ BlocksComplete g

/-- No row, column or 3x3 block contains a duplicate nonzero digit. -/
def Consistent (g : Grid) : Prop :=
  (∀ i < 9, NoRepeat g (rowCells i)) ∧ (∀ j < 9, NoRepeat g (colCells j))
  ∧ (∀ b < 9, NoRepeat g (blockCells b))

/-- Every cell of the 9x9 board holds a digit 1..9. -/
def Filled (g : Grid) : Prop := ∀ i < 9, ∀ j < 9, 1 ≤ g i j ∧ g i j ≤ 9

/-- The board `h` keeps every nonzero cell of `g`. -/
def Keeps (g h : Grid) : Prop := ∀ i < 9, ∀ j < 9, g i j ≠ 0 → h i j = g i j

/-- The boards agree on the whole 9x9 square. -/
def SameBoard (g h : Grid) : Prop := ∀ i < 9, ∀ j < 9, h i j = g i j

/-- The values in the row, the column and the block of the cell `(x, y)`. -/
def nearVals (g : Grid) (x y : Nat) : List Nat :=
  (rowCells x ++ colCells y ++ blockCells (x / 3 * 3 + y / 3)).map fun c => g c.1 c.2

/-- The cell `(x, y)` is an empty cell of the board. -/
def EmptyCells (g : Grid) (x y : Nat) : Prop := x < 9 ∧ y < 9 ∧ g x y = 0

instance (g : Grid) : Decidable (InRange g) := by unfold InRange; infer_instance
instance (g : Grid) (u : List (Nat × Nat)) : Decidable (ExactlyOnce g u) := by
  unfold ExactlyOnce; infer_instance
instance (g : Grid) (u : List (Nat × Nat)) : Decidable (NoRepeat g u) := by
  unfold NoRepeat; infer_instance
instance (g : Grid) : Decidable (RowsComplete g) := by unfold RowsComplete; infer_instance
instance (g : Grid) : Decidable (ColsComplete g) := by unfold ColsComplete; infer_instance
instance (g : Grid) : Decidable (BlocksComplete g) := by unfold BlocksComplete; infer_instance
instance (g : Grid) : Decidable (Solved g) := by unfold Solved; infer_instance
instance (g : Grid) : Decidable (Consistent g) := by unfold Consistent; infer_instance
instance (g : Grid) : Decidable (Filled g) := by unfold Filled; infer_instance
instance (g h : Grid) : Decidable (Keeps g h) := by unfold Keeps; infer_instance
instance (g h : Grid) : Decidable (SameBoard g h) := by unfold SameBoard; infer_instance

/-! ## Proof vocabulary -/

/-- Two different cells that share a row, a column or a block. -/
def peer (x y a b : Nat) : Prop :=
  ¬ (a = x ∧ b = y) ∧ (a = x ∨ b = y ∨ (a / 3 = x / 3 ∧ b / 3 = y / 3))

/-- The cell `(x, y)` belongs to a slot of the active pool. -/
def Act (st : sudoku) (x y : Nat) : Prop :=
  ∃ k < st.empty_slots_count,
    (st.slots (st.empty_slots k)).x = x ∧ (st.slots (st.empty_slots k)).y = y

/-- The active slots sit on the board, on pairwise different cells. -/
def PoolOK (st : sudoku) : Prop :=
  (∀ k < st.empty_slots_count,
    (st.slots (st.empty_slots k)).x < 9 ∧ (st.slots (st.empty_slots k)).y < 9) ∧
  (∀ k < st.empty_slots_count, ∀ l < st.empty_slots_count,
    (st.slots (st.empty_slots k)).x = (st.slots (st.empty_slots l)).x →
    (st.slots (st.empty_slots k)).y = (st.slots (st.empty_slots l)).y → k = l)

/-- The cell of every active slot is empty. -/
def ZeroAt (st : sudoku) : Prop :=
  ∀ k < st.empty_slots_count,
    st.field (st.slots (st.empty_slots k)).x (st.slots (st.empty_slots k)).y = 0

/-- The pool of `b` is the pool of `a` rearranged: same count, same slot
coordinates, same indices in the active part, the rest untouched. -/
def SamePool (a b : sudoku) : Prop :=
  b.empty_slots_count = a.empty_slots_count ∧
  (∀ j, (b.slots j).x = (a.slots j).x ∧ (b.slots j).y = (a.slots j).y) ∧
  (∀ k, a.empty_slots_count ≤ k → b.empty_slots k = a.empty_slots k) ∧
  (∀ k < a.empty_slots_count, ∃ l < a.empty_slots_count, b.empty_slots k = a.empty_slots l) ∧
  (∀ k < a.empty_slots_count, ∃ l < a.empty_slots_count, a.empty_slots k = b.empty_slots l) ∧
  (∀ j, (∀ k < a.empty_slots_count, a.empty_slots k ≠ j) → b.slots j = a.slots j)

/-- The board `h` fills the cells of `A` in `g` with digits, each different
from every peer, and leaves the other cells alone. -/
def Fills (A : Nat → Nat → Prop) (g h : Grid) : Prop :=
  (∀ x y, ¬ A x y → h x y = g x y) ∧
  (∀ x y, A x y → 1 ≤ h x y ∧ h x y ≤ 9 ∧
    ∀ a b, a < 9 → b < 9 → peer x y a b → h a b ≠ h x y)

/-- What one call of `solve` achieves, from `st` to `st2` with result `b`: the
pool is kept; on failure the board is restored and the pool has no filling;
on success the board is a filling of the pool. -/
def Post (st : sudoku) (b : Bool) (st2 : sudoku) : Prop :=
  SamePool st st2 ∧ PoolOK st2 ∧
  (b = false → (∀ x y, st2.field x y = st.field x y) ∧ ¬ ∃ h, Fills (Act st) st.field h) ∧
  (b = true → Fills (Act st) st.field st2.field)

/-! ## Sample boards -/

/-- A valid completed Sudoku grid. -/
def fullBoard : Grid := gridOf [
  [5, 3, 4, 6, 7, 8, 9, 1, 2],
  [6, 7, 2, 1, 9, 5, 3, 4, 8],
  [1, 9, 8, 3, 4, 2, 5, 6, 7],
  [8, 5, 9, 7, 6, 1, 4, 2, 3],
  [4, 2, 6, 8, 5, 3, 7, 9, 1],
  [7, 1, 3, 9, 2, 4, 8, 5, 6],
  [9, 6, 1, 5, 3, 7, 2, 8, 4],
  [2, 8, 7, 4, 1, 9, 6, 3, 5],
  [3, 4, 5, 2, 8, 6, 1, 7, 9]]

/-- The board `fullBoard` with its first cell emptied. -/
def oneGap : Grid := setCell fullBoard 0 0 0

/-- The board `fullBoard` with four cells emptied. -/
def fourGaps : Grid := setCell (setCell (setCell (setCell fullBoard 0 0 0) 0 1 0) 4 4 0) 8 8 0

/-- A board with two empty cells in row 0 that both admit the digit 8 only. -/
def clash : Grid := gridOf [
  [0, 0, 1, 2, 3, 4, 5, 6, 7],
  [9, 9, 9, 9, 9, 9, 9, 9, 9],
  [9, 9, 9, 9, 9, 9, 9, 9, 9],
  [9, 9, 9, 9, 9, 9, 9, 9, 9],
  [9, 9, 9, 9, 9, 9, 9, 9, 9],
  [9, 9, 9, 9, 9, 9, 9, 9, 9],
  [9, 9, 9, 9, 9, 9, 9, 9, 9],
  [9, 9, 9, 9, 9, 9, 9, 9, 9],
  [9, 9, 9, 9, 9, 9, 9, 9, 9]]

/-- The full board that holds 1 in every cell. -/
def ones : Grid := fun _ _ => 1

/-- A Latin square that is not a Sudoku grid: every row and column holds each
digit once, the blocks do not. -/
def latin : Grid := fun i j => (i + j) % 9 + 1

/-- The all-zero board. -/
def blank : Grid := fun _ _ => 0

/-! ## Vocabulary for the slot pool -/

/-- The empty cells of the board, in the scan order of `init`. -/
def zeroCells (g : Grid) : List (Nat × Nat) := cells.filter fun c => g c.1 c.2 = 0

/-- The cell `a` comes before the cell `b` in row-major order. -/
def rowMajor (a b : Nat × Nat) : Prop := a.1 < b.1 ∨ (a.1 = b.1 ∧ a.2 < b.2)

instance : DecidableRel rowMajor := fun a b => by unfold rowMajor; infer_instance

/-- The number of initially empty cells of `g` that hold a nonzero digit in
`h`. -/
def assigned (g h : Grid) : Nat :=
  (cells.filter fun c => g c.1 c.2 = 0 ∧ h c.1 c.2 ≠ 0).length

/-- The number of slots set aside as exhausted: the positions of
`empty_slots` from `empty_slots_count` up to `n` whose slot has
`valid_values_count` 0. -/
def setAside (st : sudoku) (n : Nat) : Nat :=
  ((List.range n).filter fun p =>
    st.empty_slots_count ≤ p ∧ (st.slots (st.empty_slots p)).valid_values_count = 0).length

/-- The slot `t` carries the markers and the count that `update_slots`
computes for it on the board `g`. -/
def Fresh (g : Grid) (t : slot) : Prop := refresh g t = t

/-- The selection of `update_slots` after the positions below `s` of the pool
`es` have been scanned: nothing when `s = 0`, else the slot at a position
`idx < s` whose count (as recomputed on `g`) is the smallest among the
positions below `s`, and strictly smaller than at every position before
`idx`. -/
def Selected (g : Grid) (es : Nat → Nat) (sl : Nat → slot) (s : Nat) (sel : Option Nat)
    (idx : Nat) : Prop :=
  match sel with
  | none => s = 0
  | some m =>
    idx < s ∧ m = es idx ∧
    (∀ k < s, (refresh g (sl (es idx))).valid_values_count
      ≤ (refresh g (sl (es k))).valid_values_count) ∧
    (∀ k < idx, (refresh g (sl (es idx))).valid_values_count
      < (refresh g (sl (es k))).valid_values_count)

/-- The dead-end test restricted to the markers 1..9. -/
def allCleared9 (vv : Nat → Bool) : Bool :=
  !vv 1 && !vv 2 && !vv 3 && !vv 4 && !vv 5 && !vv 6 && !vv 7 && !vv 8 && !vv 9

/-- The recomputation of one slot with the dead-end test on the markers 1..9
only. -/
def refresh9 (g : Grid) (t : slot) : slot :=
  let vv := markers g t.x t.y
  { t with valid_values := vv,
           valid_values_count := if allCleared9 vv then -1 else countValid vv }

/-! ## States in which `solve` is entered -/

/-- The array `empty_slots` of a model with `N` slots: the count is at most
`N` and the entries 0..N-1 are a permutation of 0..N-1. -/
def WellFormed (N : Nat) (st : sudoku) : Prop :=
  st.empty_slots_count ≤ N ∧ (∀ k < N, st.empty_slots k < N) ∧
  (∀ k < N, ∀ l < N, st.empty_slots k = st.empty_slots l → k = l)

/-- What holds of a state of a model with `N` slots when `solve` is entered:
board entries in 0..9, active slots on pairwise different empty cells of the
board, `empty_slots` a permutation. -/
def Entry (N : Nat) (st : sudoku) : Prop :=
  InRange st.field ∧ PoolOK st ∧ ZeroAt st ∧ WellFormed N st

instance (N : Nat) (st : sudoku) : Decidable (Entry N st) := by
  unfold Entry PoolOK ZeroAt WellFormed; infer_instance

/-- The function `solve`, abandoned (`none`) as soon as `solve` is entered in
a state of which `P` does not hold. -/
def solve_where (P : sudoku → Prop) [DecidablePred P] : Nat → sudoku → Option (Bool × sudoku)
  | 0, _ => none
  | fuel + 1, st => if P st then solve_body (solve_where P fuel) st else none

/-- The `valid_values_count` of the slot at position `k` of `empty_slots`. -/
def countAt (st : sudoku) (k : Nat) : Int := (st.slots (st.empty_slots k)).valid_values_count

/-- The cell of the slot at position `k` of `empty_slots`. -/
def cellAt (st : sudoku) (k : Nat) : Nat × Nat :=
  ((st.slots (st.empty_slots k)).x, (st.slots (st.empty_slots k)).y)

/-- The tie-break of the specification for the slot at position `k` of a
state `r` as `update_slots` leaves it: when this slot has the smallest
positive count and shares it with another active slot, the selected slot has
that count too and the slot at `k` does not come before it in row-major
order. -/
def TieRowMajorAt (r : sudoku) (k : Nat) : Prop :=
  0 < countAt r k →
  (∀ l < r.empty_slots_count, 0 < countAt r l → countAt r k ≤ countAt r l) →
  (∃ l < r.empty_slots_count, l ≠ k ∧ countAt r l = countAt r k) →
  ∃ m ∈ r.minimum_empty_slot,
    (r.slots m).valid_values_count = countAt r k ∧
    ¬ rowMajor (cellAt r k) ((r.slots m).x, (r.slots m).y)

/-- The tie-break of the specification on a state `r` as `update_slots`
leaves it: whenever several active slots share the smallest positive count,
the selected slot is the one among them that comes first in row-major
order. -/
def TieRowMajorAfter (r : sudoku) : Prop := ∀ k < r.empty_slots_count, TieRowMajorAt r k

/-- The tie-break of the specification, for the call of `update_slots` made
when `solve` is entered in `st`. -/
def TieRowMajor (st : sudoku) : Prop := TieRowMajorAfter (update_slots st).2

/-- The tie-break of the code, for the call of `update_slots` made when
`solve` is entered in `st`: the selected slot is the one at the first
position of `empty_slots`, as it is at entry, among the active slots of the
smallest count; nothing is selected when the pool is empty. -/
def TieScanFirst (st : sudoku) : Prop :=
  (st.empty_slots_count = 0 → (update_slots st).2.minimum_empty_slot = none) ∧
  (0 < st.empty_slots_count → ∃ idx < st.empty_slots_count,
    (update_slots st).2.minimum_empty_slot = some (st.empty_slots idx) ∧
    (∀ k < st.empty_slots_count,
      ((update_slots st).2.slots (st.empty_slots idx)).valid_values_count
        ≤ ((update_slots st).2.slots (st.empty_slots k)).valid_values_count) ∧
    (∀ k < idx,
      ((update_slots st).2.slots (st.empty_slots idx)).valid_values_count
        < ((update_slots st).2.slots (st.empty_slots k)).valid_values_count))

/-- Nothing is set aside by a call of `update_slots` that returns `cz` and
the state `r` on a pool of `c` slots: it returns 0 and keeps
`empty_slots_count`, no active slot ends with count 0, and an active slot on
the board with no legal digit has count -1. -/
def NoneAsideAfter (c cz : Nat) (r : sudoku) : Prop :=
  cz = 0 ∧ r.empty_slots_count = c ∧
  ∀ k < r.empty_slots_count,
    countAt r k ≠ 0 ∧
    ((cellAt r k).1 < 9 → (cellAt r k).2 < 9 →
      (∀ d ∈ digits, d ∈ nearVals r.field (cellAt r k).1 (cellAt r k).2) →
      countAt r k = -1)

/-- Nothing is set aside by the call of `update_slots` made when `solve` is
entered in `st`. -/
def NoneAside (st : sudoku) : Prop :=
  NoneAsideAfter st.empty_slots_count (update_slots st).1 (update_slots st).2

instance (r : sudoku) (k : Nat) : Decidable (TieRowMajorAt r k) := by
  unfold TieRowMajorAt; infer_instance
instance (r : sudoku) : Decidable (TieRowMajorAfter r) := by
  unfold TieRowMajorAfter; infer_instance
instance (st : sudoku) : Decidable (TieRowMajor st) := by unfold TieRowMajor; infer_instance
instance (c cz : Nat) (r : sudoku) : Decidable (NoneAsideAfter c cz r) := by
  unfold NoneAsideAfter; infer_instance
instance (st : sudoku) : Decidable (TieScanFirst st) := by unfold TieScanFirst; infer_instance
instance (st : sudoku) : Decidable (NoneAside st) := by unfold NoneAside; infer_instance

/-! ## The solver with every array access checked

A second copy of `update_slots` and `solve` for a model with `N` slots: the
same steps, each one taken only when the array accesses it makes are in
bounds (`field[9][9]`, `valid_values[10]`, `slots[N]`, `empty_slots[N]`) and
the value it writes into the board is in 0..9; otherwise the run is
abandoned (`none`). -/

/-- The accesses of the recomputation of the slot `t` are in bounds: the cells
read are cells of the board and the markers they index exist. -/
def marksInBounds (g : Grid) (t : slot) : Prop :=
  t.x < 9 ∧ t.y < 9 ∧ ∀ v ∈ rowVals g t.y ++ colVals g t.x ++ blockVals g t.x t.y, v < 10

instance (g : Grid) (t : slot) : Decidable (marksInBounds g t) := by
  unfold marksInBounds; infer_instance

/-- The loop of `update_slots` with its accesses checked: `empty_slots[s]`,
`slots[empty_slots[s]]`, the cells and markers of the recomputation,
`empty_slots[empty_slots_count]` after the decrement, and the slot
`minimum_empty_slot` points to. -/
def update_loop_safe (N : Nat) : Nat → Nat → Nat → sudoku → Option (Nat × sudoku)
  | 0, _, current_zeros, st => some (current_zeros, st)
  | n + 1, s, current_zeros, st =>
    if s < st.empty_slots_count then
      if s < N ∧ st.empty_slots s < N ∧ marksInBounds st.field (st.slots (st.empty_slots s)) then
        let k := st.empty_slots s
        let tmp := refresh st.field (st.slots k)
        let st1 := { st with slots := setv st.slots k tmp }
        if tmp.valid_values_count = 0 then
          let cnt := st1.empty_slots_count - 1
          if cnt < N then
            let tmpindex := st1.empty_slots cnt
            let es1 := setv st1.empty_slots cnt (st1.empty_slots s)
            let es2 := setv es1 s tmpindex
            update_loop_safe N n s (current_zeros + 1)
              { st1 with empty_slots_count := cnt, empty_slots := es2 }
          else none
        else
          match st1.minimum_empty_slot with
          | some m =>
            if m < N then
              if (st1.slots m).valid_values_count > tmp.valid_values_count then
                update_loop_safe N n (s + 1) current_zeros
                  { st1 with minimum_empty_slot := some k, minimum_empty_slot_index := s }
              else update_loop_safe N n (s + 1) current_zeros st1
            else none
          | none =>
            update_loop_safe N n (s + 1) current_zeros
              { st1 with minimum_empty_slot := some k, minimum_empty_slot_index := s }
      else none
    else some (current_zeros, st)

/-- The end of `update_slots` with its accesses checked:
`empty_slots[empty_slots_count-1]`, read only with a count of at least 1, and
`empty_slots[minimum_empty_slot_index]`. -/
def move_minimum_safe (N : Nat) (st : sudoku) : Option sudoku :=
  match st.minimum_empty_slot with
  | some _ =>
    if 1 ≤ st.empty_slots_count ∧ st.empty_slots_count - 1 < N ∧ st.minimum_empty_slot_index < N
    then some (move_minimum st)
    else none
  | none => some st

/-- The function `update_slots` with every access checked. -/
def update_slots_safe (N : Nat) (st : sudoku) : Option (Nat × sudoku) :=
  match update_loop_safe N st.empty_slots_count 0 0
      { st with minimum_empty_slot := none, minimum_empty_slot_index := 0 } with
  | none => none
  | some r =>
    match move_minimum_safe N r.2 with
    | none => none
    | some st1 => some (r.1, st1)

/-- The value loop of `solve` with its accesses checked: the slot `mysloth`
points to, its marker `i`, the cell written and the value written. -/
def solve_values_safe (N : Nat) (call : sudoku → Option (Bool × sudoku))
    (m current_zeros : Nat) : List Nat → sudoku → Option (Bool × sudoku)
  | [], st => some (false, st)
  | i :: rest, st =>
    if m < N ∧ i < 10 then
      if (st.slots m).valid_values i then
        if (st.slots m).x < 9 ∧ (st.slots m).y < 9 ∧ i ≤ 9 then
          let st1 := { st with field := setCell st.field (st.slots m).x (st.slots m).y i }
          match call st1 with
          | none => none
          | some (true, st2) =>
            some (true, { st2 with
              empty_slots_count := st2.empty_slots_count + current_zeros + 1 })
          | some (false, st2) => solve_values_safe N call m current_zeros rest st2
        else none
      else solve_values_safe N call m current_zeros rest st
    else none

/-- The failure exit of `solve` with its accesses checked: the slot `mysloth`
points to and the cell cleared. -/
def solve_cleanup_safe (N m current_zeros : Nat) (st : sudoku) : Option sudoku :=
  if m < N ∧ (st.slots m).x < 9 ∧ (st.slots m).y < 9 then
    some (solve_cleanup m current_zeros st)
  else none

/-- The body of `solve` with every access checked. -/
def solve_body_safe (N : Nat) (call : sudoku → Option (Bool × sudoku)) (st : sudoku) :
    Option (Bool × sudoku) :=
  match update_slots_safe N st with
  | none => none
  | some r =>
    match r.2.minimum_empty_slot with
    | none =>
      some (true, { r.2 with empty_slots_count := r.2.empty_slots_count + r.1 })
    | some m =>
      if m < N then
        if ({ r.2 with empty_slots_count := r.2.empty_slots_count - 1 }.slots m).valid_values_count
            ≠ -1 then
          match solve_values_safe N call m r.1 (List.range' 1 9)
              { r.2 with empty_slots_count := r.2.empty_slots_count - 1 } with
          | none => none
          | some (true, st3) => some (true, st3)
          | some (false, st3) => (solve_cleanup_safe N m r.1 st3).map fun s => (false, s)
        else
          (solve_cleanup_safe N m r.1
            { r.2 with empty_slots_count := r.2.empty_slots_count - 1 }).map fun s => (false, s)
      else none

/-- The function `solve` with every access checked. -/
def solve_safe (N : Nat) : Nat → sudoku → Option (Bool × sudoku)
  | 0, _ => none
  | fuel + 1, st => solve_body_safe N (solve_safe N fuel) st

/-- The recursive call of the body of `solve` entered in `st`, made only on
states in which the cell of the slot that `update_slots` selects in `st` is a
cell of the board. -/
def call_on_board (st : sudoku) (call : sudoku → Option (Bool × sudoku)) :
    sudoku → Option (Bool × sudoku) :=
  fun s =>
    match (update_slots st).2.minimum_empty_slot with
    | some m => if (s.slots m).x < 9 ∧ (s.slots m).y < 9 then call s else none
    | none => call s

/-! ## Markers and the recomputation of one slot -/

theorem clearAll_eq_true (vals : List Nat) (vv : Nat → Bool) (d : Nat) :
    clearAll vals vv d = true ↔ vv d = true ∧ d ∉ vals := by
  induction vals generalizing vv with
  | nil => simp [clearAll]
  | cons v vs ih =>
    have h := ih (setv vv v false)
    simp only [clearAll, List.foldl_cons] at h ⊢
    rw [h]
    by_cases hd : d = v
    · simp [setv, hd]
    · simp [setv, hd]

theorem mem_rowVals (g : Grid) (y d : Nat) : d ∈ rowVals g y ↔ ∃ i < 9, g i y = d := by
  simp [rowVals]

theorem mem_colVals (g : Grid) (x d : Nat) : d ∈ colVals g x ↔ ∃ i < 9, g x i = d := by
  simp [colVals]

theorem mem_blockVals (g : Grid) (x y d : Nat) :
    d ∈ blockVals g x y ↔ ∃ i j, i / 3 = x / 3 ∧ j / 3 = y / 3 ∧ g i j = d := by
  simp only [blockVals, List.mem_flatMap, List.mem_map, List.mem_range']
  constructor
  · rintro ⟨i, ⟨a, ha, rfl⟩, j, ⟨b, hb, rfl⟩, h⟩
    exact ⟨_, _, by omega, by omega, h⟩
  · rintro ⟨i, j, hi, hj, h⟩
    exact ⟨i, ⟨i - x / 3 * 3, by omega, by omega⟩, j, ⟨j - y / 3 * 3, by omega, by omega⟩, h⟩

/-- A marker is set exactly when the digit is in no cell of the row, the
column and the block of the slot. -/
theorem markers_eq_true (g : Grid) (x y d : Nat) :
    markers g x y d = true ↔
      (∀ i < 9, g i y ≠ d) ∧ (∀ i < 9, g x i ≠ d) ∧
      (∀ i j, i / 3 = x / 3 → j / 3 = y / 3 → g i j ≠ d) := by
  simp only [markers, clearAll_eq_true, mem_rowVals, mem_colVals, mem_blockVals]
  constructor
  · rintro ⟨⟨⟨-, h1⟩, h2⟩, h3⟩
    refine ⟨fun i hi h => h1 ⟨i, hi, h⟩, fun i hi h => h2 ⟨i, hi, h⟩,
      fun i j hi hj h => h3 ⟨i, j, hi, hj, h⟩⟩
  · rintro ⟨h1, h2, h3⟩
    refine ⟨⟨⟨trivial, ?_⟩, ?_⟩, ?_⟩
    · rintro ⟨i, hi, h⟩; exact h1 i hi h
    · rintro ⟨i, hi, h⟩; exact h2 i hi h
    · rintro ⟨i, j, hi, hj, h⟩; exact h3 i j hi hj h

/-- The marker of the value of a cell in the slot's own row is cleared. -/
theorem markers_own (g : Grid) (x y : Nat) (hx : x < 9) : markers g x y (g x y) = false := by
  rw [Bool.eq_false_iff]
  intro h
  exact ((markers_eq_true g x y (g x y)).1 h).1 x hx rfl

theorem countValid_fold_nonneg (vv : Nat → Bool) (l : List Nat) (c : Int) (hc : 0 ≤ c) :
    0 ≤ l.foldl (fun c i => if vv i then c + 1 else c) c := by
  induction l generalizing c with
  | nil => simpa using hc
  | cons a l ih =>
    simp only [List.foldl_cons]
    apply ih
    split <;> omega

theorem countValid_nonneg (vv : Nat → Bool) : 0 ≤ countValid vv :=
  countValid_fold_nonneg vv _ 0 (le_refl 0)

theorem countValid_fold_pos (vv : Nat → Bool) (l : List Nat) (c : Int) (hc : 0 < c) :
    0 < l.foldl (fun c i => if vv i then c + 1 else c) c := by
  induction l generalizing c with
  | nil => simpa using hc
  | cons a l ih =>
    simp only [List.foldl_cons]
    apply ih
    split <;> omega

theorem countValid_fold_zero (vv : Nat → Bool) (l : List Nat)
    (h : l.foldl (fun c i => if vv i then c + 1 else c) (0 : Int) = 0) :
    ∀ i ∈ l, vv i = false := by
  induction l with
  | nil => simp
  | cons a l ih =>
    simp only [List.foldl_cons] at h
    by_cases ha : vv a = true
    · simp only [ha, if_true] at h
      have := countValid_fold_pos vv l (0 + 1) (by omega)
      omega
    · simp only [ha] at h
      intro i hi
      rcases List.mem_cons.1 hi with rfl | hi
      · simpa using ha
      · exact ih h i hi

/-- A count of zero means that no marker among 1..9 is set. -/
theorem countValid_zero (vv : Nat → Bool) (h : countValid vv = 0) :
    ∀ d ∈ digits, vv d = false :=
  countValid_fold_zero vv _ h

theorem allCleared_iff (vv : Nat → Bool) :
    allCleared vv = true ↔ vv 0 = false ∧ ∀ d ∈ digits, vv d = false := by
  simp [allCleared, digits, List.range', and_assoc]

@[simp] theorem refresh_x (g : Grid) (t : slot) : (refresh g t).x = t.x := rfl

@[simp] theorem refresh_y (g : Grid) (t : slot) : (refresh g t).y = t.y := rfl

@[simp] theorem refresh_valid_values (g : Grid) (t : slot) :
    (refresh g t).valid_values = markers g t.x t.y := rfl

theorem refresh_count (g : Grid) (t : slot) :
    (refresh g t).valid_values_count =
      if allCleared (markers g t.x t.y) then -1 else countValid (markers g t.x t.y) := rfl

/-- On an empty cell the count is never 0: with no legal digit all ten
markers are cleared and the count is the sentinel -1. -/
theorem refresh_count_ne_zero (g : Grid) (t : slot) (hx : t.x < 9) (h0 : g t.x t.y = 0) :
    (refresh g t).valid_values_count ≠ 0 := by
  rw [refresh_count]
  split
  · omega
  · rename_i hn
    intro hz
    apply hn
    rw [allCleared_iff]
    refine ⟨?_, countValid_zero _ hz⟩
    have := markers_own g t.x t.y hx
    rwa [h0] at this

/-- The sentinel -1 is set exactly when all ten markers are cleared. -/
theorem refresh_count_eq_neg_one (g : Grid) (t : slot) :
    (refresh g t).valid_values_count = -1 ↔ allCleared (markers g t.x t.y) = true := by
  rw [refresh_count]
  split
  · simp [*]
  · rename_i hn
    have := countValid_nonneg (markers g t.x t.y)
    constructor
    · intro h; omega
    · intro h; exact absurd h hn

/-! ## `update_slots` on a pool of empty cells -/

/-- The scan of `update_slots` when no slot comes out with count 0: nothing
is set aside, every slot from `s` on is recomputed from the board, and the
selected slot is one of the pool. -/
theorem update_loop_spec (n : Nat) : ∀ (s cz : Nat) (st : sudoku),
    s + n = st.empty_slots_count →
    (∀ k < st.empty_slots_count, ∀ l < st.empty_slots_count,
      st.empty_slots k = st.empty_slots l → k = l) →
    (∀ k, s ≤ k → k < st.empty_slots_count →
      (refresh st.field (st.slots (st.empty_slots k))).valid_values_count ≠ 0) →
    (∀ m, st.minimum_empty_slot = some m →
      st.minimum_empty_slot_index < st.empty_slots_count ∧
      m = st.empty_slots st.minimum_empty_slot_index) →
    (update_loop n s cz st).1 = cz ∧
    (update_loop n s cz st).2.field = st.field ∧
    (update_loop n s cz st).2.empty_slots_count = st.empty_slots_count ∧
    (update_loop n s cz st).2.empty_slots = st.empty_slots ∧
    (∀ k, s ≤ k → k < st.empty_slots_count →
      (update_loop n s cz st).2.slots (st.empty_slots k)
        = refresh st.field (st.slots (st.empty_slots k))) ∧
    (∀ j, (∀ k, s ≤ k → k < st.empty_slots_count → st.empty_slots k ≠ j) →
      (update_loop n s cz st).2.slots j = st.slots j) ∧
    (n = 0 → (update_loop n s cz st).2.minimum_empty_slot = st.minimum_empty_slot) ∧
    (∀ m, (update_loop n s cz st).2.minimum_empty_slot = some m →
      (update_loop n s cz st).2.minimum_empty_slot_index < st.empty_slots_count ∧
      m = st.empty_slots (update_loop n s cz st).2.minimum_empty_slot_index) ∧
    (0 < n → (update_loop n s cz st).2.minimum_empty_slot ≠ none) := by
  induction n with
  | zero =>
    intro s cz st hn _ _ hmin
    refine ⟨rfl, rfl, rfl, rfl, ?_, fun _ _ => rfl, fun _ => rfl, hmin, fun h => absurd h (by omega)⟩
    intro k hk hk2
    simp only [Nat.add_zero] at hn
    omega
  | succ n ih =>
    intro s cz st hn inj nz hmin
    have hs : s < st.empty_slots_count := by omega
    have hnz := nz s (le_refl s) hs
    -- the state after this iteration, whatever the selection does
    have key : ∃ st2 : sudoku,
        update_loop (n + 1) s cz st = update_loop n (s + 1) cz st2 ∧
        st2.field = st.field ∧ st2.empty_slots_count = st.empty_slots_count ∧
        st2.empty_slots = st.empty_slots ∧
        st2.slots = setv st.slots (st.empty_slots s)
          (refresh st.field (st.slots (st.empty_slots s))) ∧
        st2.minimum_empty_slot ≠ none ∧
        (∀ m, st2.minimum_empty_slot = some m →
          st2.minimum_empty_slot_index < st.empty_slots_count ∧
          m = st.empty_slots st2.minimum_empty_slot_index) := by
      simp only [update_loop, hs, if_true, hnz, if_false]
      cases hm : st.minimum_empty_slot with
      | none =>
        refine ⟨_, rfl, rfl, rfl, rfl, rfl, by simp, ?_⟩
        intro m hm2
        simp only [Option.some.injEq] at hm2
        exact ⟨hs, hm2.symm⟩
      | some m0 =>
        simp only []
        split
        · refine ⟨_, rfl, rfl, rfl, rfl, rfl, by simp, ?_⟩
          intro m hm2
          simp only [Option.some.injEq] at hm2
          exact ⟨hs, hm2.symm⟩
        · refine ⟨_, rfl, rfl, rfl, rfl, rfl, by simp [hm], ?_⟩
          intro m hm2
          exact hmin m (hm.trans hm2)
    obtain ⟨st2, hstep, hf, hc, he, hsl, hne, hmin2⟩ := key
    have hother : ∀ k, s + 1 ≤ k → k < st.empty_slots_count →
        st2.slots (st.empty_slots k) = st.slots (st.empty_slots k) := by
      intro k hk hk2
      rw [hsl]
      have : st.empty_slots k ≠ st.empty_slots s := fun h => by
        have := inj k hk2 s hs h
        omega
      simp [setv, this]
    have IH := ih (s + 1) cz st2 (by rw [hc]; omega) (by rw [hc, he]; exact inj)
      (by
        intro k hk hk2
        rw [hc] at hk2
        rw [he, hf, hother k hk hk2]
        exact nz k (by omega) hk2)
      (by
        intro m hm
        rw [hc, he]
        exact hmin2 m hm)
    rw [hstep]
    obtain ⟨h1, h2, h3, h4, h5, h6, h7, h8, h9⟩ := IH
    rw [hc, he] at h5 h6 h8
    rw [hf] at h5
    refine ⟨h1, h2.trans hf, h3.trans hc, h4.trans he, ?_, ?_, fun h => absurd h (by omega),
      h8, ?_⟩
    · intro k hk hk2
      rcases Nat.eq_or_lt_of_le hk with rfl | hlt
      · rw [h6 _ (fun l hl hl2 h => by have := inj l hl2 _ hs h; omega), hsl]
        simp [setv]
      · rw [h5 k hlt hk2, hother k hlt hk2]
    · intro j hj
      rw [h6 j (fun k hk hk2 => hj k (by omega) hk2), hsl]
      have : j ≠ st.empty_slots s := fun h => hj s (le_refl s) hs h.symm
      simp [setv, this]
    · intro _
      rcases Nat.eq_zero_or_pos n with rfl | hpos
      · rw [h7 rfl]; exact hne
      · exact h9 hpos

/-! ## The loop bounds of the model are exact -/

/-- The scan of `update_slots` stops by its own loop condition: once the
iterations allowed cover `empty_slots_count - s`, allowing more changes
nothing. -/
theorem update_loop_fuel (n : Nat) : ∀ (k s cz : Nat) (st : sudoku),
    st.empty_slots_count ≤ s + n → update_loop (n + k) s cz st = update_loop n s cz st := by
  induction n with
  | zero =>
    intro k s cz st h
    cases k with
    | zero => rfl
    | succ k =>
      have hs : ¬ s < st.empty_slots_count := by omega
      simp only [Nat.zero_add, update_loop, hs, if_false]
  | succ n ih =>
    intro k s cz st h
    rw [show n + 1 + k = (n + k) + 1 by omega]
    by_cases hs : s < st.empty_slots_count
    · simp only [update_loop, hs, if_true]
      by_cases hz : (refresh st.field (st.slots (st.empty_slots s))).valid_values_count = 0
      · simp only [hz, if_true]
        exact ih _ _ _ _ (by simp only []; omega)
      · simp only [hz, if_false]
        apply ih
        cases st.minimum_empty_slot with
        | none => simp only []; omega
        | some m =>
          simp only []
          split
          · simp only []; omega
          · simp only []; omega
    · simp only [update_loop, hs, if_false]

theorem PoolOK.inj {st : sudoku} (h : PoolOK st) :
    ∀ k < st.empty_slots_count, ∀ l < st.empty_slots_count,
      st.empty_slots k = st.empty_slots l → k = l := by
  intro k hk l hl e
  exact h.2 k hk l hl (by rw [e]) (by rw [e])

theorem SamePool.refl (a : sudoku) : SamePool a a :=
  ⟨rfl, fun _ => ⟨rfl, rfl⟩, fun _ _ => rfl, fun k hk => ⟨k, hk, rfl⟩,
    fun k hk => ⟨k, hk, rfl⟩, fun _ _ => rfl⟩

theorem SamePool.trans {a b c : sudoku} (h1 : SamePool a b) (h2 : SamePool b c) :
    SamePool a c := by
  obtain ⟨c1, x1, g1, p1, q1, s1⟩ := h1
  obtain ⟨c2, x2, g2, p2, q2, s2⟩ := h2
  rw [c1] at g2 p2 q2 s2
  refine ⟨c2.trans c1, fun j => ⟨(x2 j).1.trans (x1 j).1, (x2 j).2.trans (x1 j).2⟩, ?_, ?_, ?_, ?_⟩
  · intro k hk
    rw [g2 k hk, g1 k hk]
  · intro k hk
    obtain ⟨l, hl, e⟩ := p2 k hk
    obtain ⟨l2, hl2, e2⟩ := p1 l hl
    exact ⟨l2, hl2, e.trans e2⟩
  · intro k hk
    obtain ⟨l, hl, e⟩ := q1 k hk
    obtain ⟨l2, hl2, e2⟩ := q2 l hl
    exact ⟨l2, hl2, e.trans e2⟩
  · intro j hj
    rw [s2 j, s1 j hj]
    intro k hk e
    obtain ⟨l, hl, e2⟩ := p1 k hk
    exact hj l hl (e2.symm.trans e)

/-- Rearranged pools cover the same cells. -/
theorem SamePool.act {a b : sudoku} (h : SamePool a b) (x y : Nat) : Act b x y ↔ Act a x y := by
  obtain ⟨c, xy, _, p, q, _⟩ := h
  constructor
  · rintro ⟨k, hk, hx, hy⟩
    rw [c] at hk
    obtain ⟨l, hl, e⟩ := p k hk
    refine ⟨l, hl, ?_, ?_⟩
    · rw [← e, ← (xy _).1]; exact hx
    · rw [← e, ← (xy _).2]; exact hy
  · rintro ⟨k, hk, hx, hy⟩
    obtain ⟨l, hl, e⟩ := q k hk
    refine ⟨l, by rw [c]; exact hl, ?_, ?_⟩
    · rw [← e, (xy _).1]; exact hx
    · rw [← e, (xy _).2]; exact hy

/-- Exchanging two positions of the active part of `empty_slots` keeps the
pool. -/
theorem swap_pool (a b : sudoku) (p q : Nat)
    (hp : p < a.empty_slots_count) (hq : q < a.empty_slots_count)
    (hc : b.empty_slots_count = a.empty_slots_count)
    (hxy : ∀ j, (b.slots j).x = (a.slots j).x ∧ (b.slots j).y = (a.slots j).y)
    (hes : b.empty_slots = setv (setv a.empty_slots q (a.empty_slots p)) p (a.empty_slots q))
    (hsl : ∀ j, (∀ k < a.empty_slots_count, a.empty_slots k ≠ j) → b.slots j = a.slots j)
    (hf : b.field = a.field)
    (hok : PoolOK a) (hz : ZeroAt a) :
    SamePool a b ∧ PoolOK b ∧ ZeroAt b := by
  let σ : Nat → Nat := fun k => if k = p then q else if k = q then p else k
  have hσ : ∀ k, b.empty_slots k = a.empty_slots (σ k) := by
    intro k
    rw [hes]
    simp only [setv, σ]
    by_cases h1 : k = p
    · simp [h1]
    · by_cases h2 : k = q
      · by_cases h3 : q = p
        · simp [h2, h3]
        · simp [h2, h3]
      · simp [h1, h2]
  have hlt : ∀ k, k < a.empty_slots_count → σ k < a.empty_slots_count := by
    intro k hk
    simp only [σ]
    split
    · exact hq
    · split
      · exact hp
      · exact hk
  have hinv : ∀ k, σ (σ k) = k := by
    intro k
    simp only [σ]
    by_cases h1 : k = p
    · by_cases h3 : q = p
      · simp [h1, h3]
      · simp [h1, h3]
    · by_cases h2 : k = q
      · simp [h1, h2]
      · simp [h1, h2]
  have hge : ∀ k, a.empty_slots_count ≤ k → σ k = k := by
    intro k hk
    simp only [σ]
    rw [if_neg (by omega), if_neg (by omega)]
  refine ⟨⟨hc, hxy, ?_, ?_, ?_, hsl⟩, ⟨?_, ?_⟩, ?_⟩
  · intro k hk
    rw [hσ, hge k hk]
  · intro k hk
    exact ⟨σ k, hlt k hk, hσ k⟩
  · intro k hk
    exact ⟨σ k, hlt k hk, by rw [hσ, hinv]⟩
  · intro k hk
    rw [hc] at hk
    rw [hσ, (hxy _).1, (hxy _).2]
    exact hok.1 _ (hlt k hk)
  · intro k hk l hl ex ey
    rw [hc] at hk hl
    rw [hσ, hσ, (hxy _).1, (hxy _).1] at ex
    rw [hσ, hσ, (hxy _).2, (hxy _).2] at ey
    have := hok.2 _ (hlt k hk) _ (hlt l hl) ex ey
    rw [← hinv k, ← hinv l, this]
  · intro k hk
    rw [hc] at hk
    rw [hf, hσ, (hxy _).1, (hxy _).2]
    exact hz _ (hlt k hk)

/-- The scan of `update_slots` on a pool of empty cells. -/
theorem update_scan_spec (st : sudoku) (hok : PoolOK st) (hz : ZeroAt st) :
    (update_scan st).1 = 0 ∧
    (update_scan st).2.field = st.field ∧
    (update_scan st).2.empty_slots_count = st.empty_slots_count ∧
    (update_scan st).2.empty_slots = st.empty_slots ∧
    (∀ k < st.empty_slots_count, (update_scan st).2.slots (st.empty_slots k)
        = refresh st.field (st.slots (st.empty_slots k))) ∧
    (∀ j, (∀ k < st.empty_slots_count, st.empty_slots k ≠ j) →
      (update_scan st).2.slots j = st.slots j) ∧
    (∀ j, ((update_scan st).2.slots j).x = (st.slots j).x ∧
      ((update_scan st).2.slots j).y = (st.slots j).y) ∧
    (∀ m, (update_scan st).2.minimum_empty_slot = some m →
      (update_scan st).2.minimum_empty_slot_index < st.empty_slots_count ∧
      m = st.empty_slots (update_scan st).2.minimum_empty_slot_index) ∧
    (0 < st.empty_slots_count → (update_scan st).2.minimum_empty_slot ≠ none) ∧
    (st.empty_slots_count = 0 → (update_scan st).2.minimum_empty_slot = none) := by
  have hL := update_loop_spec st.empty_slots_count 0 0
    { st with minimum_empty_slot := none, minimum_empty_slot_index := 0 }
    (by simp) hok.inj
    (fun k _ hk => refresh_count_ne_zero _ _ (hok.1 k hk).1 (hz k hk))
    (fun m hm => by simp at hm)
  simp only [] at hL
  obtain ⟨h1, h2, h3, h4, h5, h6, h7, h8, h9⟩ := hL
  refine ⟨h1, h2, h3, h4, fun k hk => h5 k (Nat.zero_le k) hk,
    fun j hj => h6 j (fun k _ hk => hj k hk), ?_, h8, h9, h7⟩
  intro j
  by_cases hj : ∃ k, k < st.empty_slots_count ∧ st.empty_slots k = j
  · obtain ⟨k, hk, rfl⟩ := hj
    have := h5 k (Nat.zero_le k) hk
    simp only [update_scan]
    rw [this]
    exact ⟨rfl, rfl⟩
  · have := h6 j (fun k _ hk e => hj ⟨k, hk, e⟩)
    simp only [update_scan]
    rw [this]
    exact ⟨rfl, rfl⟩

/-- What `update_slots` does on a pool of empty cells: it sets nothing aside
(returns 0), keeps the board and the pool, recomputes every active slot from
the board, and selects the slot at the tail of the pool (none when the pool
is empty). -/
theorem update_slots_spec (st : sudoku) (hok : PoolOK st) (hz : ZeroAt st) :
    (update_slots st).1 = 0 ∧
    (update_slots st).2.field = st.field ∧
    SamePool st (update_slots st).2 ∧ PoolOK (update_slots st).2 ∧ ZeroAt (update_slots st).2 ∧
    (∀ k < st.empty_slots_count,
      (update_slots st).2.slots ((update_slots st).2.empty_slots k)
        = refresh st.field (st.slots ((update_slots st).2.empty_slots k))) ∧
    (st.empty_slots_count = 0 → (update_slots st).2.minimum_empty_slot = none) ∧
    (0 < st.empty_slots_count → (update_slots st).2.minimum_empty_slot =
      some ((update_slots st).2.empty_slots (st.empty_slots_count - 1))) := by
  obtain ⟨h1, h2, h3, h4, h5, h6, hxy, h8, h9, h7⟩ := update_scan_spec st hok hz
  simp only [update_slots]
  generalize update_scan st = r at *
  obtain ⟨cz, L⟩ := r
  simp only [] at *
  cases hm : L.minimum_empty_slot with
  | some m =>
    have hidx := (h8 m hm).1
    have hpos : 0 < st.empty_slots_count := by omega
    have hmv : move_minimum L = { L with
        empty_slots := setv (setv st.empty_slots (st.empty_slots_count - 1) (st.empty_slots L.minimum_empty_slot_index)) L.minimum_empty_slot_index (st.empty_slots (st.empty_slots_count - 1)) } := by
      simp only [move_minimum, hm, h3, h4]
    rw [hmv]
    have hsw := swap_pool st
      { L with
        empty_slots := setv (setv st.empty_slots (st.empty_slots_count - 1) (st.empty_slots L.minimum_empty_slot_index)) L.minimum_empty_slot_index (st.empty_slots (st.empty_slots_count - 1)) }
      _ (st.empty_slots_count - 1) hidx (by omega) h3 hxy rfl h6 h2 hok hz
    refine ⟨h1, h2, hsw.1, hsw.2.1, hsw.2.2, ?_, fun h => absurd h (by omega), ?_⟩
    · intro k hk
      obtain ⟨l, hl, e⟩ := hsw.1.2.2.2.1 k hk
      rw [e]
      exact h5 l hl
    · intro _
      simp only [hm, (h8 m hm).2, setv]
      by_cases e : st.empty_slots_count - 1 = L.minimum_empty_slot_index
      · simp [e]
      · simp [e]
  | none =>
    have hc0 : st.empty_slots_count = 0 := by
      by_contra hne
      exact h9 (Nat.pos_of_ne_zero hne) hm
    have hmv : move_minimum L = L := by simp only [move_minimum, hm]
    rw [hmv]
    have hsp : SamePool st L :=
      ⟨h3, hxy, fun k _ => by rw [h4], fun k hk => by omega, fun k hk => by omega, h6⟩
    refine ⟨h1, h2, hsp, ⟨?_, ?_⟩, ?_, ?_, fun _ => hm, fun h => absurd h (by omega)⟩
    · intro k hk; rw [h3] at hk; omega
    · intro k hk; rw [h3] at hk; omega
    · intro k hk; rw [h3] at hk; omega
    · intro k hk; omega

/-! ## Fillings of the active cells -/

theorem peer_symm {x y a b : Nat} (h : peer x y a b) : peer a b x y := by
  obtain ⟨h1, h2⟩ := h
  refine ⟨fun e => h1 ⟨e.1.symm, e.2.symm⟩, ?_⟩
  rcases h2 with e | e | e
  · exact Or.inl e.symm
  · exact Or.inr (Or.inl e.symm)
  · exact Or.inr (Or.inr ⟨e.1.symm, e.2.symm⟩)

theorem Fills.congr {A B : Nat → Nat → Prop} {g g2 h : Grid}
    (hA : ∀ x y, A x y ↔ B x y) (hg : ∀ x y, g x y = g2 x y) (hf : Fills A g h) :
    Fills B g2 h := by
  refine ⟨fun x y hn => ?_, fun x y hB => hf.2 x y ((hA x y).2 hB)⟩
  rw [← hg]
  exact hf.1 x y (fun hAxy => hn ((hA x y).1 hAxy))

/-- In a filling, the digit of an active cell is legal on the board that is
being filled: its marker is set. -/
theorem Fills.legal {A : Nat → Nat → Prop} {g h : Grid} (hf : Fills A g h)
    (h0 : ∀ x y, A x y → g x y = 0) {mx my : Nat} (hA : A mx my) (hx : mx < 9) (hy : my < 9) :
    markers g mx my (h mx my) = true := by
  obtain ⟨hd1, _, hp⟩ := hf.2 mx my hA
  have key : ∀ a b, a < 9 → b < 9 → (a = mx ∨ b = my ∨ (a / 3 = mx / 3 ∧ b / 3 = my / 3)) →
      g a b ≠ h mx my := by
    intro a b ha hb hu e
    by_cases hab : a = mx ∧ b = my
    · rw [hab.1, hab.2, h0 mx my hA] at e
      omega
    · by_cases hAab : A a b
      · rw [h0 a b hAab] at e
        omega
      · have := hf.1 a b hAab
        exact hp a b ha hb ⟨hab, hu⟩ (this.trans e)
  rw [markers_eq_true]
  refine ⟨fun i hi => key i my hi hy (Or.inr (Or.inl rfl)),
    fun i hi => key mx i hx hi (Or.inl rfl), fun i j hi hj => ?_⟩
  exact key i j (by omega) (by omega) (Or.inr (Or.inr ⟨hi, hj⟩))

/-- Committing a legal digit to one more cell extends a filling of the rest. -/
theorem Fills.extend {A B : Nat → Nat → Prop} {g h : Grid} {mx my i : Nat}
    (hAB : ∀ x y, A x y ↔ (B x y ∨ (x = mx ∧ y = my))) (hB : ¬ B mx my)
    (hx : mx < 9) (hy : my < 9) (hi1 : 1 ≤ i) (hi9 : i ≤ 9)
    (hleg : markers g mx my i = true)
    (hf : Fills B (setCell g mx my i) h) : Fills A g h := by
  have hm : h mx my = i := by
    rw [hf.1 mx my hB]
    simp [setCell]
  rw [markers_eq_true] at hleg
  refine ⟨fun x y hn => ?_, fun x y hA => ?_⟩
  · have hnB : ¬ B x y := fun hb => hn ((hAB x y).2 (Or.inl hb))
    have hne : ¬ (x = mx ∧ y = my) := fun e => hn ((hAB x y).2 (Or.inr e))
    rw [hf.1 x y hnB]
    simp [setCell, hne]
  · rcases (hAB x y).1 hA with hb | ⟨rfl, rfl⟩
    · exact hf.2 x y hb
    · rw [hm]
      refine ⟨hi1, hi9, fun a b ha hb hp => ?_⟩
      by_cases hBab : B a b
      · have := (hf.2 a b hBab).2.2 x y hx hy (peer_symm hp)
        rw [hm] at this
        exact fun e => this e.symm
      · rw [hf.1 a b hBab]
        have hne : ¬ (a = x ∧ b = y) := hp.1
        simp only [setCell, hne, if_false]
        rcases hp.2 with e | e | e
        · rw [e]; exact hleg.2.1 b hb
        · rw [e]; exact hleg.1 a ha
        · exact hleg.2.2 a b e.1 e.2

/-- A filling of the pool is a filling of the rest of the pool once its digit
for one cell is committed. -/
theorem Fills.restrict {A B : Nat → Nat → Prop} {g h : Grid} {mx my : Nat}
    (hAB : ∀ x y, A x y ↔ (B x y ∨ (x = mx ∧ y = my)))
    (hf : Fills A g h) : Fills B (setCell g mx my (h mx my)) h := by
  refine ⟨fun x y hn => ?_, fun x y hB => hf.2 x y ((hAB x y).2 (Or.inl hB))⟩
  by_cases e : x = mx ∧ y = my
  · simp [setCell, e]
  · simp only [setCell, e, if_false]
    exact hf.1 x y (fun hA => ((hAB x y).1 hA).elim hn e)

/-- A cell with no legal digit cannot be filled. -/
theorem Fills.dead {A : Nat → Nat → Prop} {g : Grid} {mx my : Nat}
    (h0 : ∀ x y, A x y → g x y = 0) (hA : A mx my) (hx : mx < 9) (hy : my < 9)
    (hdead : ∀ d ∈ digits, markers g mx my d = false) : ¬ ∃ h, Fills A g h := by
  rintro ⟨h, hf⟩
  have hl := hf.legal h0 hA hx hy
  obtain ⟨h1, h9, _⟩ := hf.2 mx my hA
  have : h mx my ∈ digits := by
    simp only [digits, List.mem_range'_1]
    omega
  rw [hdead _ this] at hl
  exact Bool.false_ne_true hl

/-! ## The value loop of `solve` -/

/-- The value loop, started on a pool `base` that the selected slot `m` has
left. Every recursive call is made on a rearrangement of `base` whose board
is `g` with one digit of the list in the cell of `m`; when these calls meet
`Post`, either some legal digit of the list leads to a filling, or the board
is back where it was (the cell of `m` apart) and no legal digit of the list
leads to a filling. -/
theorem solve_values_rel (R : Nat → Prop) (call : sudoku → Option (Bool × sudoku)) (m : Nat)
    (g : Grid) (mx my : Nat) (vv : Nat → Bool) (base : sudoku)
    (hcall : ∀ st, PoolOK st → ZeroAt st → SamePool base st →
      (∃ i, R i ∧ ∀ x y, st.field x y = setCell g mx my i x y) →
      ∃ b st2, call st = some (b, st2) ∧ Post st b st2)
    (hm : ∀ k < base.empty_slots_count, base.empty_slots k ≠ m)
    (hmx : (base.slots m).x = mx) (hmy : (base.slots m).y = my)
    (hvv : (base.slots m).valid_values = vv)
    (hAm : ¬ Act base mx my)
    (hg0 : ∀ x y, Act base x y → g x y = 0) :
    ∀ (l : List Nat) (st : sudoku), (∀ i ∈ l, R i) → SamePool base st → PoolOK st →
      (∀ x y, ¬ (x = mx ∧ y = my) → st.field x y = g x y) →
      ∃ b st2, solve_values call m 0 l st = some (b, st2) ∧
        (b = false → SamePool base st2 ∧ PoolOK st2 ∧
          (∀ x y, ¬ (x = mx ∧ y = my) → st2.field x y = g x y) ∧
          ∀ i ∈ l, vv i = true → ¬ ∃ h, Fills (Act base) (setCell g mx my i) h) ∧
        (b = true → ∃ st3 i, st2 = { st3 with empty_slots_count := st3.empty_slots_count + 1 } ∧
          SamePool base st3 ∧ PoolOK st3 ∧ i ∈ l ∧ vv i = true ∧
          Fills (Act base) (setCell g mx my i) st3.field) := by
  intro l
  induction l with
  | nil =>
    intro st _ hsp hok hfd
    exact ⟨false, st, rfl, fun _ => ⟨hsp, hok, hfd, fun i hi => by simp at hi⟩,
      fun h => by simp at h⟩
  | cons i rest ih =>
    intro st hl hsp hok hfd
    have hl2 : ∀ j ∈ rest, R j := fun j hj => hl j (List.mem_cons_of_mem _ hj)
    have hslot : st.slots m = base.slots m := hsp.2.2.2.2.2 m hm
    simp only [solve_values, hslot, hmx, hmy, hvv]
    by_cases hi : vv i = true
    · simp only [hi, if_true]
      -- the state handed to the recursive call
      have hok1 : PoolOK { st with field := setCell st.field mx my i } := hok
      have hact1 : ∀ x y, Act { st with field := setCell st.field mx my i } x y ↔ Act base x y :=
        fun x y => hsp.act x y
      have hfield1 : ∀ x y, Act base x y → setCell st.field mx my i x y = 0 := by
        intro x y hA
        have hne : ¬ (x = mx ∧ y = my) := by
          rintro ⟨rfl, rfl⟩
          exact hAm hA
        simp only [setCell, hne, if_false]
        rw [hfd x y hne]
        exact hg0 x y hA
      have hz1 : ZeroAt { st with field := setCell st.field mx my i } := by
        intro k hk
        exact hfield1 _ _ ((hact1 _ _).1 ⟨k, hk, rfl, rfl⟩)
      have hgrid1 : ∀ x y, setCell st.field mx my i x y = setCell g mx my i x y := by
        intro x y
        by_cases hne : x = mx ∧ y = my
        · simp [setCell, hne]
        · simp only [setCell, hne, if_false]
          exact hfd x y hne
      have hsp1 : SamePool base { st with field := setCell st.field mx my i } := hsp
      obtain ⟨b, st2, hc, hpost⟩ := hcall _ hok1 hz1 hsp1
        ⟨i, hl i (List.mem_cons_self _ _), hgrid1⟩
      rw [hc]
      obtain ⟨hsp2, hok2, hfalse, htrue⟩ := hpost
      have hsp2b : SamePool st st2 := hsp2
      cases b with
      | true =>
        refine ⟨true, _, rfl, fun h => by simp at h, fun _ => ⟨st2, i, ?_, hsp.trans hsp2b, hok2,
          List.mem_cons_self _ _, hi, (htrue rfl).congr hact1 hgrid1⟩⟩
        simp
      | false =>
        obtain ⟨hfd2, hno⟩ := hfalse rfl
        simp only []
        obtain ⟨b3, st3, hc3, hf3, ht3⟩ := ih st2 hl2 (hsp.trans hsp2b) hok2 (by
          intro x y hne
          rw [hfd2 x y]
          simp only [setCell, hne, if_false]
          exact hfd x y hne)
        refine ⟨b3, st3, hc3, ?_, ?_⟩
        · intro hb
          obtain ⟨q1, q2, q3, q4⟩ := hf3 hb
          refine ⟨q1, q2, q3, ?_⟩
          intro j hj hvj
          rcases List.mem_cons.1 hj with rfl | hj
          · rintro ⟨h, hF⟩
            exact hno ⟨h, hF.congr (fun x y => (hact1 x y).symm) (fun x y => (hgrid1 x y).symm)⟩
          · exact q4 j hj hvj
        · intro hb
          obtain ⟨st4, j, e, q1, q2, q3, q4, q5⟩ := ht3 hb
          exact ⟨st4, j, e, q1, q2, List.mem_cons_of_mem _ q3, q4, q5⟩
    · simp only [hi]
      obtain ⟨b3, st3, hc3, hf3, ht3⟩ := ih st hl2 hsp hok hfd
      refine ⟨b3, st3, hc3, ?_, ?_⟩
      · intro hb
        obtain ⟨q1, q2, q3, q4⟩ := hf3 hb
        refine ⟨q1, q2, q3, ?_⟩
        intro j hj hvj
        rcases List.mem_cons.1 hj with rfl | hj
        · exact absurd hvj hi
        · exact q4 j hj hvj
      · intro hb
        obtain ⟨st4, j, e, q1, q2, q3, q4, q5⟩ := ht3 hb
        exact ⟨st4, j, e, q1, q2, List.mem_cons_of_mem _ q3, q4, q5⟩

/-- The value loop, when every recursive call on a pool of the size of `base`
meets `Post`. -/
theorem solve_values_spec (call : sudoku → Option (Bool × sudoku)) (m : Nat) (g : Grid)
    (mx my : Nat) (vv : Nat → Bool) (base : sudoku)
    (hcall : ∀ st, PoolOK st → ZeroAt st → st.empty_slots_count = base.empty_slots_count →
      ∃ b st2, call st = some (b, st2) ∧ Post st b st2)
    (hm : ∀ k < base.empty_slots_count, base.empty_slots k ≠ m)
    (hmx : (base.slots m).x = mx) (hmy : (base.slots m).y = my)
    (hvv : (base.slots m).valid_values = vv)
    (hAm : ¬ Act base mx my)
    (hg0 : ∀ x y, Act base x y → g x y = 0) :
    ∀ (l : List Nat) (st : sudoku), SamePool base st → PoolOK st →
      (∀ x y, ¬ (x = mx ∧ y = my) → st.field x y = g x y) →
      ∃ b st2, solve_values call m 0 l st = some (b, st2) ∧
        (b = false → SamePool base st2 ∧ PoolOK st2 ∧
          (∀ x y, ¬ (x = mx ∧ y = my) → st2.field x y = g x y) ∧
          ∀ i ∈ l, vv i = true → ¬ ∃ h, Fills (Act base) (setCell g mx my i) h) ∧
        (b = true → ∃ st3 i, st2 = { st3 with empty_slots_count := st3.empty_slots_count + 1 } ∧
          SamePool base st3 ∧ PoolOK st3 ∧ i ∈ l ∧ vv i = true ∧
          Fills (Act base) (setCell g mx my i) st3.field) :=
  fun l st hsp hok hfd =>
    solve_values_rel (fun _ => True) call m g mx my vv base
      (fun s h1 h2 h3 _ => hcall s h1 h2 h3.1) hm hmx hmy hvv hAm hg0 l st
      (fun _ _ => trivial) hsp hok hfd

/-! ## `solve` -/

/-- Giving the selected slot back to a pool that was kept without it. -/
theorem lift_pool (st1 st3 r : sudoku) (hpos : 0 < st1.empty_slots_count) (hok : PoolOK st1)
    (hsp : SamePool { st1 with empty_slots_count := st1.empty_slots_count - 1 } st3)
    (hok3 : PoolOK st3) (hs : r.slots = st3.slots) (he : r.empty_slots = st3.empty_slots)
    (hc : r.empty_slots_count = st3.empty_slots_count + 1) :
    SamePool st1 r ∧ PoolOK r := by
  obtain ⟨c3, xy, ge, p, q, sl⟩ := hsp
  simp only [] at c3 xy ge p q sl
  have hcr : r.empty_slots_count = st1.empty_slots_count := by omega
  have hP : ∀ k < st1.empty_slots_count, ∃ l < st1.empty_slots_count,
      r.empty_slots k = st1.empty_slots l ∧ (k < st1.empty_slots_count - 1 →
        l < st1.empty_slots_count - 1) ∧ (k = st1.empty_slots_count - 1 → l = k) := by
    intro k hk
    by_cases hk2 : k < st1.empty_slots_count - 1
    · obtain ⟨l, hl, e⟩ := p k hk2
      exact ⟨l, by omega, by rw [he, e], fun _ => hl, fun h => by omega⟩
    · exact ⟨k, hk, by rw [he, ge k (by omega)], fun h => absurd h hk2, fun _ => rfl⟩
  have hxy : ∀ j, (r.slots j).x = (st1.slots j).x ∧ (r.slots j).y = (st1.slots j).y := by
    intro j
    rw [hs]
    exact xy j
  refine ⟨⟨hcr, hxy, ?_, ?_, ?_, ?_⟩, ⟨?_, ?_⟩⟩
  · intro k hk
    rw [he, ge k (by omega)]
  · intro k hk
    obtain ⟨l, hl, e, _⟩ := hP k hk
    exact ⟨l, hl, e⟩
  · intro k hk
    by_cases hk2 : k < st1.empty_slots_count - 1
    · obtain ⟨l, hl, e⟩ := q k hk2
      exact ⟨l, by omega, by rw [he, e]⟩
    · exact ⟨k, hk, by rw [he, ge k (by omega)]⟩
  · intro j hj
    rw [hs]
    exact sl j (fun k hk => hj k (by omega))
  · intro k hk
    rw [hcr] at hk
    obtain ⟨l, hl, e, _⟩ := hP k hk
    rw [e, (hxy _).1, (hxy _).2]
    exact hok.1 l hl
  · intro k hk l hl ex ey
    rw [hcr] at hk hl
    obtain ⟨k2, hk2, ek, ek1, ek2⟩ := hP k hk
    obtain ⟨l2, hl2, el, el1, el2⟩ := hP l hl
    by_cases hka : k < st1.empty_slots_count - 1
    · by_cases hla : l < st1.empty_slots_count - 1
      · rw [he, hs] at ex ey
        exact hok3.2 k (by omega) l (by omega) ex ey
      · rw [ek, el, (hxy _).1, (hxy _).1] at ex
        rw [ek, el, (hxy _).2, (hxy _).2] at ey
        have := hok.2 k2 hk2 l2 hl2 ex ey
        have := ek1 hka
        have := el2 (by omega)
        omega
    · by_cases hla : l < st1.empty_slots_count - 1
      · rw [ek, el, (hxy _).1, (hxy _).1] at ex
        rw [ek, el, (hxy _).2, (hxy _).2] at ey
        have := hok.2 k2 hk2 l2 hl2 ex ey
        have := el1 hla
        have := ek2 (by omega)
        omega
      · omega

/-- The pool of a state is the pool without its tail slot, and the tail slot. -/
theorem act_tail (st1 : sudoku) (hpos : 0 < st1.empty_slots_count) (x y : Nat) :
    Act st1 x y ↔ (Act { st1 with empty_slots_count := st1.empty_slots_count - 1 } x y ∨
      (x = (st1.slots (st1.empty_slots (st1.empty_slots_count - 1))).x ∧
       y = (st1.slots (st1.empty_slots (st1.empty_slots_count - 1))).y)) := by
  constructor
  · rintro ⟨k, hk, hx, hy⟩
    by_cases hk2 : k < st1.empty_slots_count - 1
    · exact Or.inl ⟨k, hk2, hx, hy⟩
    · have : k = st1.empty_slots_count - 1 := by omega
      subst this
      exact Or.inr ⟨hx.symm, hy.symm⟩
  · rintro (⟨k, hk, hx, hy⟩ | ⟨hx, hy⟩)
    · simp only [] at hk
      exact ⟨k, by omega, hx, hy⟩
    · exact ⟨st1.empty_slots_count - 1, by omega, hx.symm, hy.symm⟩

/-- The contract of the body of `solve` on a pool of pairwise different empty
cells. Every recursive call is made on a state whose pool, with the selected
slot given back, is a rearrangement of the pool of `st`, and whose board is
the board of `st` with one digit 1..9 in one cell; when these calls meet
`Post`, the body returns and meets `Post`. -/
theorem solve_body_rel (call : sudoku → Option (Bool × sudoku)) (st : sudoku)
    (hok : PoolOK st) (hz : ZeroAt st)
    (hcall : ∀ s, PoolOK s → ZeroAt s → s.empty_slots_count + 1 = st.empty_slots_count →
      SamePool st { s with empty_slots_count := s.empty_slots_count + 1 } →
      PoolOK { s with empty_slots_count := s.empty_slots_count + 1 } →
      (∃ i mx my, 1 ≤ i ∧ i ≤ 9 ∧ mx < 9 ∧ my < 9 ∧
        ∀ x y, s.field x y = setCell st.field mx my i x y) →
      ∃ b s2, call s = some (b, s2) ∧ Post s b s2) :
    ∃ b st2, solve_body call st = some (b, st2) ∧ Post st b st2 := by
  obtain ⟨u1, u2, u3, u4, u5, u6, u7, u8⟩ := update_slots_spec st hok hz
  simp only [solve_body]
  generalize update_slots st = r at *
  obtain ⟨cz, st1⟩ := r
  simp only [] at u1 u2 u3 u4 u5 u6 u7 u8 ⊢
  subst u1
  have hc1 : st1.empty_slots_count = st.empty_slots_count := u3.1
  by_cases hc : st.empty_slots_count = 0
  · split
    swap
    · rename_i m hsome
      rw [u7 hc] at hsome
      exact absurd hsome (by simp)
    refine ⟨true, _, rfl, u3, u4, fun h => by simp at h, fun _ => ⟨fun x y _ => by rw [u2], ?_⟩⟩
    rintro x y ⟨k, hk, -⟩
    omega
  · have hpos : 0 < st.empty_slots_count := Nat.pos_of_ne_zero hc
    have hpos1 : 0 < st1.empty_slots_count := by omega
    rw [← hc1] at u6 u8
    have hmin := u8 hpos1
    split
    · rename_i hnone
      rw [hnone] at hmin
      exact absurd hmin (by simp)
    rename_i m hsome
    have hmdef : st1.empty_slots (st1.empty_slots_count - 1) = m := by
      rw [hmin] at hsome
      exact Option.some.inj hsome
    clear hsome hmin u8
    -- the slot selected, its cell and its markers
    have hmref : st1.slots m = refresh st.field (st.slots m) := by
      have := u6 (st1.empty_slots_count - 1) (by omega)
      rwa [hmdef] at this
    have hxy := u3.2.1 m
    have hmx9 : (st1.slots m).x < 9 := by
      have := (u4.1 (st1.empty_slots_count - 1) (by omega)).1
      rwa [hmdef] at this
    have hmy9 : (st1.slots m).y < 9 := by
      have := (u4.1 (st1.empty_slots_count - 1) (by omega)).2
      rwa [hmdef] at this
    have hvv : (st1.slots m).valid_values = markers st.field (st1.slots m).x (st1.slots m).y := by
      rw [hmref]
      rfl
    have hzero1 : ∀ x y, Act st1 x y → st.field x y = 0 := by
      rintro x y ⟨k, hk, rfl, rfl⟩
      rw [← u2]
      exact u5 k hk
    have hactm : Act st1 (st1.slots m).x (st1.slots m).y :=
      ⟨st1.empty_slots_count - 1, by omega, by rw [hmdef], by rw [hmdef]⟩
    have hm0 : st.field (st1.slots m).x (st1.slots m).y = 0 := hzero1 _ _ hactm
    have hmout : ∀ k < st1.empty_slots_count - 1, st1.empty_slots k ≠ m := by
      intro k hk e
      have := u4.inj k (by omega) (st1.empty_slots_count - 1) (by omega) (by rw [e, hmdef])
      omega
    have hokb : PoolOK { st1 with empty_slots_count := st1.empty_slots_count - 1 } :=
      ⟨fun k hk => u4.1 k (by simp only [] at hk; omega),
        fun k hk l hl => u4.2 k (by simp only [] at hk; omega) l (by simp only [] at hl; omega)⟩
    have hAm : ¬ Act { st1 with empty_slots_count := st1.empty_slots_count - 1 }
        (st1.slots m).x (st1.slots m).y := by
      rintro ⟨k, hk, hx, hy⟩
      simp only [] at hk hx hy
      have := u4.2 k (by omega) (st1.empty_slots_count - 1) (by omega)
        (by rw [hmdef]; exact hx) (by rw [hmdef]; exact hy)
      omega
    have htail : ∀ x y, Act st1 x y ↔
        (Act { st1 with empty_slots_count := st1.empty_slots_count - 1 } x y ∨
          (x = (st1.slots m).x ∧ y = (st1.slots m).y)) := by
      intro x y
      have := act_tail st1 hpos1 x y
      rwa [hmdef] at this
    have hg0 : ∀ x y, Act { st1 with empty_slots_count := st1.empty_slots_count - 1 } x y →
        st.field x y = 0 := fun x y h => hzero1 x y ((htail x y).2 (Or.inl h))
    have hnofill : (∀ d ∈ digits, (st1.slots m).valid_values d = true →
        ¬ ∃ h, Fills (Act { st1 with empty_slots_count := st1.empty_slots_count - 1 })
          (setCell st.field (st1.slots m).x (st1.slots m).y d) h) →
        ¬ ∃ h, Fills (Act st) st.field h := by
      rintro hall ⟨h, hF⟩
      have hF1 : Fills (Act st1) st.field h :=
        hF.congr (fun x y => (u3.act x y).symm) (fun _ _ => rfl)
      have hleg := hF1.legal hzero1 hactm hmx9 hmy9
      obtain ⟨h1, h9, _⟩ := hF1.2 _ _ hactm
      refine hall (h (st1.slots m).x (st1.slots m).y) ?_ (by rw [hvv]; exact hleg)
        ⟨h, hF1.restrict htail⟩
      simp only [digits, List.mem_range'_1]
      omega
    by_cases hdead : (st1.slots m).valid_values_count = -1
    · -- the selected slot has no legal digit
      simp only [hdead, ne_eq, not_true_eq_false, if_false]
      obtain ⟨l1, l2⟩ := lift_pool st1 { st1 with empty_slots_count := st1.empty_slots_count - 1 }
        (solve_cleanup m 0 { st1 with empty_slots_count := st1.empty_slots_count - 1 })
        hpos1 u4 (SamePool.refl _) hokb rfl rfl (by simp [solve_cleanup])
      refine ⟨false, _, rfl, u3.trans l1, l2, fun _ => ⟨?_, ?_⟩, fun h => by simp at h⟩
      · intro x y
        simp only [solve_cleanup, setCell]
        split
        · rename_i e
          rw [e.1, e.2, hm0]
        · rw [u2]
      · apply hnofill
        intro d hd hvd
        rw [hmref, refresh_count_eq_neg_one, allCleared_iff] at hdead
        rw [hvv, (hxy).1, (hxy).2, hdead.2 d hd] at hvd
        exact absurd hvd (by simp)
    · -- the value loop
      simp only [hdead, ne_eq, not_false_eq_true, if_true]
      obtain ⟨b, st2, hrun, hfalse, htrue⟩ := solve_values_rel (fun i => 1 ≤ i ∧ i ≤ 9)
        call m st.field
        (st1.slots m).x (st1.slots m).y (st1.slots m).valid_values
        { st1 with empty_slots_count := st1.empty_slots_count - 1 }
        (fun s h1 h2 h3 h4 => by
          have hcs : s.empty_slots_count = st1.empty_slots_count - 1 := h3.1
          obtain ⟨l1, l2⟩ := lift_pool st1 s
            { s with empty_slots_count := s.empty_slots_count + 1 } hpos1 u4 h3 h1 rfl rfl rfl
          obtain ⟨i, hi, hfi⟩ := h4
          exact hcall s h1 h2 (by omega) (u3.trans l1) l2
            ⟨i, (st1.slots m).x, (st1.slots m).y, hi.1, hi.2, hmx9, hmy9, hfi⟩)
        hmout rfl rfl rfl hAm hg0 (List.range' 1 9)
        { st1 with empty_slots_count := st1.empty_slots_count - 1 }
        (fun i hi => by simp only [List.mem_range'_1] at hi; omega)
        (SamePool.refl _) hokb (fun x y _ => by rw [← u2])
      rw [hrun]
      cases b with
      | false =>
        obtain ⟨q1, q2, q3, q4⟩ := hfalse rfl
        have hslot : st2.slots m = st1.slots m := q1.2.2.2.2.2 m hmout
        obtain ⟨l1, l2⟩ := lift_pool st1 st2 (solve_cleanup m 0 st2) hpos1 u4 q1 q2 rfl rfl
          (by simp [solve_cleanup])
        refine ⟨false, _, rfl, u3.trans l1, l2, fun _ => ⟨?_, hnofill q4⟩, fun h => by simp at h⟩
        intro x y
        simp only [solve_cleanup, setCell, hslot]
        split
        · rename_i e
          rw [e.1, e.2, hm0]
        · rename_i e
          exact q3 x y e
      | true =>
        obtain ⟨st3, i, e, q1, q2, q3, q4, q5⟩ := htrue rfl
        obtain ⟨l1, l2⟩ := lift_pool st1 st3 st2 hpos1 u4 q1 q2 (by rw [e]) (by rw [e])
          (by rw [e])
        refine ⟨true, _, rfl, u3.trans l1, l2, fun h => by simp at h, fun _ => ?_⟩
        have hi : 1 ≤ i ∧ i ≤ 9 := by
          simp only [List.mem_range'_1] at q3
          omega
        have hF : Fills (Act st1) st.field st3.field :=
          Fills.extend htail hAm hmx9 hmy9 hi.1 hi.2 (by rw [← hvv]; exact q4) q5
        rw [e]
        exact hF.congr (fun x y => u3.act x y) (fun _ _ => rfl)


/-- The contract of the body of `solve` on a pool of pairwise different empty
cells, when the recursive calls meet the contract on pools one slot smaller:
it returns; it keeps the pool; when it returns false the board is as it was
and the pool has no filling; when it returns true the board is a filling of
the pool. -/
theorem solve_body_spec (call : sudoku → Option (Bool × sudoku)) (st : sudoku)
    (hok : PoolOK st) (hz : ZeroAt st)
    (hcall : ∀ s, PoolOK s → ZeroAt s → s.empty_slots_count + 1 = st.empty_slots_count →
      ∃ b s2, call s = some (b, s2) ∧ Post s b s2) :
    ∃ b st2, solve_body call st = some (b, st2) ∧ Post st b st2 :=
  solve_body_rel call st hok hz (fun s h1 h2 h3 _ _ _ => hcall s h1 h2 h3)

/-- The contract of `solve`: with a recursion depth above the size of the pool
it returns and meets `Post`. -/
theorem solve_spec (n : Nat) : ∀ st, PoolOK st → ZeroAt st → st.empty_slots_count < n →
    ∃ b st2, solve n st = some (b, st2) ∧ Post st b st2 := by
  induction n with
  | zero => intro st _ _ h; omega
  | succ n ih =>
    intro st hok hz hlt
    exact solve_body_spec (solve n) st hok hz (fun s h1 h2 h3 => ih s h1 h2 (by omega))

/-- The checked `solve` meets the same contract: no recursive call is ever
refused. -/
theorem solve_checked_spec (n : Nat) : ∀ st, PoolOK st → ZeroAt st →
    st.empty_slots_count < n → ∃ b st2, solve_checked n st = some (b, st2) ∧ Post st b st2 := by
  induction n with
  | zero => intro st _ _ h; omega
  | succ n ih =>
    intro st hok hz hlt
    apply solve_body_spec _ st hok hz
    intro s h1 h2 h3
    have hlt2 : s.empty_slots_count < st.empty_slots_count := by omega
    simp only [hlt2, if_true]
    exact ih s h1 h2 (by omega)

/-! ## `init` -/

/-- The empty cells of the board, in the scan order of `init`. -/
theorem zeros_eq (g : Grid) : zeros g = (cells.filter fun c => g c.1 c.2 = 0).length := rfl

theorem mem_cells (c : Nat × Nat) : c ∈ cells ↔ c.1 < 9 ∧ c.2 < 9 := by
  obtain ⟨a, b⟩ := c
  simp only [cells, List.mem_flatMap, List.mem_map, List.mem_range, Prod.mk.injEq]
  constructor
  · rintro ⟨i, hi, j, hj, rfl, rfl⟩
    exact ⟨hi, hj⟩
  · rintro ⟨ha, hb⟩
    exact ⟨a, ha, b, hb, rfl, rfl⟩

theorem nodup_cells : cells.Nodup := by decide

/-- The scan of `init` records the empty cells it meets, in order, from
`slots[counter]` on. -/
theorem init_scan (g : Grid) (l : List (Nat × Nat)) :
    ∀ (sl : Nat → slot) (n : Nat),
      (l.foldl (init_step g) (sl, n)).2 = n + (l.filter fun c => g c.1 c.2 = 0).length ∧
      (∀ k c, (l.filter fun c => g c.1 c.2 = 0)[k]? = some c →
        ((l.foldl (init_step g) (sl, n)).1 (n + k)).x = c.1 ∧
        ((l.foldl (init_step g) (sl, n)).1 (n + k)).y = c.2) ∧
      (∀ j < n, (l.foldl (init_step g) (sl, n)).1 j = sl j) := by
  induction l with
  | nil =>
    intro sl n
    exact ⟨rfl, fun k c h => by simp at h, fun _ _ => rfl⟩
  | cons a l ih =>
    intro sl n
    simp only [List.foldl_cons]
    by_cases ha : g a.1 a.2 = 0
    · have hstep : init_step g (sl, n) a
          = (setv sl n { sl n with x := a.1, y := a.2 }, n + 1) := by
        simp [init_step, ha]
      have hfil : (List.filter (fun c => decide (g c.1 c.2 = 0)) (a :: l))
          = a :: List.filter (fun c => decide (g c.1 c.2 = 0)) l := by
        simp [List.filter_cons, ha]
      rw [hstep, hfil]
      obtain ⟨i1, i2, i3⟩ := ih (setv sl n { sl n with x := a.1, y := a.2 }) (n + 1)
      refine ⟨by rw [i1, List.length_cons]; omega, ?_, ?_⟩
      · intro k c hk
        cases k with
        | zero =>
          simp only [List.getElem?_cons_zero, Option.some.injEq] at hk
          subst hk
          have e := i3 n (Nat.lt_succ_self n)
          simp only [Nat.add_zero, e]
          simp [setv]
        | succ k =>
          simp only [List.getElem?_cons_succ] at hk
          have := i2 k c hk
          rwa [show n + 1 + k = n + (k + 1) by omega] at this
      · intro j hj
        rw [i3 j (by omega)]
        have : j ≠ n := by omega
        simp [setv, this]
    · have hstep : init_step g (sl, n) a = (sl, n) := by
        simp [init_step, ha]
      have hfil : (List.filter (fun c => decide (g c.1 c.2 = 0)) (a :: l))
          = List.filter (fun c => decide (g c.1 c.2 = 0)) l := by
        simp [List.filter_cons, ha]
      rw [hstep, hfil]
      exact ih sl n

/-- The slots of the initialised model are the empty cells of the board. -/
theorem start_slots (g : Grid) (k : Nat) (c : Nat × Nat)
    (h : (cells.filter fun c => g c.1 c.2 = 0)[k]? = some c) :
    ((start g).slots k).x = c.1 ∧ ((start g).slots k).y = c.2 := by
  have := (init_scan g cells (fun _ => slot.fresh) 0).2.1 k c h
  rwa [Nat.zero_add] at this

theorem start_count (g : Grid) : (start g).empty_slots_count = zeros g := rfl

theorem start_field (g : Grid) : (start g).field = g := rfl

theorem start_empty_slots (g : Grid) (k : Nat) : (start g).empty_slots k = k := rfl

/-- The cell of slot `k` of the initialised model. -/
theorem start_cell (g : Grid) (k : Nat) (hk : k < zeros g) :
    ∃ c, (cells.filter fun c => g c.1 c.2 = 0)[k]? = some c ∧
      ((start g).slots k).x = c.1 ∧ ((start g).slots k).y = c.2 ∧
      c.1 < 9 ∧ c.2 < 9 ∧ g c.1 c.2 = 0 := by
  rw [zeros_eq] at hk
  have hget : (cells.filter fun c => g c.1 c.2 = 0)[k]? =
      some ((cells.filter fun c => g c.1 c.2 = 0)[k]) := List.getElem?_eq_getElem hk
  have hmem : (cells.filter fun c => g c.1 c.2 = 0)[k] ∈
      cells.filter fun c => g c.1 c.2 = 0 := List.getElem_mem _
  obtain ⟨s1, s2⟩ := start_slots g k _ hget
  rw [List.mem_filter, mem_cells] at hmem
  exact ⟨_, hget, s1, s2, hmem.1.1, hmem.1.2, by simpa using hmem.2⟩

/-- After `init` the pool is made of pairwise different cells of the board. -/
theorem start_poolOK (g : Grid) : PoolOK (start g) := by
  constructor
  · intro k hk
    obtain ⟨c, _, hx, hy, h1, h2, _⟩ := start_cell g k hk
    rw [start_empty_slots, hx, hy]
    exact ⟨h1, h2⟩
  · intro k hk l hl ex ey
    obtain ⟨c, hc, hx, hy, _⟩ := start_cell g k hk
    obtain ⟨d, hd, hx2, hy2, _⟩ := start_cell g l hl
    rw [start_empty_slots, start_empty_slots, hx, hx2] at ex
    rw [start_empty_slots, start_empty_slots, hy, hy2] at ey
    have hcd : c = d := Prod.ext ex ey
    subst hcd
    have hnd : (cells.filter fun c => g c.1 c.2 = 0).Nodup := nodup_cells.filter _
    obtain ⟨h1, e1⟩ := List.getElem?_eq_some.1 hc
    obtain ⟨h2, e2⟩ := List.getElem?_eq_some.1 hd
    exact (hnd.getElem_inj_iff).1 (e1.trans e2.symm)

/-- After `init` the cell of every active slot is empty. -/
theorem start_zeroAt (g : Grid) : ZeroAt (start g) := by
  intro k hk
  obtain ⟨c, _, hx, hy, _, _, h0⟩ := start_cell g k hk
  rw [start_empty_slots, hx, hy]
  exact h0

/-- After `init` the pool covers exactly the empty cells of the board. -/
theorem start_act (g : Grid) (x y : Nat) :
    Act (start g) x y ↔ (x < 9 ∧ y < 9 ∧ g x y = 0) := by
  constructor
  · rintro ⟨k, hk, hx, hy⟩
    obtain ⟨c, _, cx, cy, h1, h2, h0⟩ := start_cell g k hk
    rw [start_empty_slots, cx] at hx
    rw [start_empty_slots, cy] at hy
    subst hx; subst hy
    exact ⟨h1, h2, h0⟩
  · rintro ⟨hx, hy, h0⟩
    have hmem : (x, y) ∈ cells.filter fun c => g c.1 c.2 = 0 := by
      rw [List.mem_filter, mem_cells]
      exact ⟨⟨hx, hy⟩, by simpa using h0⟩
    obtain ⟨k, hk, e⟩ := List.getElem_of_mem hmem
    have hget : (cells.filter fun c => g c.1 c.2 = 0)[k]? = some (x, y) := by
      rw [List.getElem?_eq_getElem hk, e]
    obtain ⟨s1, s2⟩ := start_slots g k _ hget
    exact ⟨k, hk, by rw [start_empty_slots]; exact s1, by rw [start_empty_slots]; exact s2⟩

/-- The top-level call returns and meets the contract of `solve`. -/
theorem run_spec (g : Grid) : ∃ b st2, run g = some (b, st2) ∧ Post (start g) b st2 :=
  solve_spec (zeros g + 1) (start g) (start_poolOK g) (start_zeroAt g)
    (by rw [start_count]; omega)

/-! ## Rows, columns and blocks -/

theorem mem_rowCells (i : Nat) (c : Nat × Nat) : c ∈ rowCells i ↔ c.1 = i ∧ c.2 < 9 := by
  obtain ⟨a, b⟩ := c
  simp only [rowCells, List.mem_map, List.mem_range, Prod.mk.injEq]
  constructor
  · rintro ⟨j, hj, rfl, rfl⟩
    exact ⟨rfl, hj⟩
  · rintro ⟨rfl, hb⟩
    exact ⟨b, hb, rfl, rfl⟩

theorem mem_colCells (j : Nat) (c : Nat × Nat) : c ∈ colCells j ↔ c.2 = j ∧ c.1 < 9 := by
  obtain ⟨a, b⟩ := c
  simp only [colCells, List.mem_map, List.mem_range, Prod.mk.injEq]
  constructor
  · rintro ⟨i, hi, rfl, rfl⟩
    exact ⟨rfl, hi⟩
  · rintro ⟨rfl, ha⟩
    exact ⟨a, ha, rfl, rfl⟩

theorem mem_blockCells (b : Nat) (c : Nat × Nat) :
    c ∈ blockCells b ↔ c.1 / 3 = b / 3 ∧ c.2 / 3 = b % 3 := by
  obtain ⟨x, y⟩ := c
  simp only [blockCells, List.mem_flatMap, List.mem_map, List.mem_range'_1, Prod.mk.injEq]
  constructor
  · rintro ⟨i, hi, j, hj, rfl, rfl⟩
    constructor <;> omega
  · rintro ⟨hx, hy⟩
    exact ⟨x, by omega, y, by omega, rfl, rfl⟩

theorem nodup_rowCells (i : Nat) : (rowCells i).Nodup :=
  (List.nodup_range 9).map (fun _ _ h => (Prod.mk.inj h).2)

theorem nodup_colCells (j : Nat) : (colCells j).Nodup :=
  (List.nodup_range 9).map (fun _ _ h => (Prod.mk.inj h).1)

theorem nodup_blockCells (b : Nat) (hb : b < 9) : (blockCells b).Nodup := by
  interval_cases b <;> decide

theorem length_rowCells (i : Nat) : (rowCells i).length = 9 := by simp [rowCells]

theorem length_colCells (j : Nat) : (colCells j).length = 9 := by simp [colCells]

theorem length_blockCells (b : Nat) (hb : b < 9) : (blockCells b).length = 9 := by
  interval_cases b <;> rfl

theorem nodup_digits : digits.Nodup := by decide

theorem mem_digits (d : Nat) : d ∈ digits ↔ 1 ≤ d ∧ d ≤ 9 := by
  simp only [digits, List.mem_range'_1]
  omega

/-- Two different cells with the same value make the value occur twice. -/
theorem two_le_count {α : Type} (f : α → Nat) (l : List α) :
    ∀ a b, a ∈ l → b ∈ l → a ≠ b → f a = f b → 2 ≤ (l.map f).count (f a) := by
  induction l with
  | nil => intro a b ha; simp at ha
  | cons c l ih =>
    intro a b ha hb hab e
    rw [List.map_cons, List.count_cons]
    rcases List.mem_cons.1 ha with hac | hal
    · rcases List.mem_cons.1 hb with hbc | hbl
      · exact absurd (hac.trans hbc.symm) hab
      · have : 0 < (l.map f).count (f a) := by
          rw [List.count_pos_iff]
          exact List.mem_map.2 ⟨b, hbl, e.symm⟩
        have hc : (f c == f a) = true := by simp [hac]
        simp only [hc, if_true]
        omega
    · rcases List.mem_cons.1 hb with hbc | hbl
      · have : 0 < (l.map f).count (f a) := by
          rw [List.count_pos_iff]
          exact List.mem_map.2 ⟨a, hal, rfl⟩
        have hc : (f c == f a) = true := by simp [← hbc, e]
        simp only [hc, if_true]
        omega
      · have := ih a b hal hbl hab e
        omega

/-- Nine cells with pairwise different digits hold each digit exactly once. -/
theorem count_eq_one_of_distinct (f : Nat × Nat → Nat) (u : List (Nat × Nat))
    (hnd : u.Nodup) (hlen : u.length = 9) (hr : ∀ c ∈ u, f c ∈ digits)
    (hd : ∀ c ∈ u, ∀ e ∈ u, f c = f e → c = e) :
    ∀ d ∈ digits, (u.map f).count d = 1 := by
  have nd : (u.map f).Nodup := hnd.map_on hd
  have sub : u.map f ⊆ digits := by
    intro v hv
    obtain ⟨c, hc, rfl⟩ := List.mem_map.1 hv
    exact hr c hc
  have perm := (List.subperm_of_subset nd sub).perm_of_length_le (by simp [digits, hlen])
  intro d hdg
  exact List.count_eq_one_of_mem nd (perm.mem_iff.2 hdg)

/-- Nine cells that hold each digit exactly once hold digits only, pairwise
different. -/
theorem distinct_of_count_eq_one (f : Nat × Nat → Nat) (u : List (Nat × Nat))
    (hlen : u.length = 9) (h : ∀ d ∈ digits, (u.map f).count d = 1) :
    (∀ c ∈ u, f c ∈ digits) ∧ (∀ c ∈ u, ∀ e ∈ u, c ≠ e → f c ≠ f e) := by
  have sub : digits ⊆ u.map f := by
    intro d hd
    have := h d hd
    rw [← List.count_pos_iff]
    omega
  have perm := (List.subperm_of_subset nodup_digits sub).perm_of_length_le
    (by simp [digits, hlen])
  have hr : ∀ c ∈ u, f c ∈ digits := fun c hc => perm.mem_iff.2 (List.mem_map.2 ⟨c, hc, rfl⟩)
  refine ⟨hr, fun c hc e he hce heq => ?_⟩
  have := two_le_count f u c e hc he hce heq
  have := h (f c) (hr c hc)
  omega

/-- In a unit without repeated digits, a cell that holds a digit differs from
every other cell. -/
theorem distinct_of_count_le_one (f : Nat × Nat → Nat) (u : List (Nat × Nat))
    (h : ∀ d ∈ digits, (u.map f).count d ≤ 1) :
    ∀ c ∈ u, ∀ e ∈ u, c ≠ e → f c ∈ digits → f c ≠ f e := by
  intro c hc e he hce hd heq
  have := two_le_count f u c e hc he hce heq
  have := h (f c) hd
  omega

/-- Two peers on the board lie in a common row, column or block. -/
theorem peer_unit {x y a b : Nat} (hx : x < 9) (hy : y < 9) (ha : a < 9) (hb : b < 9)
    (hp : peer x y a b) :
    (∃ i < 9, (x, y) ∈ rowCells i ∧ (a, b) ∈ rowCells i) ∨
    (∃ j < 9, (x, y) ∈ colCells j ∧ (a, b) ∈ colCells j) ∨
    (∃ k < 9, (x, y) ∈ blockCells k ∧ (a, b) ∈ blockCells k) := by
  rcases hp.2 with e | e | e
  · exact Or.inl ⟨x, hx, (mem_rowCells _ _).2 ⟨rfl, hy⟩, (mem_rowCells _ _).2 ⟨e, hb⟩⟩
  · exact Or.inr (Or.inl ⟨y, hy, (mem_colCells _ _).2 ⟨rfl, hx⟩, (mem_colCells _ _).2 ⟨e, ha⟩⟩)
  · refine Or.inr (Or.inr ⟨x / 3 * 3 + y / 3, by omega, (mem_blockCells _ _).2 ⟨?_, ?_⟩,
      (mem_blockCells _ _).2 ⟨?_, ?_⟩⟩)
    · show x / 3 = (x / 3 * 3 + y / 3) / 3
      omega
    · show y / 3 = (x / 3 * 3 + y / 3) % 3
      omega
    · show a / 3 = (x / 3 * 3 + y / 3) / 3
      omega
    · show b / 3 = (x / 3 * 3 + y / 3) % 3
      omega

/-- On a consistent board a given digit differs from all its peers. -/
theorem Consistent.given_ne {g : Grid} (hc : Consistent g) {x y a b : Nat}
    (hx : x < 9) (hy : y < 9) (ha : a < 9) (hb : b < 9) (hp : peer x y a b)
    (hd : g x y ∈ digits) : g a b ≠ g x y := by
  have hne : (x, y) ≠ (a, b) := fun e => hp.1 ⟨(Prod.mk.inj e).1.symm, (Prod.mk.inj e).2.symm⟩
  intro heq
  rcases peer_unit hx hy ha hb hp with ⟨i, hi, m1, m2⟩ | ⟨j, hj, m1, m2⟩ | ⟨k, hk, m1, m2⟩
  · exact distinct_of_count_le_one (fun c => g c.1 c.2) _ (hc.1 i hi) _ m1 _ m2 hne hd heq.symm
  · exact distinct_of_count_le_one (fun c => g c.1 c.2) _ (hc.2.1 j hj) _ m1 _ m2 hne hd heq.symm
  · exact distinct_of_count_le_one (fun c => g c.1 c.2) _ (hc.2.2 k hk) _ m1 _ m2 hne hd heq.symm

/-- A completed grid holds digits only. -/
theorem Solved.filled {g : Grid} (hs : Solved g) : Filled g := by
  intro i hi j hj
  have := (distinct_of_count_eq_one (fun c => g c.1 c.2) _ (length_rowCells i) (hs.1 i hi)).1
    (i, j) ((mem_rowCells _ _).2 ⟨rfl, hj⟩)
  exact (mem_digits _).1 this

/-- In a completed grid every cell differs from all its peers. -/
theorem Solved.peer_ne {g : Grid} (hs : Solved g) {x y a b : Nat}
    (hx : x < 9) (hy : y < 9) (ha : a < 9) (hb : b < 9) (hp : peer x y a b) :
    g a b ≠ g x y := by
  have hne : (x, y) ≠ (a, b) := fun e => hp.1 ⟨(Prod.mk.inj e).1.symm, (Prod.mk.inj e).2.symm⟩
  intro heq
  rcases peer_unit hx hy ha hb hp with ⟨i, hi, m1, m2⟩ | ⟨j, hj, m1, m2⟩ | ⟨k, hk, m1, m2⟩
  · exact (distinct_of_count_eq_one (fun c => g c.1 c.2) _ (length_rowCells i) (hs.1 i hi)).2
      _ m1 _ m2 hne heq.symm
  · exact (distinct_of_count_eq_one (fun c => g c.1 c.2) _ (length_colCells j) (hs.2.1 j hj)).2
      _ m1 _ m2 hne heq.symm
  · exact (distinct_of_count_eq_one (fun c => g c.1 c.2) _ (length_blockCells k hk)
      (hs.2.2 k hk)).2 _ m1 _ m2 hne heq.symm

/-- A board of digits in which every cell differs from all its peers is a
completed grid. -/
theorem solved_of_peer_ne {g : Grid} (hf : Filled g)
    (hp : ∀ x y a b, x < 9 → y < 9 → a < 9 → b < 9 → peer x y a b → g a b ≠ g x y) :
    Solved g := by
  have key : ∀ u : List (Nat × Nat), u.Nodup → u.length = 9 →
      (∀ c ∈ u, c.1 < 9 ∧ c.2 < 9) →
      (∀ c ∈ u, ∀ e ∈ u, (e.1 = c.1 ∨ e.2 = c.2 ∨ (e.1 / 3 = c.1 / 3 ∧ e.2 / 3 = c.2 / 3))) →
      ExactlyOnce g u := by
    intro u hnd hlen hb hu
    apply count_eq_one_of_distinct (fun c => g c.1 c.2) u hnd hlen
    · intro c hc
      exact (mem_digits _).2 (hf c.1 (hb c hc).1 c.2 (hb c hc).2)
    · intro c hc e he heq
      by_contra hne
      have hpe : peer c.1 c.2 e.1 e.2 :=
        ⟨fun h => hne (Prod.ext h.1.symm h.2.symm), hu c hc e he⟩
      exact hp c.1 c.2 e.1 e.2 (hb c hc).1 (hb c hc).2 (hb e he).1 (hb e he).2 hpe heq.symm
  refine ⟨fun i hi => ?_, fun j hj => ?_, fun k hk => ?_⟩
  · apply key _ (nodup_rowCells i) (length_rowCells i)
    · intro c hc
      rw [mem_rowCells] at hc
      exact ⟨by omega, hc.2⟩
    · intro c hc e he
      rw [mem_rowCells] at hc he
      exact Or.inl (by omega)
  · apply key _ (nodup_colCells j) (length_colCells j)
    · intro c hc
      rw [mem_colCells] at hc
      exact ⟨hc.2, by omega⟩
    · intro c hc e he
      rw [mem_colCells] at hc he
      exact Or.inr (Or.inl (by omega))
  · apply key _ (nodup_blockCells k hk) (length_blockCells k hk)
    · intro c hc
      rw [mem_blockCells] at hc
      constructor <;> omega
    · intro c hc e he
      rw [mem_blockCells] at hc he
      exact Or.inr (Or.inr ⟨by omega, by omega⟩)

/-! ## From fillings to completed grids and back -/

/-- The top-level call returns; on false the board is the input and the empty
cells have no filling, on true the board is a filling of the empty cells. -/
theorem run_cases (g : Grid) :
    ∃ b st2, run g = some (b, st2) ∧
      (b = false → (∀ x y, st2.field x y = g x y) ∧ ¬ ∃ h, Fills (EmptyCells g) g h) ∧
      (b = true → Fills (EmptyCells g) g st2.field) := by
  obtain ⟨b, st2, hrun, -, -, hf, ht⟩ := run_spec g
  refine ⟨b, st2, hrun, fun hb => ?_, fun hb => ?_⟩
  · obtain ⟨h1, h2⟩ := hf hb
    refine ⟨h1, ?_⟩
    rintro ⟨h, hF⟩
    exact h2 ⟨h, hF.congr (fun x y => (start_act g x y).symm) (fun _ _ => rfl)⟩
  · exact (ht hb).congr (fun x y => start_act g x y) (fun _ _ => rfl)

/-- A filling of the empty cells of a board whose given digits differ from
their peers is a completed grid that keeps the given digits. -/
theorem fills_board (g h : Grid) (hr : InRange g)
    (hgiv : ∀ x y a b, x < 9 → y < 9 → a < 9 → b < 9 → peer x y a b → g x y ≠ 0 →
      g a b ≠ g x y)
    (hF : Fills (EmptyCells g) g h) : Filled h ∧ Solved h ∧ Keeps g h := by
  have hkeep : ∀ x y, g x y ≠ 0 → h x y = g x y :=
    fun x y hne => hF.1 x y (fun hE => hne hE.2.2)
  have hfill : Filled h := by
    intro i hi j hj
    by_cases h0 : g i j = 0
    · obtain ⟨h1, h2, _⟩ := hF.2 i j ⟨hi, hj, h0⟩
      exact ⟨h1, h2⟩
    · rw [hkeep i j h0]
      have := hr i hi j hj
      omega
  refine ⟨hfill, solved_of_peer_ne hfill ?_, fun i _ j _ hne => hkeep i j hne⟩
  intro x y a b hx hy ha hb hp
  by_cases h0 : g x y = 0
  · exact (hF.2 x y ⟨hx, hy, h0⟩).2.2 a b ha hb hp
  · by_cases h1 : g a b = 0
    · have := (hF.2 a b ⟨ha, hb, h1⟩).2.2 x y hx hy (peer_symm hp)
      exact fun e => this e.symm
    · rw [hkeep x y h0, hkeep a b h1]
      exact hgiv x y a b hx hy ha hb hp h0

/-- A completed grid that keeps the given digits yields a filling of the empty
cells. -/
theorem board_fills (g h : Grid) (hs : Solved h) (hk : Keeps g h) :
    Fills (EmptyCells g) g (fun x y => if x < 9 ∧ y < 9 then h x y else g x y) := by
  have hfill := hs.filled
  refine ⟨fun x y hn => ?_, fun x y hE => ?_⟩
  · by_cases hb : x < 9 ∧ y < 9
    · simp only [hb, and_self, if_true]
      exact hk x hb.1 y hb.2 (fun h0 => hn ⟨hb.1, hb.2, h0⟩)
    · simp only [hb, if_false]
  · obtain ⟨hx, hy, _⟩ := hE
    simp only [hx, hy, and_self, if_true]
    refine ⟨(hfill x hx y hy).1, (hfill x hx y hy).2, fun a b ha hb hp => ?_⟩
    simp only [ha, hb, and_self, if_true]
    exact hs.peer_ne hx hy ha hb hp

/-- The given digits of a board that has a completion differ from their
peers, and the board is in range. -/
theorem givens_of_completion (g h : Grid) (hs : Solved h) (hk : Keeps g h) :
    ∀ x y a b, x < 9 → y < 9 → a < 9 → b < 9 → peer x y a b → g x y ≠ 0 → g a b ≠ g x y := by
  intro x y a b hx hy ha hb hp h0 heq
  have h1 : g a b ≠ 0 := by rw [heq]; exact h0
  have := hs.peer_ne hx hy ha hb hp
  rw [hk x hx y hy h0, hk a ha b hb h1] at this
  exact this heq

/-! ## `verify` -/

theorem occured_fold (vals : List Nat) (a : Nat → Bool) (d : Nat) :
    vals.foldl (fun a v => setv a v true) a d = true ↔ (a d = true ∨ d ∈ vals) := by
  induction vals generalizing a with
  | nil => simp
  | cons v vs ih =>
    simp only [List.foldl_cons]
    rw [ih]
    by_cases hd : d = v
    · simp [setv, hd]
    · simp [setv, hd]

theorem occured_eq_true (vals : List Nat) (d : Nat) : occured vals d = true ↔ d ∈ vals := by
  simp [occured, occured_fold]

theorem occuredOk_iff (vals : List Nat) :
    occuredOk (occured vals) = true ↔ 0 ∉ vals ∧ ∀ d ∈ digits, d ∈ vals := by
  simp only [occuredOk, Bool.and_eq_true, Bool.not_eq_true', List.all_eq_true, occured_eq_true,
    digits]
  rw [← Bool.not_eq_true, occured_eq_true]

theorem mem_bandVals (g : Grid) (i d : Nat) :
    d ∈ bandVals g i ↔ ∃ m n, i ≤ m ∧ m < i + 3 ∧ n < 9 ∧ g m n = d := by
  simp only [bandVals, List.mem_flatMap, List.mem_map, List.mem_range'_1]
  constructor
  · rintro ⟨j, hj, m, hm, n, hn, rfl⟩
    refine ⟨m, n, hm.1, hm.2, ?_, rfl⟩
    simp only [List.mem_cons, List.mem_singleton, List.not_mem_nil, or_false] at hj
    omega
  · rintro ⟨m, n, h1, h2, h3, rfl⟩
    refine ⟨n / 3 * 3, ?_, m, ⟨h1, h2⟩, n, by omega, rfl⟩
    simp only [List.mem_cons, List.mem_singleton, List.not_mem_nil, or_false]
    omega

/-- The function `verify` accepts every completed grid. -/
theorem verify_of_solved (st : sudoku) (hs : Solved st.field) : verify st = true := by
  have hfill := hs.filled
  have hrow : ∀ i < 9, ∀ d ∈ digits, ∃ j < 9, st.field i j = d := by
    intro i hi d hd
    have h1 := hs.1 i hi d hd
    have : d ∈ (rowCells i).map fun c => st.field c.1 c.2 := by
      rw [← List.count_pos_iff]
      unfold occurrences at h1
      omega
    obtain ⟨c, hc, rfl⟩ := List.mem_map.1 this
    rw [mem_rowCells] at hc
    exact ⟨c.2, hc.2, by rw [← hc.1]⟩
  have hcol : ∀ j < 9, ∀ d ∈ digits, ∃ i < 9, st.field i j = d := by
    intro j hj d hd
    have h1 := hs.2.1 j hj d hd
    have : d ∈ (colCells j).map fun c => st.field c.1 c.2 := by
      rw [← List.count_pos_iff]
      unfold occurrences at h1
      omega
    obtain ⟨c, hc, rfl⟩ := List.mem_map.1 this
    rw [mem_colCells] at hc
    exact ⟨c.1, hc.2, by rw [← hc.1]⟩
  simp only [verify, Bool.and_eq_true, List.all_eq_true, List.mem_range, occuredOk_iff,
    List.mem_map, mem_bandVals]
  refine ⟨⟨fun i hi => ⟨?_, fun d hd => ?_⟩, fun i hi => ⟨?_, fun d hd => ?_⟩⟩,
    fun i hi => ⟨?_, fun d hd => ?_⟩⟩
  · rintro ⟨j, hj, e⟩
    have := (hfill i hi j hj).1
    omega
  · obtain ⟨j, hj, e⟩ := hrow i hi d hd
    exact ⟨j, hj, e⟩
  · rintro ⟨j, hj, e⟩
    have := (hfill j hj i hi).1
    omega
  · obtain ⟨j, hj, e⟩ := hcol i hi d hd
    exact ⟨j, hj, e⟩
  · rintro ⟨m, n, h1, h2, h3, e⟩
    simp only [List.mem_cons, List.mem_singleton, List.not_mem_nil, or_false] at hi
    have := (hfill m (by omega) n h3).1
    omega
  · simp only [List.mem_cons, List.mem_singleton, List.not_mem_nil, or_false] at hi
    obtain ⟨j, hj, e⟩ := hrow i (by omega) d hd
    exact ⟨i, j, le_refl i, by omega, hj, e⟩

/-! ## Neighbourhood of a cell -/

theorem mem_nearVals (g : Grid) (x y v : Nat) (hx : x < 9) (hy : y < 9) :
    v ∈ nearVals g x y ↔ ∃ a b, a < 9 ∧ b < 9 ∧
      (a = x ∨ b = y ∨ (a / 3 = x / 3 ∧ b / 3 = y / 3)) ∧ g a b = v := by
  simp only [nearVals, List.mem_map, List.mem_append, mem_rowCells, mem_colCells,
    mem_blockCells, Prod.exists]
  constructor
  · rintro ⟨a, b, (⟨h1, h2⟩ | ⟨h1, h2⟩) | ⟨h1, h2⟩, e⟩
    · exact ⟨a, b, by omega, h2, Or.inl h1, e⟩
    · exact ⟨a, b, h2, by omega, Or.inr (Or.inl h1), e⟩
    · exact ⟨a, b, by omega, by omega, Or.inr (Or.inr ⟨by omega, by omega⟩), e⟩
  · rintro ⟨a, b, ha, hb, h1 | h1 | h1, e⟩
    · exact ⟨a, b, Or.inl (Or.inl ⟨h1, hb⟩), e⟩
    · exact ⟨a, b, Or.inl (Or.inr ⟨h1, ha⟩), e⟩
    · exact ⟨a, b, Or.inr ⟨by omega, by omega⟩, e⟩

/-- In a filling, the digit of an empty cell is in none of the cells of its
row, column and block on the board that is being filled. -/
theorem Fills.not_near {g h : Grid} (hF : Fills (EmptyCells g) g h) {x y : Nat}
    (hE : EmptyCells g x y) : h x y ∉ nearVals g x y := by
  obtain ⟨hx, hy, h0⟩ := hE
  obtain ⟨h1, _, hp⟩ := hF.2 x y ⟨hx, hy, h0⟩
  rw [mem_nearVals g x y _ hx hy]
  rintro ⟨a, b, ha, hb, hu, e⟩
  have hne : ¬ (a = x ∧ b = y) := by
    rintro ⟨rfl, rfl⟩
    omega
  have hnE : ¬ EmptyCells g a b := fun hE => by
    have := hE.2.2
    omega
  exact hp a b ha hb ⟨hne, hu⟩ ((hF.1 a b hnE).trans e)

/-! ## The checked `solve` computes what `solve` computes -/

theorem solve_values_mono (c1 c2 : sudoku → Option (Bool × sudoku))
    (hc : ∀ s r, c1 s = some r → c2 s = some r) (m cz : Nat) (l : List Nat) :
    ∀ st r, solve_values c1 m cz l st = some r → solve_values c2 m cz l st = some r := by
  induction l with
  | nil => intro st r h; exact h
  | cons i rest ih =>
    intro st r h
    simp only [solve_values] at h ⊢
    split at h
    · rename_i hv
      simp only [hv, if_true]
      cases h1 : c1 { st with field := setCell st.field (st.slots m).x (st.slots m).y i } with
      | none => rw [h1] at h; simp at h
      | some p =>
        rw [h1] at h
        rw [hc _ _ h1]
        obtain ⟨b, s2⟩ := p
        cases b with
        | true => exact h
        | false => exact ih _ _ h
    · rename_i hv
      simp only [hv]
      exact ih _ _ h

theorem solve_body_mono (c1 c2 : sudoku → Option (Bool × sudoku))
    (hc : ∀ s r, c1 s = some r → c2 s = some r) (st : sudoku) (r : Bool × sudoku)
    (h : solve_body c1 st = some r) : solve_body c2 st = some r := by
  simp only [solve_body] at h ⊢
  generalize update_slots st = u at h ⊢
  obtain ⟨cz, ⟨f, sl, es, mn, mi, c⟩⟩ := u
  cases mn with
  | none => exact h
  | some m =>
    simp only [] at h ⊢
    split
    · rename_i hv
      rw [if_pos hv] at h
      cases h1 : solve_values c1 m cz (List.range' 1 9)
          { field := f, slots := sl, empty_slots := es, minimum_empty_slot := some m,
            minimum_empty_slot_index := mi, empty_slots_count := c - 1 } with
      | none => rw [h1] at h; simp at h
      | some p =>
        rw [h1] at h
        rw [solve_values_mono c1 c2 hc _ _ _ _ _ h1]
        exact h
    · rename_i hv
      rw [if_neg hv] at h
      exact h

theorem solve_checked_sub (n : Nat) :
    ∀ st r, solve_checked n st = some r → solve n st = some r := by
  induction n with
  | zero => intro st r h; simp [solve_checked] at h
  | succ n ih =>
    intro st r h
    simp only [solve_checked] at h
    simp only [solve]
    refine solve_body_mono _ _ ?_ st r h
    intro s q hq
    split at hq
    · exact ih s q hq
    · simp at hq

/-- A result of `solve` does not depend on the recursion depth allowed, once
it is enough. -/
theorem solve_fuel (n : Nat) : ∀ st r, solve n st = some r → solve (n + 1) st = some r := by
  induction n with
  | zero => intro st r h; simp [solve] at h
  | succ n ih =>
    intro st r h
    simp only [solve] at h ⊢
    exact solve_body_mono _ _ ih st r h

/-! ## Helpers for the sample boards -/

theorem zeros_le (g : Grid) : zeros g ≤ 81 := by
  have h : (cells.filter fun c => g c.1 c.2 = 0).length ≤ cells.length := List.length_filter_le _ _
  have h81 : cells.length = 81 := by decide
  rw [zeros_eq]
  omega

/-- The board `fullBoard` is the only completion of `oneGap`. -/
theorem oneGap_unique (h2 : Grid) (hs : Solved h2) (hk : Keeps oneGap h2) :
    SameBoard fullBoard h2 := by
  have hrest : ∀ i < 9, ∀ j < 9, ¬ (i = 0 ∧ j = 0) →
      oneGap i j ≠ 0 ∧ oneGap i j = fullBoard i j := by decide
  have hsame : ∀ i < 9, ∀ j < 9, ¬ (i = 0 ∧ j = 0) → h2 i j = fullBoard i j := by
    intro i hi j hj hne
    rw [hk i hi j hj (hrest i hi j hj hne).1]
    exact (hrest i hi j hj hne).2
  intro i hi j hj
  by_cases h0 : i = 0 ∧ j = 0
  · obtain ⟨rfl, rfl⟩ := h0
    have hf := hs.filled 0 (by omega) 0 (by omega)
    have hp : ∀ b, b < 9 → b ≠ 0 → fullBoard 0 b ≠ h2 0 0 := by
      intro b hb hb0
      rw [← hsame 0 (by omega) b hb (fun e => hb0 e.2)]
      exact hs.peer_ne (by omega) (by omega) (by omega) hb ⟨fun e => hb0 e.2, Or.inl rfl⟩
    have p1 := hp 1 (by omega) (by omega)
    have p2 := hp 2 (by omega) (by omega)
    have p3 := hp 3 (by omega) (by omega)
    have p4 := hp 4 (by omega) (by omega)
    have p5 := hp 5 (by omega) (by omega)
    have p6 := hp 6 (by omega) (by omega)
    have p7 := hp 7 (by omega) (by omega)
    have p8 := hp 8 (by omega) (by omega)
    have e0 : fullBoard 0 0 = 5 := by decide
    have e1 : fullBoard 0 1 = 3 := by decide
    have e2 : fullBoard 0 2 = 4 := by decide
    have e3 : fullBoard 0 3 = 6 := by decide
    have e4 : fullBoard 0 4 = 7 := by decide
    have e5 : fullBoard 0 5 = 8 := by decide
    have e6 : fullBoard 0 6 = 9 := by decide
    have e7 : fullBoard 0 7 = 1 := by decide
    have e8 : fullBoard 0 8 = 2 := by decide
    omega
  · exact hsame i hi j hj h0

/-! ## The claims -/

/-- C1: on a board with entries in 0..9 in which no row, column or block
repeats a nonzero digit, `solve` on the initialised model returns, and when it
returns true the final board holds a digit 1..9 in every cell, every row,
column and block contains each digit exactly once, and every nonzero cell of
the input is kept. -/
theorem solve_sound (g : Grid) (hr : InRange g) (hc : Consistent g) :
    (∃ r, run g = some r) ∧
    ∀ st2, run g = some (true, st2) →
      Filled st2.field ∧ Solved st2.field ∧ Keeps g st2.field := by
  obtain ⟨b, s, hrun, -, ht⟩ := run_cases g
  refine ⟨⟨_, hrun⟩, fun st2 h => ?_⟩
  rw [h] at hrun
  obtain ⟨rfl, rfl⟩ := Prod.mk.inj (Option.some.inj hrun)
  refine fills_board g _ hr ?_ (ht rfl)
  intro x y a b hx hy ha hb hp h0
  refine hc.given_ne hx hy ha hb hp ((mem_digits _).2 ?_)
  have := hr x hx y hy
  omega

/-- C1 on `fourGaps`: the run returns true and the final board is a valid
completed grid that keeps the given digits. -/
theorem solve_sound_witness :
    ∃ st2, run fourGaps = some (true, st2) ∧
      Filled st2.field ∧ Solved st2.field ∧ Keeps fourGaps st2.field := by
  have h : (run fourGaps).map Prod.fst = some true := by decide
  rcases hr : run fourGaps with _ | ⟨b, st2⟩
  · rw [hr] at h
    exact absurd h (by simp)
  · rw [hr] at h
    have hb : b = true := by simpa using h
    subst hb
    exact ⟨st2, rfl, (solve_sound fourGaps (by decide) (by decide)).2 st2 hr⟩

/-- C2: completeness. On a board with entries in 0..9, if some valid
completed grid keeps every nonzero cell of the input then `solve` on the
initialised model returns true; so it returns false only when the puzzle has
no solution. -/
theorem solve_complete (g : Grid) (_hr : InRange g) :
    ((∃ h, Solved h ∧ Keeps g h) → ∃ st2, run g = some (true, st2)) ∧
    (∀ st2, run g = some (false, st2) → ¬ ∃ h, Solved h ∧ Keeps g h) := by
  obtain ⟨b, s, hrun, hf, -⟩ := run_cases g
  constructor
  · rintro ⟨h, hs, hk⟩
    cases b with
    | true => exact ⟨s, hrun⟩
    | false => exact absurd ⟨_, board_fills g h hs hk⟩ (hf rfl).2
  · rintro st2 h2 ⟨h, hs, hk⟩
    rw [h2] at hrun
    obtain ⟨rfl, rfl⟩ := Prod.mk.inj (Option.some.inj hrun)
    exact (hf rfl).2 ⟨_, board_fills g h hs hk⟩

/-- C2 on `fourGaps`, which `fullBoard` completes: the run returns true. -/
theorem solve_complete_witness :
    InRange fourGaps ∧ ∃ st2, run fourGaps = some (true, st2) :=
  ⟨by decide, (solve_complete fourGaps (by decide)).1 ⟨fullBoard, by decide, by decide⟩⟩

/-- C3: on a board with entries in 0..9, `solve` on the initialised model
returns, and when it returns false the final board equals the input cell for
cell. -/
theorem solve_failure_restores (g : Grid) (_hr : InRange g) :
    (∃ r, run g = some r) ∧
    ∀ st2, run g = some (false, st2) → SameBoard g st2.field := by
  obtain ⟨b, s, hrun, hf, -⟩ := run_cases g
  refine ⟨⟨_, hrun⟩, fun st2 h => ?_⟩
  rw [h] at hrun
  obtain ⟨rfl, rfl⟩ := Prod.mk.inj (Option.some.inj hrun)
  intro i _ j _
  exact (hf rfl).1 i j

/-- C3 on `clash`: the run returns false and the board is the input again. -/
theorem solve_failure_restores_witness :
    ∃ st2, run clash = some (false, st2) ∧ SameBoard clash st2.field := by
  have h : (run clash).map Prod.fst = some false := by decide
  rcases hr : run clash with _ | ⟨b, st2⟩
  · rw [hr] at h
    exact absurd h (by simp)
  · rw [hr] at h
    have hb : b = false := by simpa using h
    subst hb
    exact ⟨st2, rfl, (solve_failure_restores clash (by decide)).2 st2 hr⟩

/-- C4, as stated, fails: on the full board of ones `solve` returns true at
once (there is no slot) and `verify` rejects the board. -/
theorem ones_pass_solve_fail_verify :
    ¬ ∀ (g : Grid) (st2 : sudoku), InRange g → run g = some (true, st2) →
      verify st2 = true := by
  intro hall
  have h : (run ones).map (fun r => (r.1, verify r.2)) = some (true, false) := by decide
  rcases hr : run ones with _ | ⟨b, st2⟩
  · rw [hr] at h
    exact absurd h (by simp)
  · rw [hr] at h
    simp only [Option.map_some', Option.some.injEq, Prod.mk.injEq] at h
    obtain ⟨rfl, hv⟩ := h
    have := hall ones st2 (by decide) hr
    rw [hv] at this
    exact Bool.false_ne_true this

/-- C4, amended: on a board with entries in 0..9 in which no row, column or
block repeats a nonzero digit, `solve` on the initialised model returns, and
when it returns true, `verify` on the resulting board returns true. -/
theorem solve_verify (g : Grid) (hr : InRange g) (hc : Consistent g) :
    (∃ r, run g = some r) ∧
    ∀ st2, run g = some (true, st2) → verify st2 = true := by
  obtain ⟨b, s, hrun, -, ht⟩ := run_cases g
  refine ⟨⟨_, hrun⟩, fun st2 h => ?_⟩
  rw [h] at hrun
  obtain ⟨rfl, rfl⟩ := Prod.mk.inj (Option.some.inj hrun)
  apply verify_of_solved
  refine (fills_board g _ hr ?_ (ht rfl)).2.1
  intro x y a b hx hy ha hb hp h0
  refine hc.given_ne hx hy ha hb hp ((mem_digits _).2 ?_)
  have := hr x hx y hy
  omega

/-- C4, amended, on `fourGaps`: the run returns true and `verify` accepts. -/
theorem solve_verify_witness :
    ∃ st2, run fourGaps = some (true, st2) ∧ verify st2 = true := by
  have h : (run fourGaps).map Prod.fst = some true := by decide
  rcases hr : run fourGaps with _ | ⟨b, st2⟩
  · rw [hr] at h
    exact absurd h (by simp)
  · rw [hr] at h
    have hb : b = true := by simpa using h
    subst hb
    exact ⟨st2, rfl, (solve_verify fourGaps (by decide) (by decide)).2 st2 hr⟩

/-- C5 fails on the code: `verify` accepts the Latin square `latin`, whose
entries are in 1..9 and whose blocks do not contain each digit once. -/
theorem verify_accepts_latin :
    InRange latin ∧ verify (sudoku.ofGrid latin 0) = true ∧ ¬ BlocksComplete latin := by
  decide

/-- C6: on a board with entries in 0..9 that has exactly one valid
completion, `solve` on the initialised model returns true and the final board
is that completion. -/
theorem solve_unique (g h : Grid) (hr : InRange g) (hs : Solved h) (hk : Keeps g h)
    (hu : ∀ h2, Solved h2 → Keeps g h2 → SameBoard h h2) :
    ∃ st2, run g = some (true, st2) ∧ SameBoard h st2.field := by
  obtain ⟨b, s, hrun, hf, ht⟩ := run_cases g
  cases b with
  | false => exact absurd ⟨_, board_fills g h hs hk⟩ (hf rfl).2
  | true =>
    obtain ⟨-, hsol, hkeep⟩ := fills_board g _ hr (givens_of_completion g h hs hk) (ht rfl)
    exact ⟨s, hrun, hu _ hsol hkeep⟩

/-- C6 on `oneGap`, whose only completion is `fullBoard`. -/
theorem solve_unique_witness :
    ∃ st2, run oneGap = some (true, st2) ∧ SameBoard fullBoard st2.field :=
  solve_unique oneGap fullBoard (by decide) (by decide) (by decide) oneGap_unique

/-- C7: on a board with entries in 0..9 whose only empty cell is `(x, y)`,
when the row, column and block of that cell together contain every digit of
1..9 except `d`, `solve` on the initialised model returns true and the final
board is the input with that cell set to `d`. -/
theorem solve_single_gap (g : Grid) (d x y : Nat) (_hr : InRange g) (hd : d ∈ digits)
    (hx : x < 9) (hy : y < 9) (h0 : g x y = 0)
    (hone : ∀ a < 9, ∀ b < 9, g a b = 0 → a = x ∧ b = y)
    (hnear : ∀ e ∈ digits, e ∈ nearVals g x y ↔ e ≠ d) :
    ∃ st2, run g = some (true, st2) ∧ SameBoard (setCell g x y d) st2.field := by
  have hE : EmptyCells g x y := ⟨hx, hy, h0⟩
  have honly : ∀ a b, EmptyCells g a b → a = x ∧ b = y := fun a b h => hone a h.1 b h.2.1 h.2.2
  have hdn : d ∉ nearVals g x y := fun h => (hnear d hd).1 h rfl
  have hfill : Fills (EmptyCells g) g (setCell g x y d) := by
    refine ⟨fun a b hn => ?_, fun a b hab => ?_⟩
    · have hne : ¬ (a = x ∧ b = y) := by
        rintro ⟨rfl, rfl⟩
        exact hn hE
      simp [setCell, hne]
    · obtain ⟨rfl, rfl⟩ := honly a b hab
      have hself : setCell g a b d a b = d := by simp [setCell]
      rw [hself]
      refine ⟨((mem_digits d).1 hd).1, ((mem_digits d).1 hd).2, fun p q hp hq hpe => ?_⟩
      have hne : ¬ (p = a ∧ q = b) := hpe.1
      simp only [setCell, hne, if_false]
      intro e
      exact hdn ((mem_nearVals g a b d hx hy).2 ⟨p, q, hp, hq, hpe.2, e⟩)
  obtain ⟨b, s, hrun, hf, ht⟩ := run_cases g
  cases b with
  | false => exact absurd ⟨_, hfill⟩ (hf rfl).2
  | true =>
    refine ⟨s, hrun, fun i hi j hj => ?_⟩
    have hF := ht rfl
    by_cases hij : i = x ∧ j = y
    · obtain ⟨rfl, rfl⟩ := hij
      have hself : setCell g i j d i j = d := by simp [setCell]
      rw [hself]
      obtain ⟨h1, h9, -⟩ := hF.2 i j hE
      by_contra hne
      exact hF.not_near hE ((hnear _ ((mem_digits _).2 ⟨h1, h9⟩)).2 hne)
    · simp only [setCell, hij, if_false]
      exact hF.1 i j (fun h => hij (honly i j h))

/-- C7 on `oneGap`: the cell `(0, 0)` can only take 5. -/
theorem solve_single_gap_witness :
    ∃ st2, run oneGap = some (true, st2) ∧ SameBoard (setCell oneGap 0 0 5) st2.field :=
  solve_single_gap oneGap 5 0 0 (by decide) (by decide) (by decide) (by decide) (by decide)
    (by decide) (by decide)

/-- C8: on the all-zero board, which has 81 slots after `init`, `solve`
returns true and the resulting board is accepted by `verify` and is a valid
completed Sudoku grid. -/
theorem solve_blank :
    zeros blank = 81 ∧
    ∃ st2, run blank = some (true, st2) ∧ verify st2 = true ∧ Solved st2.field := by
  refine ⟨by decide, ?_⟩
  obtain ⟨b, s, hrun, hf, ht⟩ := run_cases blank
  have hsol : Solved fullBoard := by decide
  have hkeep : Keeps blank fullBoard := fun i _ j _ h => absurd rfl h
  cases b with
  | false => exact absurd ⟨_, board_fills blank fullBoard hsol hkeep⟩ (hf rfl).2
  | true =>
    have hs := (fills_board blank _ (fun _ _ _ _ => Nat.zero_le 9)
      (fun x y a b _ _ _ _ _ h => absurd rfl h) (ht rfl)).2.1
    exact ⟨s, hrun, verify_of_solved s hs, hs⟩

/-- C9: on a board with entries in 0..9 whose only empty cells are two cells
`(x, y1)` and `(x, y2)` of one row, when `d` is the one digit that is legal
for each of them (every other digit is in its row, column or block), `solve`
on the initialised model returns false and every filled cell of the input is
unchanged. -/
theorem solve_clash (g : Grid) (x y1 y2 d : Nat) (_hr : InRange g)
    (hx : x < 9) (hy1 : y1 < 9) (hy2 : y2 < 9) (hne : y1 ≠ y2)
    (h1 : g x y1 = 0) (h2 : g x y2 = 0)
    (_htwo : ∀ a < 9, ∀ b < 9, g a b = 0 → a = x ∧ (b = y1 ∨ b = y2))
    (_hd : d ∈ digits)
    (hl1 : ∀ e ∈ digits, e ∉ nearVals g x y1 ↔ e = d)
    (hl2 : ∀ e ∈ digits, e ∉ nearVals g x y2 ↔ e = d) :
    ∃ st2, run g = some (false, st2) ∧ Keeps g st2.field := by
  obtain ⟨b, s, hrun, hf, ht⟩ := run_cases g
  cases b with
  | false => exact ⟨s, hrun, fun i _ j _ _ => (hf rfl).1 i j⟩
  | true =>
    exfalso
    have hF := ht rfl
    have hE1 : EmptyCells g x y1 := ⟨hx, hy1, h1⟩
    have hE2 : EmptyCells g x y2 := ⟨hx, hy2, h2⟩
    obtain ⟨a1, a9, hp⟩ := hF.2 x y1 hE1
    obtain ⟨b1, b9, -⟩ := hF.2 x y2 hE2
    have e1 := (hl1 _ ((mem_digits _).2 ⟨a1, a9⟩)).1 (hF.not_near hE1)
    have e2 := (hl2 _ ((mem_digits _).2 ⟨b1, b9⟩)).1 (hF.not_near hE2)
    exact hp x y2 hx hy2 ⟨fun e => hne e.2.symm, Or.inl rfl⟩ (e2.trans e1.symm)

/-- C9 on `clash`: the cells `(0, 0)` and `(0, 1)` both admit 8 only. -/
theorem solve_clash_witness :
    ∃ st2, run clash = some (false, st2) ∧ Keeps clash st2.field :=
  solve_clash clash 0 0 1 8 (by decide) (by decide) (by decide) (by decide) (by decide)
    (by decide) (by decide) (by decide) (by decide) (by decide) (by decide)

/-- C10: on the initialised model of a board with entries in 0..9, `solve`
returns within a recursion depth of one level per empty cell, of which there
are at most 81, and the run in which every recursive call is checked to be
entered with a smaller `empty_slots_count` than its caller returns the same
result: no call is ever refused. -/
theorem solve_terminates (g : Grid) (_hr : InRange g) :
    zeros g ≤ 81 ∧
    ∃ r, run g = some r ∧ solve_checked (zeros g + 1) (start g) = some r := by
  refine ⟨zeros_le g, ?_⟩
  obtain ⟨b, s, hrun, -⟩ := solve_checked_spec (zeros g + 1) (start g) (start_poolOK g)
    (start_zeroAt g) (by rw [start_count]; omega)
  exact ⟨(b, s), solve_checked_sub _ _ _ hrun, hrun⟩

/-- C10 on `fourGaps`. -/
theorem solve_terminates_witness :
    zeros fourGaps ≤ 81 ∧
    ∃ r, run fourGaps = some r ∧ solve_checked (zeros fourGaps + 1) (start fourGaps) = some r :=
  solve_terminates fourGaps (by decide)

/-! ## Conservation of the slots -/

theorem assigned_eq_zero (g h : Grid) (hs : ∀ x y, h x y = g x y) : assigned g h = 0 := by
  simp only [assigned, List.length_eq_zero, List.filter_eq_nil_iff, decide_eq_true_eq, not_and,
    not_not]
  intro c _ h0
  rw [hs, h0]

theorem assigned_eq_zeros (g h : Grid) (hF : Fills (EmptyCells g) g h) :
    assigned g h = zeros g := by
  simp only [assigned, zeros]
  congr 1
  apply List.filter_congr
  intro c hc
  rw [mem_cells] at hc
  by_cases h0 : g c.1 c.2 = 0
  · have := (hF.2 c.1 c.2 ⟨hc.1, hc.2, h0⟩).1
    have hne : h c.1 c.2 ≠ 0 := by omega
    simp [h0, hne]
  · simp [h0]

theorem setAside_full (st : sudoku) : setAside st st.empty_slots_count = 0 := by
  simp only [setAside, List.length_eq_zero, List.filter_eq_nil_iff, List.mem_range,
    decide_eq_true_eq, not_and]
  intro p hp hle
  omega

/-- C11, as stated, fails: on `oneGap` the run returns true with one active
slot again and the one empty cell filled, so the sum is 2 and not 1. -/
theorem oneGap_sum_is_two :
    ¬ ∀ (g : Grid) (b : Bool) (st2 : sudoku), InRange g → run g = some (b, st2) →
      st2.empty_slots_count + setAside st2 (zeros g) + assigned g st2.field = zeros g := by
  intro hall
  have h : (run oneGap).map (fun r =>
      r.2.empty_slots_count + setAside r.2 (zeros oneGap) + assigned oneGap r.2.field)
      = some 2 := by decide
  have hz : zeros oneGap = 1 := by decide
  rcases hr : run oneGap with _ | ⟨b, st2⟩
  · rw [hr] at h
    exact absurd h (by simp)
  · rw [hr] at h
    simp only [Option.map_some', Option.some.injEq] at h
    have := hall oneGap b st2 (by decide) hr
    omega

/-- C11, amended: after a top-level call to `solve` on the initialised model
of a board with entries in 0..9, `empty_slots_count` is the number of empty
cells of the input again and no slot is set aside; when the call returned
false no initially empty cell holds a digit (the sum is the number of empty
cells), and when it returned true every initially empty cell holds a digit
(the sum is twice that number). -/
theorem solve_conservation (g : Grid) (_hr : InRange g) :
    ∃ b st2, run g = some (b, st2) ∧
      st2.empty_slots_count = zeros g ∧ setAside st2 (zeros g) = 0 ∧
      (b = false → assigned g st2.field = 0 ∧
        st2.empty_slots_count + setAside st2 (zeros g) + assigned g st2.field = zeros g) ∧
      (b = true → assigned g st2.field = zeros g ∧
        st2.empty_slots_count + setAside st2 (zeros g) + assigned g st2.field
          = 2 * zeros g) := by
  obtain ⟨b, st2, hrun, hsp, -, hf, ht⟩ := run_spec g
  have hc : st2.empty_slots_count = zeros g := hsp.1
  have hs : setAside st2 (zeros g) = 0 := by
    rw [← hc]
    exact setAside_full st2
  refine ⟨b, st2, hrun, hc, hs, fun hb => ?_, fun hb => ?_⟩
  · have ha := assigned_eq_zero g _ (hf hb).1
    exact ⟨ha, by omega⟩
  · have ha := assigned_eq_zeros g _
      ((ht hb).congr (fun x y => start_act g x y) (fun _ _ => rfl))
    exact ⟨ha, by omega⟩

/-- C11, amended, on `fourGaps`. -/
theorem solve_conservation_witness :
    ∃ b st2, run fourGaps = some (b, st2) ∧
      st2.empty_slots_count = zeros fourGaps ∧ setAside st2 (zeros fourGaps) = 0 ∧
      (b = false → assigned fourGaps st2.field = 0 ∧
        st2.empty_slots_count + setAside st2 (zeros fourGaps) + assigned fourGaps st2.field
          = zeros fourGaps) ∧
      (b = true → assigned fourGaps st2.field = zeros fourGaps ∧
        st2.empty_slots_count + setAside st2 (zeros fourGaps) + assigned fourGaps st2.field
          = 2 * zeros fourGaps) :=
  solve_conservation fourGaps (by decide)

/-! ## The slots built by `init` -/

theorem zeros_eq_length (g : Grid) : zeros g = (zeroCells g).length := rfl

theorem mem_zeroCells (g : Grid) (c : Nat × Nat) :
    c ∈ zeroCells g ↔ c.1 < 9 ∧ c.2 < 9 ∧ g c.1 c.2 = 0 := by
  simp only [zeroCells, List.mem_filter, mem_cells, decide_eq_true_eq, and_assoc]

theorem pairwise_cells : cells.Pairwise rowMajor := by decide

theorem pairwise_zeroCells (g : Grid) : (zeroCells g).Pairwise rowMajor :=
  pairwise_cells.filter _

/-- The coordinates `init` gives to slot `k`, for any state it is run on. -/
theorem init_slots_at (s : sudoku) (k : Nat) (c : Nat × Nat)
    (h : (zeroCells s.field)[k]? = some c) :
    ((init s).slots k).x = c.1 ∧ ((init s).slots k).y = c.2 := by
  have := (init_scan s.field cells (fun _ => slot.fresh) 0).2.1 k c h
  rwa [Nat.zero_add] at this

/-- C12: on a board with entries in 0..9 and `empty_slots_count` equal to its
number N of zero cells, `init` makes the slots 0..N-1 the zero cells of the
board (each zero cell once, in row-major order), makes `empty_slots` the
identity, keeps the board and `empty_slots_count`, and selects no slot. -/
theorem init_slots (s : sudoku) (_hr : InRange s.field)
    (hc : s.empty_slots_count = zeros s.field) :
    (zeroCells s.field).length = s.empty_slots_count ∧
    (∀ c, c ∈ zeroCells s.field ↔ c.1 < 9 ∧ c.2 < 9 ∧ s.field c.1 c.2 = 0) ∧
    (zeroCells s.field).Pairwise rowMajor ∧
    (∀ k < s.empty_slots_count, ∃ c, (zeroCells s.field)[k]? = some c ∧
      ((init s).slots k).x = c.1 ∧ ((init s).slots k).y = c.2) ∧
    (∀ k, (init s).empty_slots k = k) ∧
    (init s).field = s.field ∧
    (init s).empty_slots_count = s.empty_slots_count ∧
    (init s).minimum_empty_slot = none := by
  refine ⟨by rw [hc]; rfl, mem_zeroCells s.field, pairwise_zeroCells s.field, ?_,
    fun _ => rfl, rfl, rfl, rfl⟩
  intro k hk
  have hk2 : k < (zeroCells s.field).length := by
    rw [hc, zeros_eq_length] at hk
    exact hk
  exact ⟨_, List.getElem?_eq_getElem hk2, init_slots_at s k _ (List.getElem?_eq_getElem hk2)⟩

/-- C12 on `fourGaps`: the four slots are the cells (0,0), (0,1), (4,4) and
(8,8), in this order. -/
theorem init_slots_witness :
    zeroCells fourGaps = [(0, 0), (0, 1), (4, 4), (8, 8)] ∧
    (∀ k < 4, ∃ c, (zeroCells fourGaps)[k]? = some c ∧
      ((init (sudoku.ofGrid fourGaps 4)).slots k).x = c.1 ∧
      ((init (sudoku.ofGrid fourGaps 4)).slots k).y = c.2) :=
  ⟨by decide, (init_slots (sudoku.ofGrid fourGaps 4) (by decide) (by decide)).2.2.2.1⟩

/-! ## `update_slots` on any state -/

theorem refresh_idem (g : Grid) (t : slot) : refresh g (refresh g t) = refresh g t := rfl

theorem fresh_refresh (g : Grid) (t : slot) : Fresh g (refresh g t) := refresh_idem g t

theorem countValid_fold_length (vv : Nat → Bool) (l : List Nat) (c : Int) :
    l.foldl (fun c i => if vv i then c + 1 else c) c = c + ((l.filter vv).length : Int) := by
  induction l generalizing c with
  | nil => simp
  | cons a l ih =>
    simp only [List.foldl_cons]
    rw [ih]
    by_cases ha : vv a = true
    · simp only [ha, if_true, List.filter_cons_of_pos, List.length_cons]
      push_cast
      omega
    · simp only [ha, Bool.false_eq_true, if_false, List.filter_cons_of_neg, not_false_eq_true]

/-- The count loop counts the set markers among 1..9. -/
theorem countValid_eq_length (vv : Nat → Bool) :
    countValid vv = ((digits.filter vv).length : Int) := by
  simp only [countValid, digits]
  rw [countValid_fold_length]
  simp

/-- On the board, a marker is set exactly when the digit is in no cell of the
row, the column and the block of the slot. -/
theorem markers_iff_not_near (g : Grid) (x y d : Nat) (hx : x < 9) (hy : y < 9) :
    markers g x y d = true ↔ d ∉ nearVals g x y := by
  rw [markers_eq_true, mem_nearVals g x y d hx hy]
  constructor
  · rintro ⟨h1, h2, h3⟩ ⟨a, b, ha, hb, hu | hu | hu, e⟩
    · subst hu; exact h2 b hb e
    · subst hu; exact h1 a ha e
    · exact h3 a b hu.1 hu.2 e
  · intro h
    refine ⟨fun i hi e => h ⟨i, y, hi, hy, Or.inr (Or.inl rfl), e⟩,
      fun i hi e => h ⟨x, i, hx, hi, Or.inl rfl, e⟩,
      fun i j hi hj e => h ⟨i, j, by omega, by omega, Or.inr (Or.inr ⟨hi, hj⟩), e⟩⟩

/-- The scan of `update_slots` on any state: the board is kept, every slot
left in the active pool has been recomputed, and the position of the selected
slot is in the pool. -/
theorem update_loop_fresh (n : Nat) : ∀ (s cz : Nat) (st : sudoku),
    st.empty_slots_count ≤ s + n → s ≤ st.empty_slots_count →
    (∀ k < s, Fresh st.field (st.slots (st.empty_slots k))) →
    (∀ m, st.minimum_empty_slot = some m → st.minimum_empty_slot_index < s) →
    (update_loop n s cz st).2.field = st.field ∧
    (∀ k < (update_loop n s cz st).2.empty_slots_count,
      Fresh st.field ((update_loop n s cz st).2.slots ((update_loop n s cz st).2.empty_slots k))) ∧
    (∀ m, (update_loop n s cz st).2.minimum_empty_slot = some m →
      (update_loop n s cz st).2.minimum_empty_slot_index
        < (update_loop n s cz st).2.empty_slots_count) := by
  induction n with
  | zero =>
    intro s cz st h1 h2 hf hm
    have hs : s = st.empty_slots_count := by omega
    subst hs
    exact ⟨rfl, hf, hm⟩
  | succ n ih =>
    intro s cz st h1 h2 hf hm
    by_cases hs : s < st.empty_slots_count
    · have hf1 : ∀ k < s, Fresh st.field
          (setv st.slots (st.empty_slots s) (refresh st.field (st.slots (st.empty_slots s)))
            (st.empty_slots k)) := by
        intro k hk
        simp only [setv]
        split
        · exact fresh_refresh _ _
        · exact hf k hk
      by_cases hz : (refresh st.field (st.slots (st.empty_slots s))).valid_values_count = 0
      · simp only [update_loop, hs, if_true, hz]
        apply ih
        · simp only []; omega
        · simp only []; omega
        · intro k hk
          have e1 : k ≠ s := by omega
          have e2 : k ≠ st.empty_slots_count - 1 := by omega
          simp only [setv, e1, e2, if_false]
          exact hf1 k hk
        · exact hm
      · have key : ∃ st2 : sudoku,
            update_loop (n + 1) s cz st = update_loop n (s + 1) cz st2 ∧
            st2.field = st.field ∧ st2.empty_slots_count = st.empty_slots_count ∧
            st2.empty_slots = st.empty_slots ∧
            st2.slots = setv st.slots (st.empty_slots s)
              (refresh st.field (st.slots (st.empty_slots s))) ∧
            (∀ m, st2.minimum_empty_slot = some m → st2.minimum_empty_slot_index < s + 1) := by
          simp only [update_loop, hs, if_true, hz, if_false]
          cases hmin : st.minimum_empty_slot with
          | none => exact ⟨_, rfl, rfl, rfl, rfl, rfl, fun m _ => Nat.lt_succ_self s⟩
          | some m0 =>
            simp only []
            split
            · exact ⟨_, rfl, rfl, rfl, rfl, rfl, fun m _ => Nat.lt_succ_self s⟩
            · exact ⟨_, rfl, rfl, rfl, rfl, rfl, fun m _ =>
                Nat.lt_succ_of_lt (hm m0 hmin)⟩
        obtain ⟨st2, hstep, e1, e2, e3, e4, e5⟩ := key
        rw [hstep]
        have IH := ih (s + 1) cz st2 (by omega) (by omega)
          (by
            intro k hk
            rw [e1, e3, e4]
            rcases Nat.lt_succ_iff_lt_or_eq.1 hk with hlt | rfl
            · exact hf1 k hlt
            · simp only [setv, if_true]
              exact fresh_refresh _ _)
          e5
        rw [e1] at IH
        exact IH
    · have hs2 : s = st.empty_slots_count := by omega
      simp only [update_loop, hs, if_false, true_and]
      subst hs2
      exact ⟨hf, hm⟩

/-- After `update_slots`, on any state, the board is the same and every slot
of the active pool carries the markers and the count computed from it. -/
theorem update_slots_fresh (st : sudoku) :
    (update_slots st).2.field = st.field ∧
    ∀ k < (update_slots st).2.empty_slots_count,
      Fresh st.field ((update_slots st).2.slots ((update_slots st).2.empty_slots k)) := by
  have hL := update_loop_fresh st.empty_slots_count 0 0
    { st with minimum_empty_slot := none, minimum_empty_slot_index := 0 }
    (by simp) (Nat.zero_le _) (fun k hk => absurd hk (Nat.not_lt_zero k))
    (fun m hm => by simp at hm)
  simp only [update_slots]
  change (update_scan st).2.field = st.field ∧
    (∀ k < (update_scan st).2.empty_slots_count,
      Fresh st.field ((update_scan st).2.slots ((update_scan st).2.empty_slots k))) ∧
    (∀ m, (update_scan st).2.minimum_empty_slot = some m →
      (update_scan st).2.minimum_empty_slot_index < (update_scan st).2.empty_slots_count) at hL
  generalize update_scan st = r at hL ⊢
  obtain ⟨cz, ⟨f, sl, es, mn, mi, c⟩⟩ := r
  obtain ⟨h1, h2, h3⟩ := hL
  simp only [] at h1 h2 h3
  cases mn with
  | none => exact ⟨h1, h2⟩
  | some m =>
    have hmi : mi < c := h3 m rfl
    refine ⟨h1, ?_⟩
    intro k hk
    simp only [move_minimum] at hk ⊢
    simp only [setv]
    split
    · exact h2 (c - 1) (by omega)
    · split
      · exact h2 mi hmi
      · exact h2 k hk

/-- C13: after `update_slots` on any state whose board has entries in 0..9,
the board is unchanged, and for every slot of the active pool that lies on
the board and every digit 1..9 the marker is set exactly when the digit is in
no cell of the row, column and block of the slot; when some digit is legal,
`valid_values_count` is the number of legal digits. -/
theorem update_slots_markers (st : sudoku) (_hr : InRange st.field) :
    (update_slots st).2.field = st.field ∧
    ∀ k < (update_slots st).2.empty_slots_count,
      ∀ t, t = (update_slots st).2.slots ((update_slots st).2.empty_slots k) →
      t.x < 9 → t.y < 9 →
      (∀ d ∈ digits, t.valid_values d = true ↔ d ∉ nearVals (update_slots st).2.field t.x t.y) ∧
      ((∃ d ∈ digits, d ∉ nearVals (update_slots st).2.field t.x t.y) →
        t.valid_values_count =
          ((digits.filter fun d => d ∉ nearVals (update_slots st).2.field t.x t.y).length : Int)) := by
  obtain ⟨hf, hfr⟩ := update_slots_fresh st
  refine ⟨hf, ?_⟩
  intro k hk t ht hx hy
  have hfresh : refresh st.field t = t := by
    rw [ht]
    exact hfr k hk
  rw [hf]
  have hvv : t.valid_values = markers st.field t.x t.y := by
    rw [← hfresh]
    rfl
  have hvc : t.valid_values_count =
      if allCleared (markers st.field t.x t.y) then -1 else countValid (markers st.field t.x t.y) := by
    conv_lhs => rw [← hfresh]
    rfl
  refine ⟨fun d _ => by rw [hvv]; exact markers_iff_not_near st.field t.x t.y d hx hy, ?_⟩
  rintro ⟨d, hd, hleg⟩
  have hnot : ¬ allCleared (markers st.field t.x t.y) = true := by
    intro hall
    rw [allCleared_iff] at hall
    have := (markers_iff_not_near st.field t.x t.y d hx hy).2 hleg
    rw [hall.2 d hd] at this
    exact Bool.false_ne_true this
  rw [hvc, if_neg hnot, countValid_eq_length]
  congr 2
  apply List.filter_congr
  intro e _
  by_cases he : e ∉ nearVals st.field t.x t.y
  · simp [he, (markers_iff_not_near st.field t.x t.y e hx hy).2 he]
  · have : markers st.field t.x t.y e = false := by
      rw [Bool.eq_false_iff]
      intro h
      exact he ((markers_iff_not_near st.field t.x t.y e hx hy).1 h)
    simp [he, this]

/-- C13 on the initialised model of `fourGaps`. -/
theorem update_slots_markers_witness :
    (update_slots (start fourGaps)).2.field = (start fourGaps).field ∧
    ∀ k < (update_slots (start fourGaps)).2.empty_slots_count,
      ∀ t, t = (update_slots (start fourGaps)).2.slots
          ((update_slots (start fourGaps)).2.empty_slots k) →
      t.x < 9 → t.y < 9 →
      (∀ d ∈ digits, t.valid_values d = true ↔
        d ∉ nearVals (update_slots (start fourGaps)).2.field t.x t.y) ∧
      ((∃ d ∈ digits, d ∉ nearVals (update_slots (start fourGaps)).2.field t.x t.y) →
        t.valid_values_count =
          ((digits.filter fun d =>
            d ∉ nearVals (update_slots (start fourGaps)).2.field t.x t.y).length : Int)) :=
  update_slots_markers (start fourGaps) (by decide)

/-! ## The selection of `update_slots` on a pool of empty cells -/

/-- The marker of the value of the slot's own cell is cleared (by the block
loop, wherever the slot lies). -/
theorem markers_self (g : Grid) (x y : Nat) : markers g x y (g x y) = false := by
  rw [Bool.eq_false_iff]
  intro h
  exact ((markers_eq_true g x y (g x y)).1 h).2.2 x y rfl rfl rfl

/-- On an empty cell the count is never 0. -/
theorem refresh_count_ne_zero_of_empty (g : Grid) (t : slot) (h0 : g t.x t.y = 0) :
    (refresh g t).valid_values_count ≠ 0 := by
  rw [refresh_count]
  split
  · omega
  · rename_i hn
    intro hz
    apply hn
    rw [allCleared_iff]
    refine ⟨?_, countValid_zero _ hz⟩
    have := markers_self g t.x t.y
    rwa [h0] at this

/-- The scan of `update_slots` when no slot of the pool comes out with count
0: every slot of the pool is recomputed, nothing else changes, and the
selection is the first position of the smallest count. -/
theorem update_loop_min (g : Grid) (es : Nat → Nat) (c : Nat) (sl0 : Nat → slot)
    (nz : ∀ k < c, (refresh g (sl0 (es k))).valid_values_count ≠ 0) (n : Nat) :
    ∀ (s cz : Nat) (st : sudoku), s + n = c →
    st.field = g → st.empty_slots = es → st.empty_slots_count = c →
    (∀ j, st.slots j = refresh g (sl0 j) ∨ st.slots j = sl0 j) →
    (∀ k < s, st.slots (es k) = refresh g (sl0 (es k))) →
    Selected g es sl0 s st.minimum_empty_slot st.minimum_empty_slot_index →
    (update_loop n s cz st).1 = cz ∧
    (update_loop n s cz st).2.field = g ∧
    (update_loop n s cz st).2.empty_slots = es ∧
    (update_loop n s cz st).2.empty_slots_count = c ∧
    (∀ j, (update_loop n s cz st).2.slots j = refresh g (sl0 j) ∨
      (update_loop n s cz st).2.slots j = sl0 j) ∧
    (∀ k < c, (update_loop n s cz st).2.slots (es k) = refresh g (sl0 (es k))) ∧
    Selected g es sl0 c (update_loop n s cz st).2.minimum_empty_slot
      (update_loop n s cz st).2.minimum_empty_slot_index := by
  induction n with
  | zero =>
    intro s cz st hn hf he hc hsl hpre hsel
    have hs : s = c := by omega
    subst hs
    exact ⟨rfl, hf, he, hc, hsl, hpre, hsel⟩
  | succ n ih =>
    intro s cz st hn hf he hc hsl hpre hsel
    have hs : s < st.empty_slots_count := by omega
    have hsc : s < c := by omega
    have href : ∀ j, refresh g (st.slots j) = refresh g (sl0 j) := by
      intro j
      rcases hsl j with h | h
      · rw [h]; rfl
      · rw [h]
    have htmp : refresh st.field (st.slots (st.empty_slots s)) = refresh g (sl0 (es s)) := by
      rw [hf, he, href]
    have hnz : (refresh st.field (st.slots (st.empty_slots s))).valid_values_count ≠ 0 := by
      rw [htmp]
      exact nz s hsc
    have hsl1 : ∀ j, setv st.slots (es s) (refresh g (sl0 (es s))) j = refresh g (sl0 j) ∨
        setv st.slots (es s) (refresh g (sl0 (es s))) j = sl0 j := by
      intro j
      simp only [setv]
      split
      · rename_i e
        rw [e]
        exact Or.inl rfl
      · exact hsl j
    have hpre1 : ∀ k < s + 1, setv st.slots (es s) (refresh g (sl0 (es s))) (es k)
        = refresh g (sl0 (es k)) := by
      intro k hk
      simp only [setv]
      split
      · rename_i e
        rw [e]
      · rename_i e
        have hk2 : k < s := by
          rcases Nat.lt_succ_iff_lt_or_eq.1 hk with h | h
          · exact h
          · exact absurd (by rw [h]) e
        exact hpre k hk2
    have key : ∃ st2 : sudoku,
        update_loop (n + 1) s cz st = update_loop n (s + 1) cz st2 ∧
        st2.field = g ∧ st2.empty_slots = es ∧ st2.empty_slots_count = c ∧
        st2.slots = setv st.slots (es s) (refresh g (sl0 (es s))) ∧
        Selected g es sl0 (s + 1) st2.minimum_empty_slot st2.minimum_empty_slot_index := by
      simp only [update_loop, hs, if_true, hnz, if_false]
      rw [htmp, he]
      cases hmin : st.minimum_empty_slot with
      | none =>
        simp only []
        refine ⟨_, rfl, hf, rfl, hc, rfl, ?_⟩
        show Selected g es sl0 (s + 1) (some (es s)) s
        rw [hmin] at hsel
        have hs0 : s = 0 := hsel
        subst hs0
        refine ⟨Nat.lt_succ_self 0, rfl, fun k hk => ?_, fun k hk => absurd hk (Nat.not_lt_zero k)⟩
        have : k = 0 := by omega
        subst this
        exact le_refl _
      | some m0 =>
        rw [hmin] at hsel
        obtain ⟨hi, hm0, hle, hlt⟩ := hsel
        have hold : (setv st.slots (es s) (refresh g (sl0 (es s))) m0)
            = refresh g (sl0 (es st.minimum_empty_slot_index)) := by
          rw [hm0]
          exact hpre1 _ (by omega)
        simp only []
        rw [hold]
        split
        · rename_i hgt
          refine ⟨_, rfl, hf, rfl, hc, rfl, ?_⟩
          show Selected g es sl0 (s + 1) (some (es s)) s
          refine ⟨Nat.lt_succ_self s, rfl, fun k hk => ?_, fun k hk => ?_⟩
          · rcases Nat.lt_succ_iff_lt_or_eq.1 hk with h | h
            · have := hle k h
              omega
            · rw [h]
          · have := hle k hk
            omega
        · rename_i hgt
          refine ⟨_, rfl, hf, rfl, hc, rfl, ?_⟩
          show Selected g es sl0 (s + 1) (some m0) st.minimum_empty_slot_index
          refine ⟨by omega, hm0, fun k hk => ?_, hlt⟩
          rcases Nat.lt_succ_iff_lt_or_eq.1 hk with h | h
          · exact hle k h
          · rw [h]
            omega
    obtain ⟨st2, hstep, e1, e2, e3, e4, e5⟩ := key
    rw [hstep]
    exact ih (s + 1) cz st2 (by omega) e1 e2 e3 (by rw [e4]; exact hsl1)
      (by rw [e4]; exact hpre1) e5

/-- The scan of `update_slots` on a pool of empty cells. -/
theorem update_scan_min (st : sudoku) (hz : ZeroAt st) :
    (update_scan st).1 = 0 ∧
    (update_scan st).2.field = st.field ∧
    (update_scan st).2.empty_slots = st.empty_slots ∧
    (update_scan st).2.empty_slots_count = st.empty_slots_count ∧
    (∀ j, (update_scan st).2.slots j = refresh st.field (st.slots j) ∨
      (update_scan st).2.slots j = st.slots j) ∧
    (∀ k < st.empty_slots_count, (update_scan st).2.slots (st.empty_slots k)
      = refresh st.field (st.slots (st.empty_slots k))) ∧
    Selected st.field st.empty_slots st.slots st.empty_slots_count
      (update_scan st).2.minimum_empty_slot (update_scan st).2.minimum_empty_slot_index :=
  update_loop_min st.field st.empty_slots st.empty_slots_count st.slots
    (fun k hk => refresh_count_ne_zero_of_empty _ _ (hz k hk)) st.empty_slots_count 0 0
    { st with minimum_empty_slot := none, minimum_empty_slot_index := 0 }
    (Nat.zero_add _) rfl rfl rfl (fun _ => Or.inr rfl)
    (fun k hk => absurd hk (Nat.not_lt_zero k)) rfl

/-- What `update_slots` does on a pool of empty cells, with or without
repeated slots: it returns 0, keeps board and count, recomputes the slots of
the pool, and moves to the tail the first position of the smallest count. -/
theorem update_slots_min (st : sudoku) (hz : ZeroAt st) :
    (update_slots st).1 = 0 ∧
    (update_slots st).2.field = st.field ∧
    (update_slots st).2.empty_slots_count = st.empty_slots_count ∧
    (∀ j, (update_slots st).2.slots j = refresh st.field (st.slots j) ∨
      (update_slots st).2.slots j = st.slots j) ∧
    (∀ k < st.empty_slots_count, (update_slots st).2.slots (st.empty_slots k)
      = refresh st.field (st.slots (st.empty_slots k))) ∧
    (st.empty_slots_count = 0 → (update_slots st).2.minimum_empty_slot = none ∧
      (update_slots st).2.empty_slots = st.empty_slots) ∧
    (0 < st.empty_slots_count → ∃ idx < st.empty_slots_count,
      (update_slots st).2.minimum_empty_slot = some (st.empty_slots idx) ∧
      (update_slots st).2.empty_slots =
        setv (setv st.empty_slots (st.empty_slots_count - 1) (st.empty_slots idx)) idx
          (st.empty_slots (st.empty_slots_count - 1)) ∧
      (∀ k < st.empty_slots_count,
        (refresh st.field (st.slots (st.empty_slots idx))).valid_values_count
          ≤ (refresh st.field (st.slots (st.empty_slots k))).valid_values_count) ∧
      (∀ k < idx,
        (refresh st.field (st.slots (st.empty_slots idx))).valid_values_count
          < (refresh st.field (st.slots (st.empty_slots k))).valid_values_count)) := by
  obtain ⟨h1, h2, h3, h4, h5, h6, h7⟩ := update_scan_min st hz
  simp only [update_slots]
  generalize update_scan st = r at *
  obtain ⟨cz, ⟨f, sl, es, mn, mi, c⟩⟩ := r
  simp only [] at h1 h2 h3 h4 h5 h6 h7
  subst h1 h2 h3 h4
  cases mn with
  | none =>
    have hc0 : st.empty_slots_count = 0 := h7
    exact ⟨rfl, rfl, rfl, h5, h6, fun _ => ⟨rfl, rfl⟩, fun h => absurd h (by omega)⟩
  | some m =>
    obtain ⟨hi, hm, hle, hlt⟩ := h7
    refine ⟨rfl, rfl, rfl, h5, h6, fun h => absurd h (by omega), fun _ => ⟨mi, hi, ?_, rfl, hle, hlt⟩⟩
    simp only [move_minimum, hm]

/-- The position that holds, after `update_slots`, the slot that was at
position `k` before. -/
theorem swap_tail_mem (es : Nat → Nat) (c idx k : Nat) (hi : idx < c) (hk : k < c) :
    ∃ l < c, setv (setv es (c - 1) (es idx)) idx (es (c - 1)) k = es l := by
  simp only [setv]
  split
  · exact ⟨c - 1, by omega, rfl⟩
  · split
    · exact ⟨idx, hi, rfl⟩
    · exact ⟨k, hk, rfl⟩

/-- C14: on a state whose board has entries in 0..9 and in which the cell of
every active slot is empty, when the pool is not empty `update_slots` selects
a slot of the pool whose `valid_values_count` is at most that of every active
slot, and its index is at the tail position `empty_slots[empty_slots_count-1]`;
when the pool is empty no slot is selected. -/
theorem update_slots_selects_minimum (st : sudoku) (_hr : InRange st.field) (hz : ZeroAt st) :
    (0 < st.empty_slots_count → ∃ m, (update_slots st).2.minimum_empty_slot = some m ∧
      m = (update_slots st).2.empty_slots ((update_slots st).2.empty_slots_count - 1) ∧
      (∃ k < st.empty_slots_count, st.empty_slots k = m) ∧
      ∀ k < (update_slots st).2.empty_slots_count,
        ((update_slots st).2.slots m).valid_values_count
          ≤ ((update_slots st).2.slots ((update_slots st).2.empty_slots k)).valid_values_count) ∧
    (st.empty_slots_count = 0 → (update_slots st).2.minimum_empty_slot = none) := by
  obtain ⟨-, -, h3, -, h5, h6, h7⟩ := update_slots_min st hz
  refine ⟨fun hpos => ?_, fun h0 => (h6 h0).1⟩
  obtain ⟨idx, hi, hm, hes, hle, -⟩ := h7 hpos
  refine ⟨_, hm, ?_, ⟨idx, hi, rfl⟩, ?_⟩
  · rw [h3, hes]
    simp only [setv]
    split
    · rename_i e
      rw [← e]
    · rfl
  · intro k hk
    rw [h3] at hk
    obtain ⟨l, hl, e⟩ := swap_tail_mem st.empty_slots st.empty_slots_count idx k hi hk
    rw [hes, e, h5 idx hi, h5 l hl]
    exact hle l hl

/-- C14 on the initialised model of `fourGaps`. -/
theorem update_slots_selects_minimum_witness :
    (update_slots (start fourGaps)).2.minimum_empty_slot = some 0 ∧
    ∃ m, (update_slots (start fourGaps)).2.minimum_empty_slot = some m ∧
      m = (update_slots (start fourGaps)).2.empty_slots
        ((update_slots (start fourGaps)).2.empty_slots_count - 1) ∧
      (∃ k < (start fourGaps).empty_slots_count, (start fourGaps).empty_slots k = m) ∧
      ∀ k < (update_slots (start fourGaps)).2.empty_slots_count,
        ((update_slots (start fourGaps)).2.slots m).valid_values_count
          ≤ ((update_slots (start fourGaps)).2.slots
              ((update_slots (start fourGaps)).2.empty_slots k)).valid_values_count :=
  ⟨by decide,
    (update_slots_selects_minimum (start fourGaps) (by decide) (start_zeroAt fourGaps)).1
      (by decide)⟩

/-! ## The dead-end sentinel -/

theorem allCleared9_iff (vv : Nat → Bool) :
    allCleared9 vv = true ↔ ∀ d ∈ digits, vv d = false := by
  simp [allCleared9, digits, List.range', and_assoc]

/-- C16: for a slot on a board with entries in 0..9 whose own cell is empty,
the dead-end test on all ten markers gives the result of the test on the
markers 1..9, so the recomputation with either test is the same, and
`valid_values_count` becomes -1 exactly when every digit 1..9 is in the row,
column or block of the slot. -/
theorem dead_end_test_same (g : Grid) (t : slot) (_hr : InRange g) (hx : t.x < 9)
    (hy : t.y < 9) (h0 : g t.x t.y = 0) :
    allCleared (markers g t.x t.y) = allCleared9 (markers g t.x t.y) ∧
    refresh g t = refresh9 g t ∧
    ((refresh g t).valid_values_count = -1 ↔ ∀ d ∈ digits, d ∈ nearVals g t.x t.y) := by
  have hv0 : markers g t.x t.y 0 = false := by
    have := markers_self g t.x t.y
    rwa [h0] at this
  have h1 : allCleared (markers g t.x t.y) = allCleared9 (markers g t.x t.y) := by
    rw [Bool.eq_iff_iff, allCleared_iff, allCleared9_iff]
    exact ⟨fun h => h.2, fun h => ⟨hv0, h⟩⟩
  refine ⟨h1, ?_, ?_⟩
  · simp only [refresh, refresh9, h1]
  · rw [refresh_count_eq_neg_one, h1, allCleared9_iff]
    constructor
    · intro h d hd
      by_contra hn
      have := (markers_iff_not_near g t.x t.y d hx hy).2 hn
      rw [h d hd] at this
      exact Bool.false_ne_true this
    · intro h d hd
      rw [Bool.eq_false_iff]
      intro hm
      exact (markers_iff_not_near g t.x t.y d hx hy).1 hm (h d hd)

/-- C16 on the second empty cell of `clash` once the first holds 8: no digit
is legal and the count is -1. -/
theorem dead_end_test_same_witness :
    (refresh (setCell clash 0 0 8) { slot.fresh with x := 0, y := 1 }).valid_values_count = -1 ∧
    (refresh (setCell clash 0 0 8) { slot.fresh with x := 0, y := 1 }
      = refresh9 (setCell clash 0 0 8) { slot.fresh with x := 0, y := 1 }) :=
  ⟨by decide,
    (dead_end_test_same (setCell clash 0 0 8) { slot.fresh with x := 0, y := 1 }
      (by decide) (by decide) (by decide) (by decide)).2.1⟩

/-! ## `verify` checks rows and columns -/

theorem rowCells_map (g : Grid) (i : Nat) :
    ((rowCells i).map fun c => g c.1 c.2) = (List.range 9).map fun j => g i j := by
  simp [rowCells, List.map_map, Function.comp_def]

theorem colCells_map (g : Grid) (j : Nat) :
    ((colCells j).map fun c => g c.1 c.2) = (List.range 9).map fun i => g i j := by
  simp [colCells, List.map_map, Function.comp_def]

/-- Nine values among which every digit 1..9 occurs hold each digit once. -/
theorem count_eq_one_of_all_mem (vals : List Nat) (hlen : vals.length = 9)
    (h : ∀ d ∈ digits, d ∈ vals) : ∀ d ∈ digits, vals.count d = 1 := by
  have perm := (List.subperm_of_subset nodup_digits h).perm_of_length_le
    (by simp [digits, hlen])
  have nd : vals.Nodup := perm.nodup_iff.1 nodup_digits
  intro d hd
  exact List.count_eq_one_of_mem nd (h d hd)

/-- Nine values that hold each digit 1..9 once do not hold 0. -/
theorem zero_not_mem_of_count (vals : List Nat) (hlen : vals.length = 9)
    (h : ∀ d ∈ digits, vals.count d = 1) : 0 ∉ vals ∧ ∀ d ∈ digits, d ∈ vals := by
  have hm : ∀ d ∈ digits, d ∈ vals := by
    intro d hd
    rw [← List.count_pos_iff]
    have := h d hd
    omega
  have perm := (List.subperm_of_subset nodup_digits hm).perm_of_length_le
    (by simp [digits, hlen])
  refine ⟨fun h0 => ?_, hm⟩
  have := perm.mem_iff.2 h0
  rw [mem_digits] at this
  omega

/-- C19: on a board with entries in 0..9, `verify` returns true exactly when
every row and every column contains each digit 1..9 once; each round of its
third pass marks the values of a whole band of three rows before it tests. -/
theorem verify_rows_columns (st : sudoku) (_hr : InRange st.field) :
    (verify st = true ↔ RowsComplete st.field ∧ ColsComplete st.field) ∧
    (∀ i ∈ [0, 3, 6], ∀ d, d ∈ bandVals st.field i ↔
      ∃ m n, i ≤ m ∧ m < i + 3 ∧ n < 9 ∧ st.field m n = d) := by
  refine ⟨?_, fun i _ d => mem_bandVals st.field i d⟩
  simp only [verify, Bool.and_eq_true, List.all_eq_true, List.mem_range, occuredOk_iff]
  constructor
  · rintro ⟨⟨hrow, hcol⟩, -⟩
    constructor
    · intro i hi d hd
      unfold occurrences
      rw [rowCells_map]
      exact count_eq_one_of_all_mem _ (by simp) (hrow i hi).2 d hd
    · intro j hj d hd
      unfold occurrences
      rw [colCells_map]
      exact count_eq_one_of_all_mem _ (by simp) (hcol j hj).2 d hd
  · rintro ⟨hrow, hcol⟩
    have hr : ∀ i < 9, 0 ∉ ((List.range 9).map fun j => st.field i j) ∧
        ∀ d ∈ digits, d ∈ ((List.range 9).map fun j => st.field i j) := by
      intro i hi
      apply zero_not_mem_of_count _ (by simp)
      intro d hd
      have := hrow i hi d hd
      unfold occurrences at this
      rwa [rowCells_map] at this
    have hc : ∀ j < 9, 0 ∉ ((List.range 9).map fun i => st.field i j) ∧
        ∀ d ∈ digits, d ∈ ((List.range 9).map fun i => st.field i j) := by
      intro j hj
      apply zero_not_mem_of_count _ (by simp)
      intro d hd
      have := hcol j hj d hd
      unfold occurrences at this
      rwa [colCells_map] at this
    refine ⟨⟨hr, hc⟩, fun i hi => ⟨?_, fun d hd => ?_⟩⟩
    · simp only [List.mem_cons, List.mem_singleton, List.not_mem_nil, or_false] at hi
      rw [mem_bandVals]
      rintro ⟨m, n, h1, h2, h3, e⟩
      apply (hr m (by omega)).1
      exact List.mem_map.2 ⟨n, List.mem_range.2 h3, e⟩
    · simp only [List.mem_cons, List.mem_singleton, List.not_mem_nil, or_false] at hi
      rw [mem_bandVals]
      obtain ⟨n, hn, e⟩ := List.mem_map.1 ((hr i (by omega)).2 d hd)
      exact ⟨i, n, le_refl i, by omega, List.mem_range.1 hn, e⟩

/-- C19 on the Latin square `latin`: rows and columns are complete, `verify`
accepts, and the blocks are not complete. -/
theorem verify_rows_columns_witness :
    (verify (sudoku.ofGrid latin 0) = true ↔ RowsComplete latin ∧ ColsComplete latin) ∧
    verify (sudoku.ofGrid latin 0) = true ∧ ¬ BlocksComplete latin :=
  ⟨(verify_rows_columns (sudoku.ofGrid latin 0) (by decide)).1, by decide, by decide⟩

/-! ## The states in which `solve` is entered -/

/-- A rearrangement of the pool of a well-formed state is well-formed. -/
theorem wellFormed_same (N : Nat) (a b : sudoku) (hw : WellFormed N a) (hsp : SamePool a b)
    (hok : PoolOK b) : WellFormed N b := by
  obtain ⟨hc, hlt, hinj⟩ := hw
  obtain ⟨c, -, ge, p, -, -⟩ := hsp
  have hval : ∀ k < N, ∃ l < N, b.empty_slots k = a.empty_slots l ∧
      (k < a.empty_slots_count → l < a.empty_slots_count) ∧
      (a.empty_slots_count ≤ k → l = k) := by
    intro k hk
    by_cases hka : k < a.empty_slots_count
    · obtain ⟨l, hl, e⟩ := p k hka
      exact ⟨l, by omega, e, fun _ => hl, fun h => by omega⟩
    · exact ⟨k, hk, ge k (by omega), fun h => absurd h hka, fun _ => rfl⟩
  refine ⟨by rw [c]; exact hc, ?_, ?_⟩
  · intro k hk
    obtain ⟨l, hl, e, -⟩ := hval k hk
    rw [e]
    exact hlt l hl
  · intro k hk l hl e
    by_cases hka : k < a.empty_slots_count
    · by_cases hla : l < a.empty_slots_count
      · exact hok.inj k (by rw [c]; exact hka) l (by rw [c]; exact hla) e
      · obtain ⟨k2, hk2, ek, ek1, -⟩ := hval k hk
        obtain ⟨l2, hl2, el, -, el2⟩ := hval l hl
        have := hinj k2 hk2 l2 hl2 (by rw [← ek, ← el, e])
        have := ek1 hka
        have := el2 (by omega)
        omega
    · by_cases hla : l < a.empty_slots_count
      · obtain ⟨k2, hk2, ek, -, ek2⟩ := hval k hk
        obtain ⟨l2, hl2, el, el1, -⟩ := hval l hl
        have := hinj k2 hk2 l2 hl2 (by rw [← ek, ← el, e])
        have := el1 hla
        have := ek2 (by omega)
        omega
      · rw [ge k (by omega), ge l (by omega)] at e
        exact hinj k hk l hl e

/-- The states on which the body of `solve` calls `solve` are entry states
when the caller's state is. -/
theorem entry_call (N : Nat) (st s : sudoku) (he : Entry N st) (h1 : PoolOK s) (h2 : ZeroAt s)
    (hc : s.empty_slots_count + 1 = st.empty_slots_count)
    (hsp : SamePool st { s with empty_slots_count := s.empty_slots_count + 1 })
    (hok : PoolOK { s with empty_slots_count := s.empty_slots_count + 1 })
    (hf : ∃ i mx my, 1 ≤ i ∧ i ≤ 9 ∧ mx < 9 ∧ my < 9 ∧
      ∀ x y, s.field x y = setCell st.field mx my i x y) : Entry N s := by
  obtain ⟨hr, -, -, hw⟩ := he
  obtain ⟨i, mx, my, -, hi9, -, -, hfield⟩ := hf
  refine ⟨?_, h1, h2, ?_⟩
  · intro a ha b hb
    rw [hfield]
    simp only [setCell]
    split
    · exact hi9
    · exact hr a ha b hb
  · obtain ⟨w1, w2, w3⟩ := wellFormed_same N st _ hw hsp hok
    simp only [] at w1 w2 w3
    exact ⟨by omega, w2, w3⟩

theorem solve_where_sub (P : sudoku → Prop) [DecidablePred P] (n : Nat) :
    ∀ st r, solve_where P n st = some r → solve n st = some r := by
  induction n with
  | zero => intro st r h; simp [solve_where] at h
  | succ n ih =>
    intro st r h
    simp only [solve_where] at h
    simp only [solve]
    split at h
    · exact solve_body_mono _ _ ih st r h
    · simp at h

/-- When `P` holds of every entry state, the run of `solve` that is abandoned
where `P` fails is not abandoned, and meets the contract of `solve`. -/
theorem solve_where_spec (N : Nat) (P : sudoku → Prop) [DecidablePred P]
    (hP : ∀ st, Entry N st → P st) (n : Nat) :
    ∀ st, Entry N st → st.empty_slots_count < n →
      ∃ b st2, solve_where P n st = some (b, st2) ∧ Post st b st2 := by
  induction n with
  | zero => intro st _ h; omega
  | succ n ih =>
    intro st he hlt
    simp only [solve_where, hP st he, if_true]
    apply solve_body_rel _ st he.2.1 he.2.2.1
    intro s h1 h2 h3 h4 h5 h6
    exact ih s (entry_call N st s he h1 h2 h3 h4 h5 h6) (by omega)

/-- The initialised model of a board with entries in 0..9 is an entry
state. -/
theorem start_entry (g : Grid) (hr : InRange g) : Entry (zeros g) (start g) :=
  ⟨hr, start_poolOK g, start_zeroAt g, Nat.le_refl _, fun _ hk => hk, fun _ _ _ _ e => e⟩

/-- On the initialised model, a property of all entry states holds at every
entry of `solve` during the run: the run abandoned where it fails returns
what the run returns. -/
theorem run_where (g : Grid) (hr : InRange g) (P : sudoku → Prop) [DecidablePred P]
    (hP : ∀ st, Entry (zeros g) st → P st) :
    ∃ r, run g = some r ∧ solve_where P (zeros g + 1) (start g) = some r := by
  obtain ⟨b, st2, h, -⟩ := solve_where_spec (zeros g) P hP (zeros g + 1) (start g)
    (start_entry g hr) (by rw [start_count]; omega)
  exact ⟨(b, st2), solve_where_sub P _ _ _ h, h⟩

/-! ## Tie-break, pool and sentinel at every entry of `solve` -/

/-- On a pool of empty cells the selection of `update_slots` is the first
position of the smallest count. -/
theorem tieScanFirst_of_zeroAt (st : sudoku) (hz : ZeroAt st) : TieScanFirst st := by
  obtain ⟨-, -, -, -, h5, h6, h7⟩ := update_slots_min st hz
  refine ⟨fun h0 => (h6 h0).1, fun hpos => ?_⟩
  obtain ⟨idx, hi, hm, -, hle, hlt⟩ := h7 hpos
  refine ⟨idx, hi, hm, fun k hk => ?_, fun k hk => ?_⟩
  · rw [h5 idx hi, h5 k hk]
    exact hle k hk
  · rw [h5 idx hi, h5 k (by omega)]
    exact hlt k hk

theorem rowMajor_asymm {a b : Nat × Nat} (h : rowMajor a b) : ¬ rowMajor b a := by
  unfold rowMajor at *
  omega

/-- C15, as stated, fails: in the run on `fourGaps` the first call selects
the cell (0,0) and moves the last slot, the cell (8,8), to its position; in
the second call the three slots left all have count 1 and the selected one
is (8,8), not (0,1). -/
theorem fourGaps_tie_not_row_major :
    ¬ ∀ g : Grid, InRange g →
      ∃ r, run g = some r ∧ solve_where TieRowMajor (zeros g + 1) (start g) = some r := by
  intro hall
  obtain ⟨r, -, hw⟩ := hall fourGaps (by decide)
  have h : (solve_where TieRowMajor (zeros fourGaps + 1) (start fourGaps)).isSome = false := by
    decide
  rw [hw] at h
  exact absurd h (by simp)

/-- C15, amended: at every entry of `solve` in the run on the initialised
model of a board with entries in 0..9, `update_slots` selects, among the
active slots of the smallest `valid_values_count`, the one at the first
position of `empty_slots` as it is at entry; in the first call this is the
first of them in row-major order. -/
theorem selection_first_in_scan (g : Grid) (hr : InRange g) :
    (∃ r, run g = some r ∧ solve_where TieScanFirst (zeros g + 1) (start g) = some r) ∧
    (∀ m, (update_slots (start g)).2.minimum_empty_slot = some m → ∀ k < zeros g,
      ((update_slots (start g)).2.slots k).valid_values_count
        = ((update_slots (start g)).2.slots m).valid_values_count →
      ¬ rowMajor (((update_slots (start g)).2.slots k).x, ((update_slots (start g)).2.slots k).y)
        (((update_slots (start g)).2.slots m).x, ((update_slots (start g)).2.slots m).y)) := by
  refine ⟨run_where g hr TieScanFirst (fun st he => tieScanFirst_of_zeroAt st he.2.2.1), ?_⟩
  intro m hm k hk hvc
  obtain ⟨-, h2⟩ := tieScanFirst_of_zeroAt (start g) (start_zeroAt g)
  obtain ⟨-, -, -, h4, -⟩ := update_slots_min (start g) (start_zeroAt g)
  have hxy : ∀ j, ((update_slots (start g)).2.slots j).x = ((start g).slots j).x ∧
      ((update_slots (start g)).2.slots j).y = ((start g).slots j).y := by
    intro j
    rcases h4 j with e | e
    · rw [e]; exact ⟨rfl, rfl⟩
    · rw [e]; exact ⟨rfl, rfl⟩
  have hpos : 0 < (start g).empty_slots_count := by rw [start_count]; omega
  obtain ⟨idx, hi, hsel, -, hlt⟩ := h2 hpos
  rw [hm] at hsel
  have hmi : m = idx := Option.some.inj hsel
  subst hmi
  simp only [start_empty_slots] at hlt
  rw [start_count] at hi
  have hge : m ≤ k := by
    by_contra hn
    have := hlt k (by omega)
    omega
  rw [(hxy k).1, (hxy k).2, (hxy m).1, (hxy m).2]
  obtain ⟨c, hc, cx, cy, -⟩ := start_cell g k hk
  obtain ⟨d, hd, dx, dy, -⟩ := start_cell g m hi
  rw [cx, cy, dx, dy]
  rcases Nat.eq_or_lt_of_le hge with e | e
  · subst e
    rw [hc] at hd
    obtain rfl := Option.some.inj hd
    unfold rowMajor
    omega
  · obtain ⟨h1, e1⟩ := List.getElem?_eq_some.1 hc
    obtain ⟨h2, e2⟩ := List.getElem?_eq_some.1 hd
    have := List.pairwise_iff_getElem.1 (pairwise_zeroCells g) m k h2 h1 e
    have e3 : (zeroCells g)[k] = c := e1
    have e4 : (zeroCells g)[m] = d := e2
    rw [e3, e4] at this
    exact rowMajor_asymm this

/-- C15, amended, on `fourGaps`. -/
theorem selection_first_in_scan_witness :
    ∃ r, run fourGaps = some r ∧
      solve_where TieScanFirst (zeros fourGaps + 1) (start fourGaps) = some r :=
  (selection_first_in_scan fourGaps (by decide)).1

/-- C17: every state in which `solve` is entered in the run on the
initialised model of a board with entries in 0..9 is an entry state of that
model; and on every entry state `solve` returns, true or false, with
`empty_slots` still a permutation of 0..N-1, the same `empty_slots_count`,
the same set of slot indices in the active part, and the coordinates of
every slot unchanged. -/
theorem solve_keeps_pool (g : Grid) (hr : InRange g) :
    (∃ r, run g = some r ∧
      solve_where (Entry (zeros g)) (zeros g + 1) (start g) = some r) ∧
    ∀ (st : sudoku) (n : Nat), Entry (zeros g) st → st.empty_slots_count < n →
      ∃ b st2, solve n st = some (b, st2) ∧
        WellFormed (zeros g) st2 ∧
        st2.empty_slots_count = st.empty_slots_count ∧
        (∀ j, (∃ k < st.empty_slots_count, st2.empty_slots k = j) ↔
          (∃ k < st.empty_slots_count, st.empty_slots k = j)) ∧
        (∀ j, (st2.slots j).x = (st.slots j).x ∧ (st2.slots j).y = (st.slots j).y) := by
  refine ⟨run_where g hr (Entry (zeros g)) (fun _ h => h), ?_⟩
  intro st n he hlt
  obtain ⟨b, st2, hrun, hsp, hok, -⟩ := solve_spec n st he.2.1 he.2.2.1 hlt
  refine ⟨b, st2, hrun, wellFormed_same _ st st2 he.2.2.2 hsp hok, hsp.1, ?_, hsp.2.1⟩
  intro j
  constructor
  · rintro ⟨k, hk, e⟩
    obtain ⟨l, hl, e2⟩ := hsp.2.2.2.1 k hk
    exact ⟨l, hl, by rw [← e2, e]⟩
  · rintro ⟨k, hk, e⟩
    obtain ⟨l, hl, e2⟩ := hsp.2.2.2.2.1 k hk
    exact ⟨l, hl, by rw [← e2, e]⟩

/-- C17 on `fourGaps`: the top-level call returns with the pool kept. -/
theorem solve_keeps_pool_witness :
    ∃ b st2, solve 5 (start fourGaps) = some (b, st2) ∧
      WellFormed (zeros fourGaps) st2 ∧
      st2.empty_slots_count = (start fourGaps).empty_slots_count ∧
      (∀ j, (∃ k < (start fourGaps).empty_slots_count, st2.empty_slots k = j) ↔
        (∃ k < (start fourGaps).empty_slots_count, (start fourGaps).empty_slots k = j)) ∧
      (∀ j, (st2.slots j).x = ((start fourGaps).slots j).x ∧
        (st2.slots j).y = ((start fourGaps).slots j).y) :=
  (solve_keeps_pool fourGaps (by decide)).2 (start fourGaps) 5 (by decide) (by decide)

/-- On a pool of empty cells `update_slots` sets nothing aside. -/
theorem noneAside_of_zeroAt (st : sudoku) (hz : ZeroAt st) : NoneAside st := by
  obtain ⟨h1, h2, h3, -, h5, h6, h7⟩ := update_slots_min st hz
  refine ⟨h1, h3, ?_⟩
  intro k hk
  rw [h3] at hk
  have hpos : 0 < st.empty_slots_count := by omega
  obtain ⟨idx, hi, -, hes, -⟩ := h7 hpos
  obtain ⟨l, hl, e⟩ := swap_tail_mem st.empty_slots st.empty_slots_count idx k hi hk
  have hslot : (update_slots st).2.slots ((update_slots st).2.empty_slots k)
      = refresh st.field (st.slots (st.empty_slots l)) := by
    rw [hes, e, h5 l hl]
  simp only [countAt, cellAt, hslot, h2]
  refine ⟨refresh_count_ne_zero_of_empty _ _ (hz l hl), ?_⟩
  intro hx hy hall
  simp only [refresh_x, refresh_y] at hx hy hall
  rw [refresh_count_eq_neg_one, allCleared_iff]
  refine ⟨?_, fun d hd => ?_⟩
  · have := markers_self st.field (st.slots (st.empty_slots l)).x (st.slots (st.empty_slots l)).y
    rwa [hz l hl] at this
  · rw [Bool.eq_false_iff]
    intro hm
    exact (markers_iff_not_near _ _ _ d hx hy).1 hm (hall d hd)

/-- C18: at every entry of `solve` in the run on the initialised model of a
board with entries in 0..9, and on every state with such a board in which
the cell of every active slot is empty, `update_slots` returns 0 and leaves
`empty_slots_count` unchanged, no active slot ends with
`valid_values_count` 0, and an active slot with no legal digit has
`valid_values_count` -1. -/
theorem update_slots_sets_none_aside (g : Grid) (hr : InRange g) :
    (∃ r, run g = some r ∧ solve_where NoneAside (zeros g + 1) (start g) = some r) ∧
    ∀ st, InRange st.field → ZeroAt st → NoneAside st :=
  ⟨run_where g hr NoneAside (fun st he => noneAside_of_zeroAt st he.2.2.1),
    fun st _ hz => noneAside_of_zeroAt st hz⟩

/-- C18 on `clash`: the run returns, and no entry of `solve` sets a slot
aside, although the second slot has no legal digit once the first holds 8. -/
theorem update_slots_sets_none_aside_witness :
    ∃ r, run clash = some r ∧ solve_where NoneAside (zeros clash + 1) (start clash) = some r :=
  (update_slots_sets_none_aside clash (by decide)).1

/-! ## The checked solver computes what the solver computes -/

theorem update_loop_safe_sub (N n : Nat) : ∀ (s cz : Nat) (st : sudoku) (r : Nat × sudoku),
    update_loop_safe N n s cz st = some r → update_loop n s cz st = r := by
  induction n with
  | zero =>
    intro s cz st r h
    simp only [update_loop_safe, Option.some.injEq] at h
    exact h
  | succ n ih =>
    intro s cz st r h
    obtain ⟨f, sl, es, mn, mi, c⟩ := st
    simp only [update_loop_safe] at h
    simp only [update_loop]
    by_cases hs : s < c
    · rw [if_pos hs] at h
      rw [if_pos hs]
      split at h
      · split at h
        · rename_i hz
          rw [if_pos hz]
          split at h
          · exact ih _ _ _ _ h
          · exact absurd h (by simp)
        · rename_i hz
          rw [if_neg hz]
          cases mn with
          | none => exact ih _ _ _ _ h
          | some m =>
            simp only [] at h ⊢
            split at h
            · split at h
              · rename_i hgt
                rw [if_pos hgt]
                exact ih _ _ _ _ h
              · rename_i hgt
                rw [if_neg hgt]
                exact ih _ _ _ _ h
            · exact absurd h (by simp)
      · exact absurd h (by simp)
    · rw [if_neg hs] at h
      rw [if_neg hs]
      exact Option.some.inj h

theorem move_minimum_safe_sub (N : Nat) (st r : sudoku) (h : move_minimum_safe N st = some r) :
    move_minimum st = r := by
  obtain ⟨f, sl, es, mn, mi, c⟩ := st
  cases mn with
  | none =>
    simp only [move_minimum_safe, Option.some.injEq] at h
    simp only [move_minimum]
    exact h
  | some m =>
    simp only [move_minimum_safe] at h
    split at h
    · exact Option.some.inj h
    · exact absurd h (by simp)

theorem update_slots_safe_sub (N : Nat) (st : sudoku) (r : Nat × sudoku)
    (h : update_slots_safe N st = some r) : update_slots st = r := by
  simp only [update_slots_safe] at h
  split at h
  · exact absurd h (by simp)
  · rename_i q hq
    split at h
    · exact absurd h (by simp)
    · rename_i st1 hmv
      have h1 := update_loop_safe_sub N _ _ _ _ _ hq
      have h2 := move_minimum_safe_sub N _ _ hmv
      simp only [update_slots, update_scan, h1, h2]
      exact Option.some.inj h

theorem solve_values_safe_sub (N : Nat) (c1 c2 : sudoku → Option (Bool × sudoku))
    (hc : ∀ s r, c1 s = some r → c2 s = some r) (m cz : Nat) (l : List Nat) :
    ∀ st r, solve_values_safe N c1 m cz l st = some r → solve_values c2 m cz l st = some r := by
  induction l with
  | nil => intro st r h; exact h
  | cons i rest ih =>
    intro st r h
    simp only [solve_values_safe] at h
    simp only [solve_values]
    split at h
    · split at h
      · rename_i hv
        rw [if_pos hv]
        split at h
        · cases h1 : c1 { st with field := setCell st.field (st.slots m).x (st.slots m).y i } with
          | none => rw [h1] at h; simp at h
          | some p =>
            rw [h1] at h
            rw [hc _ _ h1]
            obtain ⟨b, s2⟩ := p
            cases b with
            | true => exact h
            | false => exact ih _ _ h
        · exact absurd h (by simp)
      · rename_i hv
        rw [if_neg hv]
        exact ih _ _ h
    · exact absurd h (by simp)

theorem solve_body_safe_sub (N : Nat) (c1 c2 : sudoku → Option (Bool × sudoku))
    (hc : ∀ s r, c1 s = some r → c2 s = some r) (st : sudoku) (r : Bool × sudoku)
    (h : solve_body_safe N c1 st = some r) : solve_body c2 st = some r := by
  simp only [solve_body_safe] at h
  split at h
  · exact absurd h (by simp)
  · rename_i u hu
    have hup := update_slots_safe_sub N st u hu
    simp only [solve_body]
    rw [hup]
    obtain ⟨cz, ⟨f, sl, es, mn, mi, c⟩⟩ := u
    cases mn with
    | none => exact h
    | some m =>
      simp only [] at h ⊢
      split at h
      · split at h
        · rename_i hv
          rw [if_pos hv]
          cases h1 : solve_values_safe N c1 m cz (List.range' 1 9)
              { field := f, slots := sl, empty_slots := es, minimum_empty_slot := some m,
                minimum_empty_slot_index := mi, empty_slots_count := c - 1 } with
          | none => rw [h1] at h; simp at h
          | some p =>
            rw [h1] at h
            rw [solve_values_safe_sub N c1 c2 hc _ _ _ _ _ h1]
            obtain ⟨b, s3⟩ := p
            cases b with
            | true => exact h
            | false =>
              simp only [solve_cleanup_safe] at h
              split at h
              · exact h
              · exact absurd h (by simp)
        · rename_i hv
          rw [if_neg hv]
          simp only [solve_cleanup_safe] at h
          split at h
          · exact h
          · exact absurd h (by simp)
      · exact absurd h (by simp)

/-- Whatever the checked `solve` returns, `solve` returns. -/
theorem solve_safe_sub (N n : Nat) :
    ∀ st r, solve_safe N n st = some r → solve n st = some r := by
  induction n with
  | zero => intro st r h; simp [solve_safe] at h
  | succ n ih =>
    intro st r h
    simp only [solve_safe] at h
    simp only [solve]
    exact solve_body_safe_sub N _ _ ih st r h

/-! ## The checked solver is never abandoned -/

theorem marksInBounds_of_inRange (g : Grid) (hr : InRange g) (t : slot) (hx : t.x < 9)
    (hy : t.y < 9) : marksInBounds g t := by
  refine ⟨hx, hy, fun v hv => ?_⟩
  rcases List.mem_append.1 hv with h | h
  · rcases List.mem_append.1 h with h | h
    · obtain ⟨i, hi, e⟩ := (mem_rowVals g t.y v).1 h
      have := hr i hi t.y hy
      omega
    · obtain ⟨i, hi, e⟩ := (mem_colVals g t.x v).1 h
      have := hr t.x hx i hi
      omega
  · obtain ⟨i, j, hi, hj, e⟩ := (mem_blockVals g t.x t.y v).1 h
    have := hr i (by omega) j (by omega)
    omega

/-- The checked scan of `update_slots` is the scan, when no slot of the pool
comes out with count 0, the pool has at most `N` positions holding indices
below `N`, and the slots of the pool read markers that exist. -/
theorem update_loop_safe_eq (N : Nat) (g : Grid) (es : Nat → Nat) (c : Nat) (sl0 : Nat → slot)
    (nz : ∀ k < c, (refresh g (sl0 (es k))).valid_values_count ≠ 0)
    (hcN : c ≤ N) (hes : ∀ k < c, es k < N)
    (hmk : ∀ k < c, marksInBounds g (sl0 (es k))) (n : Nat) :
    ∀ (s cz : Nat) (st : sudoku), s + n = c →
    st.field = g → st.empty_slots = es → st.empty_slots_count = c →
    (∀ j, st.slots j = refresh g (sl0 j) ∨ st.slots j = sl0 j) →
    (∀ m, st.minimum_empty_slot = some m → m < N) →
    update_loop_safe N n s cz st = some (update_loop n s cz st) := by
  induction n with
  | zero =>
    intro s cz st _ _ _ _ _ _
    rfl
  | succ n ih =>
    intro s cz st hn hf he hc hsl hmin
    obtain ⟨f, sl, es1, mn, mi, c1⟩ := st
    simp only [] at hf he hc hsl hmin
    subst hf he hc
    have hsc : s < c1 := by omega
    have href : ∀ j, refresh f (sl j) = refresh f (sl0 j) := by
      intro j
      rcases hsl j with h | h
      · rw [h]; rfl
      · rw [h]
    have hnz : (refresh f (sl (es1 s))).valid_values_count ≠ 0 := by
      rw [href]
      exact nz s hsc
    have hguard : s < N ∧ es1 s < N ∧ marksInBounds f (sl (es1 s)) := by
      refine ⟨by omega, hes s hsc, ?_⟩
      rcases hsl (es1 s) with h | h
      · rw [h]
        exact hmk s hsc
      · rw [h]
        exact hmk s hsc
    have hsl1 : ∀ j, setv sl (es1 s) (refresh f (sl (es1 s))) j = refresh f (sl0 j) ∨
        setv sl (es1 s) (refresh f (sl (es1 s))) j = sl0 j := by
      intro j
      simp only [setv]
      split
      · rename_i e
        rw [e, href]
        exact Or.inl rfl
      · exact hsl j
    simp only [update_loop, update_loop_safe]
    rw [if_pos hsc, if_pos hsc, if_pos hguard, if_neg hnz, if_neg hnz]
    cases mn with
    | none =>
      simp only []
      exact ih _ _ _ (by omega) rfl rfl rfl hsl1 (fun m hm => by
        have : es1 s = m := Option.some.inj hm
        rw [← this]
        exact hes s hsc)
    | some m =>
      simp only []
      have hmN : m < N := hmin m rfl
      rw [if_pos hmN]
      by_cases hgt : (setv sl (es1 s) (refresh f (sl (es1 s))) m).valid_values_count
          > (refresh f (sl (es1 s))).valid_values_count
      · rw [if_pos hgt, if_pos hgt]
        exact ih _ _ _ (by omega) rfl rfl rfl hsl1 (fun m hm => by
          have : es1 s = m := Option.some.inj hm
          rw [← this]
          exact hes s hsc)
      · rw [if_neg hgt, if_neg hgt]
        exact ih _ _ _ (by omega) rfl rfl rfl hsl1 hmin

/-- The checked `update_slots` is `update_slots` on a pool of empty cells of
the board with at most `N` positions holding indices below `N`. -/
theorem update_slots_safe_eq (N : Nat) (st : sudoku) (he : Entry N st) :
    update_slots_safe N st = some (update_slots st) := by
  obtain ⟨hr, hok, hz, hcN, hlt, -⟩ := he
  have hloop := update_loop_safe_eq N st.field st.empty_slots st.empty_slots_count st.slots
    (fun k hk => refresh_count_ne_zero_of_empty _ _ (hz k hk)) hcN
    (fun k hk => hlt k (by omega))
    (fun k hk => marksInBounds_of_inRange _ hr _ (hok.1 k hk).1 (hok.1 k hk).2)
    st.empty_slots_count 0 0
    { st with minimum_empty_slot := none, minimum_empty_slot_index := 0 }
    (Nat.zero_add _) rfl rfl rfl (fun _ => Or.inr rfl) (fun m hm => by simp at hm)
  obtain ⟨-, -, -, h4, -, -, h7⟩ := update_scan_min st hz
  simp only [update_slots_safe, update_slots]
  rw [hloop]
  simp only []
  change (match move_minimum_safe N (update_scan st).2 with
    | none => none
    | some st1 => some ((update_scan st).1, st1)) = _
  generalize update_scan st = r at *
  obtain ⟨cz, ⟨f, sl, es, mn, mi, c⟩⟩ := r
  simp only [] at h4 h7
  cases mn with
  | none => rfl
  | some m =>
    obtain ⟨hi, -⟩ := h7
    have hg : 1 ≤ c ∧ c - 1 < N ∧ mi < N := by omega
    simp only [move_minimum_safe]
    rw [if_pos hg]

/-- The checked value loop of `solve` is the value loop with the recursive
call made only when the cell of `mysloth` is on the board. -/
theorem solve_values_safe_eq (N : Nat) (call : sudoku → Option (Bool × sudoku)) (m cz : Nat)
    (hm : m < N) (l : List Nat) (hl : ∀ i ∈ l, i ≤ 9) :
    ∀ st, solve_values_safe N call m cz l st =
      solve_values (fun s => if (s.slots m).x < 9 ∧ (s.slots m).y < 9 then call s else none)
        m cz l st := by
  induction l with
  | nil => intro st; rfl
  | cons i rest ih =>
    intro st
    have hi : i ≤ 9 := hl i (List.mem_cons_self i rest)
    have hrest : ∀ j ∈ rest, j ≤ 9 := fun j hj => hl j (List.mem_cons_of_mem i hj)
    have hg : m < N ∧ i < 10 := ⟨hm, by omega⟩
    simp only [solve_values_safe, solve_values]
    rw [if_pos hg]
    by_cases hv : (st.slots m).valid_values i = true
    · rw [if_pos hv, if_pos hv]
      by_cases hxy : (st.slots m).x < 9 ∧ (st.slots m).y < 9
      · rw [if_pos ⟨hxy.1, hxy.2, hi⟩, if_pos hxy]
        cases call { st with field := setCell st.field (st.slots m).x (st.slots m).y i } with
        | none => rfl
        | some p =>
          obtain ⟨b, s2⟩ := p
          cases b with
          | true => rfl
          | false => exact ih hrest s2
      · rw [if_neg (fun h => hxy ⟨h.1, h.2.1⟩), if_neg hxy]
    · rw [if_neg hv, if_neg hv]
      exact ih hrest st

/-- The checked body of `solve` returns what the body returns, when the
checked `update_slots` is not abandoned, the selected slot exists, and its
cell is on the board in every state the body reaches. -/
theorem solve_body_safe_eq (N : Nat) (call : sudoku → Option (Bool × sudoku)) (st : sudoku)
    (r : Bool × sudoku) (hu : update_slots_safe N st = some (update_slots st))
    (hm : ∀ m, (update_slots st).2.minimum_empty_slot = some m →
      m < N ∧ (r.2.slots m).x < 9 ∧ (r.2.slots m).y < 9)
    (h : solve_body (call_on_board st call) st = some r) :
    solve_body_safe N call st = some r := by
  simp only [solve_body_safe]
  rw [hu]
  have hcb : call_on_board st call = fun s =>
      match (update_slots st).2.minimum_empty_slot with
      | some m => if (s.slots m).x < 9 ∧ (s.slots m).y < 9 then call s else none
      | none => call s := rfl
  rw [hcb] at h
  simp only [solve_body] at h
  simp only []
  generalize update_slots st = u at *
  obtain ⟨cz, ⟨f, sl, es, mn, mi, c⟩⟩ := u
  cases mn with
  | none =>
    simp only [] at h ⊢
    exact h
  | some m =>
    simp only [] at h hm ⊢
    obtain ⟨hmN, hx, hy⟩ := hm m rfl
    rw [if_pos hmN]
    by_cases hv : (sl m).valid_values_count ≠ -1
    · rw [if_pos hv] at h ⊢
      rw [solve_values_safe_eq N call m cz hmN (List.range' 1 9) (by decide)]
      cases h1 : solve_values
          (fun s => if (s.slots m).x < 9 ∧ (s.slots m).y < 9 then call s else none) m cz
          (List.range' 1 9)
          { field := f, slots := sl, empty_slots := es, minimum_empty_slot := some m,
            minimum_empty_slot_index := mi, empty_slots_count := c - 1 } with
      | none => rw [h1] at h; simp at h
      | some p =>
        rw [h1] at h
        obtain ⟨b, s3⟩ := p
        cases b with
        | true => exact h
        | false =>
          have hr := Option.some.inj h
          subst hr
          simp only [solve_cleanup_safe]
          rw [if_pos ⟨hmN, hx, hy⟩]
          rfl
    · rw [if_neg hv] at h ⊢
      have hr := Option.some.inj h
      subst hr
      simp only [solve_cleanup_safe]
      rw [if_pos ⟨hmN, hx, hy⟩]
      rfl

/-- The checked `solve` entered in an entry state with enough depth allowed is
not abandoned, and meets the contract of `solve`. -/
theorem solve_safe_spec (N n : Nat) :
    ∀ st, Entry N st → st.empty_slots_count < n →
      ∃ b st2, solve_safe N n st = some (b, st2) ∧ Post st b st2 := by
  induction n with
  | zero => intro st _ h; omega
  | succ n ih =>
    intro st he hlt
    have hok := he.2.1
    have hz := he.2.2.1
    have hw := he.2.2.2
    have hsel : ∀ m, (update_slots st).2.minimum_empty_slot = some m →
        m < N ∧ (st.slots m).x < 9 ∧ (st.slots m).y < 9 := by
      intro m hm
      obtain ⟨-, -, -, -, -, h6, h7⟩ := update_slots_min st hz
      by_cases hc : st.empty_slots_count = 0
      · rw [(h6 hc).1] at hm
        simp at hm
      · obtain ⟨idx, hi, e, -⟩ := h7 (by omega)
        rw [e] at hm
        have hm2 : st.empty_slots idx = m := Option.some.inj hm
        rw [← hm2]
        exact ⟨hw.2.1 idx (by have := hw.1; omega), hok.1 idx hi⟩
    obtain ⟨b, st2, hb, hpost⟩ := solve_body_rel (call_on_board st (solve_safe N n)) st hok hz
      (by
        intro s h1 h2 h3 h4 h5 h6
        have hgo := ih s (entry_call N st s he h1 h2 h3 h4 h5 h6) (by omega)
        simp only [call_on_board]
        split
        · rename_i m hm
          obtain ⟨-, hx, hy⟩ := hsel m hm
          have hxy := h4.2.1 m
          simp only [] at hxy
          rw [if_pos ⟨by rw [hxy.1]; exact hx, by rw [hxy.2]; exact hy⟩]
          exact hgo
        · exact hgo)
    refine ⟨b, st2, ?_, hpost⟩
    simp only [solve_safe]
    apply solve_body_safe_eq N _ st (b, st2) (update_slots_safe_eq N st he) _ hb
    intro m hm
    obtain ⟨hmN, hx, hy⟩ := hsel m hm
    have hxy := hpost.1.2.1 m
    exact ⟨hmN, by show (st2.slots m).x < 9; rw [hxy.1]; exact hx,
      by show (st2.slots m).y < 9; rw [hxy.2]; exact hy⟩

/-- A filling of cells of a board with entries in 0..9 has entries in 0..9. -/
theorem inRange_of_post (st : sudoku) (b : Bool) (st2 : sudoku) (hr : InRange st.field)
    (hp : Post st b st2) : InRange st2.field := by
  obtain ⟨-, -, hf, ht⟩ := hp
  intro i hi j hj
  cases b with
  | false =>
    rw [(hf rfl).1 i j]
    exact hr i hi j hj
  | true =>
    obtain ⟨hout, hin⟩ := ht rfl
    by_cases ha : Act st i j
    · exact (hin i j ha).2.1
    · rw [hout i j ha]
      exact hr i hi j hj

/-- Claim C20: on the model that `init` builds for a board with entries in
0..9, with as many slots as the board has empty cells, `solve` with every
array access of `solve` and `update_slots` checked (cell coordinates below 9,
marker indices below 10, indices into `slots` and `empty_slots` below the
number of slots, `empty_slots[empty_slots_count-1]` read only with a count of
at least 1) and every value written into the board checked to be at most 9 is
never abandoned: it returns what `solve` returns, and the board it leaves has
entries in 0..9. -/
theorem solve_in_bounds (g : Grid) (hr : InRange g) :
    ∃ r, run g = some r ∧ solve_safe (zeros g) (zeros g + 1) (start g) = some r ∧
      InRange r.2.field := by
  obtain ⟨b, st2, h, hp⟩ := solve_safe_spec (zeros g) (zeros g + 1) (start g)
    (start_entry g hr) (by rw [start_count]; omega)
  exact ⟨(b, st2), solve_safe_sub _ _ _ _ h, h, inRange_of_post _ b st2 hr hp⟩

theorem solve_in_bounds_witness :
    InRange fourGaps ∧
    (∃ r, run fourGaps = some r ∧
      solve_safe (zeros fourGaps) (zeros fourGaps + 1) (start fourGaps) = some r ∧
      InRange r.2.field) ∧
    (solve_safe 3 (zeros fourGaps + 1) (start fourGaps)).isSome = false :=
  ⟨by decide, solve_in_bounds fourGaps (by decide), by decide⟩

end Fss
